import Mathlib

/-!
# Search server: a shallow embedding of `testing.cpp`

The C++ containers are modelled by lists:

* `std::set<string>` is a list of strings kept in ascending order without
  repetitions (`setInsert`);
* `std::map<K, V>` is a list of key/value pairs kept in ascending key order
  (`mapFind`, `mapUpdate`, `mapEmplace`, `mapErase`);
* `std::vector<T>` is a list.

`map::at` throws `std::out_of_range` on a missing key; a function that can
throw returns an `Option`, `none` standing for the exception.

A value of type `int` is an integer, reduced to the 32-bit two's complement
range after the arithmetic of `ComputeAverageRating` and after a conversion
from a size (`wrapInt32`).

A `double` holding a term frequency is an exact rational.  A `double` holding a
relevance is an element of an arbitrary linearly ordered field `R`, and the
library function `log` is a parameter `ln : ℚ → R` of the functions that call
it; the theorems that need the real logarithm instantiate `R` with `ℝ`.

The library function `std::sort` is modelled by insertion sort (`sort`).
-/

namespace SearchServer

/-! ## Containers -/

/-- The call `m.find(k)` on a `std::map`: the value stored under `k`, if any. -/
def mapFind {K V : Type} [DecidableEq K] : List (K × V) → K → Option V
  | [], _ => none
  | (k', v) :: m, k => if k = k' then some v else mapFind m k

/-- The call `m.count(k)` on a `std::map`. -/
def mapCount {K V : Type} [DecidableEq K] (m : List (K × V)) (k : K) : Nat :=
  if (mapFind m k).isSome then 1 else 0

/-- Replaces the value stored under an existing key. -/
def mapReplace {K V : Type} [DecidableEq K] : List (K × V) → K → V → List (K × V)
  | [], _, _ => []
  | (k', v') :: m, k, v => if k = k' then (k', v) :: m else (k', v') :: mapReplace m k v

/-- Inserts a new key at its place in the ascending key order. -/
def mapInsertNew {K V : Type} [LinearOrder K] : List (K × V) → K → V → List (K × V)
  | [], k, v => [(k, v)]
  | (k', v') :: m, k, v =>
    if k < k' then (k, v) :: (k', v') :: m else (k', v') :: mapInsertNew m k v

/-- The statement `m[k] = f(m[k])` on a `std::map`, where `operator[]` first
creates the entry with the value `dflt` when the key is missing. -/
def mapUpdate {K V : Type} [DecidableEq K] [LinearOrder K] (m : List (K × V)) (k : K) (dflt : V)
    (f : V → V) : List (K × V) :=
  match mapFind m k with
  | some v => mapReplace m k (f v)
  | none => mapInsertNew m k (f dflt)

/-- The call `m.emplace(k, v)` on a `std::map`: inserts only when the key is
missing, and leaves an existing entry as it is. -/
def mapEmplace {K V : Type} [DecidableEq K] [LinearOrder K] (m : List (K × V)) (k : K) (v : V) :
    List (K × V) :=
  match mapFind m k with
  | some _ => m
  | none => mapInsertNew m k v

/-- The call `m.erase(k)` on a `std::map`. -/
def mapErase {K V : Type} [DecidableEq K] (m : List (K × V)) (k : K) : List (K × V) :=
  m.filter (fun e => decide (e.1 ≠ k))

/-- Inserts a new element at its place in the ascending order. -/
def setInsertNew {K : Type} [LinearOrder K] : List K → K → List K
  | [], k => [k]
  | k' :: s, k => if k < k' then k :: k' :: s else k' :: setInsertNew s k

/-- The call `s.insert(k)` on a `std::set`. -/
def setInsert {K : Type} [DecidableEq K] [LinearOrder K] (s : List K) (k : K) : List K :=
  if k ∈ s then s else setInsertNew s k

/-- Inserts `x` before the first element that `comp` puts after it. -/
def sortInsert {α : Type} (comp : α → α → Bool) (x : α) : List α → List α
  | [] => [x]
  | y :: ys => if comp x y then x :: y :: ys else y :: sortInsert comp x ys

/-- One implementation of the call `std::sort(v.begin(), v.end(), comp)`,
insertion sort: the elements are taken from left to right and each is inserted
into the part sorted so far. It meets the contract `StdSort` below; what is
proved of the order of the results is proved for every function that meets
this contract. -/
def sort {α : Type} (comp : α → α → Bool) (v : List α) : List α :=
  v.foldl (fun sorted x => sortInsert comp x sorted) []

/-- The requirement of `std::sort` on its comparison, for the elements of the
vector `v`: `comp` is a strict weak ordering on them. -/
structure StrictWeakOrderOn {α : Type} (comp : α → α → Bool) (v : List α) : Prop where
  irrefl : ∀ a ∈ v, comp a a = false
  trans : ∀ a ∈ v, ∀ b ∈ v, ∀ c ∈ v, comp a b = true → comp b c = true → comp a c = true
  incomp_trans : ∀ a ∈ v, ∀ b ∈ v, ∀ c ∈ v,
    comp a b = false → comp b a = false → comp b c = false → comp c b = false →
    comp a c = false ∧ comp c a = false

/-- The contract of `std::sort`, for a function `sortFn` that stands for it:
the result is a rearrangement of the vector, and when the comparison is a
strict weak ordering on the elements of the vector, the result is sorted: no
element has to be put before an element that precedes it. When the comparison
is no strict weak ordering, nothing is said of the order. -/
structure StdSort {α : Type} (sortFn : (α → α → Bool) → List α → List α) : Prop where
  perm : ∀ comp v, (sortFn comp v).Perm v
  sorted : ∀ comp v, StrictWeakOrderOn comp v →
    (sortFn comp v).Pairwise (fun a b => comp b a = false)

/-! ## The program -/

/-- The constant `MAX_RESULT_DOCUMENT_COUNT`. -/
def MAX_RESULT_DOCUMENT_COUNT : Nat := 5

/-- One step of the loop of `SplitIntoWords`: `st` is the pair
`(words, word)` and `c` the character read. -/
def splitStep (st : List String × List Char) (c : Char) : List String × List Char :=
  if c = ' ' then
    (if st.2 ≠ [] then (st.1 ++ [String.mk st.2], []) else st)
  else
    (st.1, st.2 ++ [c])

/-- The function `SplitIntoWords`. -/
def SplitIntoWords (text : String) : List String :=
  let st := text.data.foldl splitStep ([], [])
  if st.2 ≠ [] then st.1 ++ [String.mk st.2] else st.1

/-- The struct `Document`. -/
structure Document (R : Type) where
  id : Int
  relevance : R
  rating : Int

/-- The enum `DocumentStatus`. -/
inductive DocumentStatus where
  | ACTUAL
  | IRRELEVANT
  | BANNED
  | REMOVED
  deriving DecidableEq, Repr

/-- The struct `SearchServer::DocumentData`. -/
structure DocumentData where
  rating : Int
  status : DocumentStatus
  deriving DecidableEq, Repr

/-- The struct `SearchServer::QueryWord`. -/
structure QueryWord where
  data : String
  is_minus : Bool
  is_stop : Bool
  deriving DecidableEq, Repr

/-- The struct `SearchServer::Query`. -/
structure Query where
  plus_words : List String
  minus_words : List String
  deriving DecidableEq, Repr

/-- The data members of the class `SearchServer`. -/
structure Server where
  stop_words_ : List String
  word_to_document_freqs_ : List (String × List (Int × ℚ))
  documents_ : List (Int × DocumentData)
  deriving DecidableEq, Repr

/-- A freshly constructed `SearchServer`. -/
def Server.empty : Server := ⟨[], [], []⟩

/-- The method `SetStopWords`. -/
def SetStopWords (s : Server) (text : String) : Server :=
  { s with stop_words_ := (SplitIntoWords text).foldl setInsert s.stop_words_ }

/-- The method `IsStopWord`. -/
def IsStopWord (s : Server) (word : String) : Bool :=
  decide (word ∈ s.stop_words_)

/-- The method `SplitIntoWordsNoStop`. -/
def SplitIntoWordsNoStop (s : Server) (text : String) : List String :=
  (SplitIntoWords text).filter (fun word => !IsStopWord s word)

/-- A value of type `int` after an arithmetic operation: the result is reduced
to the 32-bit two's complement range. -/
def wrapInt32 (x : Int) : Int :=
  (x + 2147483648) % 4294967296 - 2147483648

/-- The method `ComputeAverageRating`. -/
def ComputeAverageRating (ratings : List Int) : Int :=
  if ratings = [] then 0
  else
    let rating_sum := ratings.foldl (fun sum rating => wrapInt32 (sum + rating)) 0
    wrapInt32 (Int.tdiv rating_sum (wrapInt32 (ratings.length : Int)))

/-- The method `AddDocument`, with the term frequencies as exact rational
numbers (`AddDocumentDouble` computes them in the arithmetic of `double`). The
document id is a value of the type `int`, from `-2^31` to `2^31 - 1`. -/
def AddDocument (s : Server) (document_id : Int) (document : String)
    (status : DocumentStatus) (ratings : List Int) : Server :=
  let words := SplitIntoWordsNoStop s document
  let inv_word_count : ℚ := 1 / (words.length : ℚ)
  { s with
    word_to_document_freqs_ :=
      words.foldl
        (fun freqs word =>
          mapUpdate freqs word []
            (fun docs => mapUpdate docs document_id 0 (fun tf => tf + inv_word_count)))
        s.word_to_document_freqs_
    documents_ :=
      mapEmplace s.documents_ document_id ⟨ComputeAverageRating ratings, status⟩ }

/-- The method `GetDocumentCount`. -/
def GetDocumentCount (s : Server) : Int :=
  wrapInt32 (s.documents_.length : Int)

/-- The method `ParseQueryWord`. -/
def ParseQueryWord (s : Server) (text : String) : QueryWord :=
  match text.data with
  | '-' :: rest => ⟨String.mk rest, true, IsStopWord s (String.mk rest)⟩
  | _ => ⟨text, false, IsStopWord s text⟩

/-- The method `ParseQuery`. -/
def ParseQuery (s : Server) (text : String) : Query :=
  (SplitIntoWords text).foldl
    (fun query word =>
      let query_word := ParseQueryWord s word
      if !query_word.is_stop then
        if query_word.is_minus then
          { query with minus_words := setInsert query.minus_words query_word.data }
        else
          { query with plus_words := setInsert query.plus_words query_word.data }
      else query)
    ⟨[], []⟩

/-- The call `m.at(k)` on a `std::map`; `none` is the exception
`std::out_of_range`. -/
def mapAt {K V : Type} [DecidableEq K] (m : List (K × V)) (k : K) : Option V :=
  mapFind m k

/-- The method `ComputeWordInverseDocumentFreq`, with an exact quotient and a
function `ln` into an ordered field for the logarithm. -/
def ComputeWordInverseDocumentFreq {R : Type} (ln : ℚ → R) (s : Server) (word : String) :
    Option R := do
  let docs ← mapAt s.word_to_document_freqs_ word
  pure (ln ((GetDocumentCount s : ℚ) * 1 / (docs.length : ℚ)))

/-- The inner loop of the first part of `FindAllDocuments`: the entries
`(document_id, term_freq)` of one word are added to `document_to_relevance`,
with the exact arithmetic of an ordered field (`addWordRelevanceDouble` is the
loop in the arithmetic of `double`). -/
def addWordRelevance {R : Type} [LinearOrderedField R] (s : Server)
    (filter : Int → DocumentStatus → Int → Bool) (inverse_document_freq : R) :
    List (Int × ℚ) → List (Int × R) → Option (List (Int × R))
  | [], document_to_relevance => some document_to_relevance
  | (document_id, term_freq) :: rest, document_to_relevance =>
    if mapCount s.documents_ document_id ≠ 0 then do
      let data ← mapAt s.documents_ document_id
      if filter document_id data.status data.rating then
        addWordRelevance s filter inverse_document_freq rest
          (mapUpdate document_to_relevance document_id 0
            (fun relevance => relevance + (term_freq : R) * inverse_document_freq))
      else
        addWordRelevance s filter inverse_document_freq rest document_to_relevance
    else
      addWordRelevance s filter inverse_document_freq rest document_to_relevance

/-- The first loop of `FindAllDocuments`, over the plus-words. -/
def addPlusWords {R : Type} [LinearOrderedField R] (ln : ℚ → R) (s : Server)
    (filter : Int → DocumentStatus → Int → Bool) :
    List String → List (Int × R) → Option (List (Int × R))
  | [], document_to_relevance => some document_to_relevance
  | word :: rest, document_to_relevance =>
    if mapCount s.word_to_document_freqs_ word = 0 then
      addPlusWords ln s filter rest document_to_relevance
    else do
      let inverse_document_freq ← ComputeWordInverseDocumentFreq ln s word
      let docs ← mapAt s.word_to_document_freqs_ word
      let document_to_relevance ←
        addWordRelevance s filter inverse_document_freq docs document_to_relevance
      addPlusWords ln s filter rest document_to_relevance

/-- The second loop of `FindAllDocuments`, over the minus-words. -/
def eraseMinusWords {R : Type} (s : Server) :
    List String → List (Int × R) → Option (List (Int × R))
  | [], document_to_relevance => some document_to_relevance
  | word :: rest, document_to_relevance =>
    if mapCount s.word_to_document_freqs_ word = 0 then
      eraseMinusWords s rest document_to_relevance
    else do
      let docs ← mapAt s.word_to_document_freqs_ word
      eraseMinusWords s rest
        (docs.foldl (fun m e => mapErase m e.1) document_to_relevance)

/-- The last loop of `FindAllDocuments`, which builds the vector of documents. -/
def collectDocuments {R : Type} (s : Server) :
    List (Int × R) → Option (List (Document R))
  | [] => some []
  | (document_id, relevance) :: rest => do
    let data ← mapAt s.documents_ document_id
    let matched_documents ← collectDocuments s rest
    pure (⟨document_id, relevance, data.rating⟩ :: matched_documents)

/-- The method `FindAllDocuments`. -/
def FindAllDocuments {R : Type} [LinearOrderedField R] (ln : ℚ → R) (s : Server)
    (query : Query) (filter : Int → DocumentStatus → Int → Bool) :
    Option (List (Document R)) := do
  let document_to_relevance ← addPlusWords ln s filter query.plus_words []
  let document_to_relevance ← eraseMinusWords s query.minus_words document_to_relevance
  collectDocuments s document_to_relevance

/-- The comparison passed to `sort` in `FindTopDocuments`. -/
def compareDocuments {R : Type} [LinearOrderedField R] (lhs rhs : Document R) : Bool :=
  if |lhs.relevance - rhs.relevance| < 1 / 1000000 then
    decide (lhs.rating > rhs.rating)
  else
    decide (lhs.relevance > rhs.relevance)

/-- The loop of `FindTopDocuments` that keeps the documents accepted by
`filter`. -/
def keepFiltered {R : Type} (s : Server) (filter : Int → DocumentStatus → Int → Bool) :
    List (Document R) → Option (List (Document R))
  | [] => some []
  | doc :: rest => do
    let data ← mapAt s.documents_ doc.id
    let matched_documents ← keepFiltered s filter rest
    if filter doc.id data.status doc.rating then pure (doc :: matched_documents)
    else pure matched_documents

/-- The method `FindTopDocuments` with a predicate. -/
def FindTopDocuments {R : Type} [LinearOrderedField R] (ln : ℚ → R) (s : Server)
    (raw_query : String) (filter : Int → DocumentStatus → Int → Bool) :
    Option (List (Document R)) := do
  let query := ParseQuery s raw_query
  let all_documents ← FindAllDocuments ln s query filter
  let matched_documents ← keepFiltered s filter all_documents
  let matched_documents := sort compareDocuments matched_documents
  if matched_documents.length > MAX_RESULT_DOCUMENT_COUNT then
    pure (matched_documents.take MAX_RESULT_DOCUMENT_COUNT)
  else
    pure matched_documents

/-- The method `FindTopDocuments` with a predicate, with the function that
stands for `std::sort` as a parameter. -/
def FindTopDocumentsWith {R : Type} [LinearOrderedField R]
    (sortFn : (Document R → Document R → Bool) → List (Document R) → List (Document R))
    (ln : ℚ → R) (s : Server) (raw_query : String)
    (filter : Int → DocumentStatus → Int → Bool) : Option (List (Document R)) := do
  let query := ParseQuery s raw_query
  let all_documents ← FindAllDocuments ln s query filter
  let matched_documents ← keepFiltered s filter all_documents
  let matched_documents := sortFn compareDocuments matched_documents
  if matched_documents.length > MAX_RESULT_DOCUMENT_COUNT then
    pure (matched_documents.take MAX_RESULT_DOCUMENT_COUNT)
  else
    pure matched_documents

/-- The method `FindTopDocuments` with a status. -/
def FindTopDocumentsByStatus {R : Type} [LinearOrderedField R] (ln : ℚ → R) (s : Server)
    (raw_query : String) (status0 : DocumentStatus) : Option (List (Document R)) :=
  FindTopDocuments ln s raw_query (fun _id status _rating => decide (status0 = status))

/-- The method `FindTopDocuments` with the query alone. -/
def FindTopDocumentsActual {R : Type} [LinearOrderedField R] (ln : ℚ → R) (s : Server)
    (raw_query : String) : Option (List (Document R)) :=
  FindTopDocumentsByStatus ln s raw_query DocumentStatus.ACTUAL

/-- The first loop of `MatchDocument`, over the plus-words. -/
def matchPlusWords (s : Server) (document_id : Int) :
    List String → List String → Option (List String)
  | [], matched_words => some matched_words
  | word :: rest, matched_words =>
    if mapCount s.word_to_document_freqs_ word = 0 then
      matchPlusWords s document_id rest matched_words
    else do
      let docs ← mapAt s.word_to_document_freqs_ word
      if mapCount docs document_id ≠ 0 then
        matchPlusWords s document_id rest (matched_words ++ [word])
      else
        matchPlusWords s document_id rest matched_words

/-- The second loop of `MatchDocument`, over the minus-words, which leaves at
the first minus-word found in the document. -/
def matchMinusWords (s : Server) (document_id : Int) :
    List String → List String → Option (List String)
  | [], matched_words => some matched_words
  | word :: rest, matched_words =>
    if mapCount s.word_to_document_freqs_ word = 0 then
      matchMinusWords s document_id rest matched_words
    else do
      let docs ← mapAt s.word_to_document_freqs_ word
      if mapCount docs document_id ≠ 0 then
        pure []
      else
        matchMinusWords s document_id rest matched_words

/-- The method `MatchDocument`. -/
def MatchDocument (s : Server) (raw_query : String) (document_id : Int) :
    Option (List String × DocumentStatus) := do
  let query := ParseQuery s raw_query
  let matched_words ← matchPlusWords s document_id query.plus_words []
  let matched_words ← matchMinusWords s document_id query.minus_words matched_words
  let data ← mapAt s.documents_ document_id
  pure (matched_words, data.status)

/-! ## The program in the arithmetic of the type `double`

The definitions above compute the term frequencies and the relevances with
exact rational and real arithmetic. The definitions of this section compute
them as the program does, with values of the type `double`: every arithmetic
operation is rounded to the nearest value of the type, and the library
function `log` is a parameter `lnD`. The values are rational numbers. -/

/-- The loop of `log2Floor`, with a bound on the number of its steps. -/
def log2Loop : Nat → Nat → Nat
  | 0, _ => 0
  | fuel + 1, n => if n < 2 then 0 else log2Loop fuel (n / 2) + 1

/-- The number `e` with `2 ^ e ≤ n < 2 ^ (e + 1)`, for a positive `n`. -/
def log2Floor (n : Nat) : Nat := log2Loop n n

/-- The power `2 ^ k` for an integer `k`. -/
def pow2 (k : Int) : ℚ :=
  if 0 ≤ k then ((2 ^ k.toNat : Nat) : ℚ) else 1 / ((2 ^ (-k).toNat : Nat) : ℚ)

/-- The exponent `e` with `2 ^ e ≤ x < 2 ^ (e + 1)`, for a positive `x`. -/
def binade (x : ℚ) : Int :=
  let k : Int := (log2Floor x.num.natAbs : Int) - (log2Floor x.den : Int)
  if pow2 k ≤ x then k else k - 1

/-- The integer nearest to a non-negative `x`, the even one when two integers
are nearest. -/
def roundHalfEven (x : ℚ) : Int :=
  let f := Rat.floor x
  if x - f < 1 / 2 then f
  else if 1 / 2 < x - f then f + 1
  else if f % 2 = 0 then f else f + 1

/-- The value of the type `double` nearest to `x`, the one with the even
significand when two values are nearest (the rounding of IEEE 754 binary64
arithmetic): a significand of 53 bits times a power of 2. The range of the
exponent is not bounded. -/
def roundDouble (x : ℚ) : ℚ :=
  if x = 0 then 0
  else
    let e := binade |x| - 52
    let m := roundHalfEven (|x| / pow2 e)
    (if x < 0 then -1 else 1) * (m : ℚ) * pow2 e

/-- The method `AddDocument` in the arithmetic of `double`: `inv_word_count` is
the `double` quotient `1.0 / words.size()`, and every `+=` rounds its sum. -/
def AddDocumentDouble (s : Server) (document_id : Int) (document : String)
    (status : DocumentStatus) (ratings : List Int) : Server :=
  let words := SplitIntoWordsNoStop s document
  let inv_word_count : ℚ := roundDouble (1 / roundDouble (words.length : ℚ))
  { s with
    word_to_document_freqs_ :=
      words.foldl
        (fun freqs word =>
          mapUpdate freqs word []
            (fun docs => mapUpdate docs document_id 0
              (fun tf => roundDouble (tf + inv_word_count))))
        s.word_to_document_freqs_
    documents_ :=
      mapEmplace s.documents_ document_id ⟨ComputeAverageRating ratings, status⟩ }

/-- The method `ComputeWordInverseDocumentFreq` in the arithmetic of `double`;
`lnD` stands for the library function `log`. -/
def ComputeWordInverseDocumentFreqDouble (lnD : ℚ → ℚ) (s : Server) (word : String) :
    Option ℚ := do
  let docs ← mapAt s.word_to_document_freqs_ word
  pure (lnD (roundDouble
    (roundDouble ((GetDocumentCount s : ℚ) * 1) / roundDouble (docs.length : ℚ))))

/-- The inner loop of the first part of `FindAllDocuments` in the arithmetic of
`double`: the product and the sum of `+=` are rounded. -/
def addWordRelevanceDouble (s : Server)
    (filter : Int → DocumentStatus → Int → Bool) (inverse_document_freq : ℚ) :
    List (Int × ℚ) → List (Int × ℚ) → Option (List (Int × ℚ))
  | [], document_to_relevance => some document_to_relevance
  | (document_id, term_freq) :: rest, document_to_relevance =>
    if mapCount s.documents_ document_id ≠ 0 then do
      let data ← mapAt s.documents_ document_id
      if filter document_id data.status data.rating then
        addWordRelevanceDouble s filter inverse_document_freq rest
          (mapUpdate document_to_relevance document_id 0
            (fun relevance =>
              roundDouble (relevance + roundDouble (term_freq * inverse_document_freq))))
      else
        addWordRelevanceDouble s filter inverse_document_freq rest document_to_relevance
    else
      addWordRelevanceDouble s filter inverse_document_freq rest document_to_relevance

/-- The first loop of `FindAllDocuments`, over the plus-words, in the
arithmetic of `double`. -/
def addPlusWordsDouble (lnD : ℚ → ℚ) (s : Server)
    (filter : Int → DocumentStatus → Int → Bool) :
    List String → List (Int × ℚ) → Option (List (Int × ℚ))
  | [], document_to_relevance => some document_to_relevance
  | word :: rest, document_to_relevance =>
    if mapCount s.word_to_document_freqs_ word = 0 then
      addPlusWordsDouble lnD s filter rest document_to_relevance
    else do
      let inverse_document_freq ← ComputeWordInverseDocumentFreqDouble lnD s word
      let docs ← mapAt s.word_to_document_freqs_ word
      let document_to_relevance ←
        addWordRelevanceDouble s filter inverse_document_freq docs document_to_relevance
      addPlusWordsDouble lnD s filter rest document_to_relevance

/-- The method `FindAllDocuments` in the arithmetic of `double`. -/
def FindAllDocumentsDouble (lnD : ℚ → ℚ) (s : Server)
    (query : Query) (filter : Int → DocumentStatus → Int → Bool) :
    Option (List (Document ℚ)) := do
  let document_to_relevance ← addPlusWordsDouble lnD s filter query.plus_words []
  let document_to_relevance ← eraseMinusWords s query.minus_words document_to_relevance
  collectDocuments s document_to_relevance

/-- The comparison passed to `sort` in `FindTopDocuments`, in the arithmetic of
`double`: the difference is rounded, and `1e-6` is the nearest `double`. -/
def compareDocumentsDouble (lhs rhs : Document ℚ) : Bool :=
  if |roundDouble (lhs.relevance - rhs.relevance)| < roundDouble (1 / 1000000) then
    decide (lhs.rating > rhs.rating)
  else
    decide (lhs.relevance > rhs.relevance)

/-- The method `FindTopDocuments` with a predicate in the arithmetic of
`double`, with the function that stands for `std::sort` as a parameter. -/
def FindTopDocumentsDouble
    (sortFn : (Document ℚ → Document ℚ → Bool) → List (Document ℚ) → List (Document ℚ))
    (lnD : ℚ → ℚ) (s : Server) (raw_query : String)
    (filter : Int → DocumentStatus → Int → Bool) : Option (List (Document ℚ)) := do
  let query := ParseQuery s raw_query
  let all_documents ← FindAllDocumentsDouble lnD s query filter
  let matched_documents ← keepFiltered s filter all_documents
  let matched_documents := sortFn compareDocumentsDouble matched_documents
  if matched_documents.length > MAX_RESULT_DOCUMENT_COUNT then
    pure (matched_documents.take MAX_RESULT_DOCUMENT_COUNT)
  else
    pure matched_documents

/-! ## Notions used to state the properties -/

/-- The keys of a map, in iteration order. -/
def mapKeys {K V : Type} (m : List (K × V)) : List K := m.map Prod.fst

/-- The document `document_id` is in the index entry of `word`. -/
def inIndexEntry (s : Server) (word : String) (document_id : Int) : Bool :=
  match mapFind s.word_to_document_freqs_ word with
  | some docs => (mapFind docs document_id).isSome
  | none => false

/-- The term frequency stored in the index for `word` and `document_id`, and
`0` when there is none. -/
def storedFreq (s : Server) (word : String) (document_id : Int) : ℚ :=
  match mapFind s.word_to_document_freqs_ word with
  | some docs => (mapFind docs document_id).getD 0
  | none => 0

/-- The number of documents in the index entry of `word`. -/
def documentFreq (s : Server) (word : String) : Nat :=
  match mapFind s.word_to_document_freqs_ word with
  | some docs => docs.length
  | none => 0

/-- The term frequency stored for `word` and `document_id` in an index, if any. -/
def freqAt (index : List (String × List (Int × ℚ))) (word : String) (document_id : Int) :
    Option ℚ :=
  (mapFind index word).bind (fun docs => mapFind docs document_id)

/-- The document `document_id` is in the store and `filter` accepts it with
its stored status and rating. -/
def accepts (s : Server) (filter : Int → DocumentStatus → Int → Bool)
    (document_id : Int) : Bool :=
  match mapFind s.documents_ document_id with
  | some data => filter document_id data.status data.rating
  | none => false

/-- The document `document_id` is in the index entry of some word of `words`. -/
def inSomeEntry (s : Server) (words : List String) (document_id : Int) : Bool :=
  words.any (fun word => inIndexEntry s word document_id)

/-- The sum, over the words of `words` whose index entry holds `document_id`,
of the stored term frequency times `ln (N / df)`. -/
def relevanceOf {R : Type} [LinearOrderedField R] (ln : ℚ → R) (s : Server)
    (words : List String) (document_id : Int) : R :=
  ((words.filter (fun word => inIndexEntry s word document_id)).map
    (fun word => (storedFreq s word document_id : R) *
      ln ((GetDocumentCount s : ℚ) * 1 / (documentFreq s word : ℚ)))).sum

/-- The stored entry `e` answers `query` under `filter`: the filter accepts it,
some plus-word has it in its index entry and no minus-word has. -/
def qualifies (s : Server) (query : Query) (filter : Int → DocumentStatus → Int → Bool)
    (e : Int × DocumentData) : Bool :=
  filter e.1 e.2.status e.2.rating && inSomeEntry s query.plus_words e.1 &&
    !inSomeEntry s query.minus_words e.1

/-- The documents that answer `query` under `filter`, in ascending order of
their ids, each with its relevance and stored rating. -/
def candidates {R : Type} [LinearOrderedField R] (ln : ℚ → R) (s : Server)
    (query : Query) (filter : Int → DocumentStatus → Int → Bool) : List (Document R) :=
  (s.documents_.filter (qualifies s query filter)).map
    (fun e => ⟨e.1, relevanceOf ln s query.plus_words e.1, e.2.rating⟩)

/-- The result of `FindTopDocuments` on the list of documents that passed
the second check of `filter`. -/
def topOf {R : Type} [LinearOrderedField R] (matched_documents : List (Document R)) :
    List (Document R) :=
  if (sort compareDocuments matched_documents).length > MAX_RESULT_DOCUMENT_COUNT then
    (sort compareDocuments matched_documents).take MAX_RESULT_DOCUMENT_COUNT
  else sort compareDocuments matched_documents

/-- Being tied is transitive among the documents of `v`: when the relevances
of `a` and `b` and the relevances of `b` and `c` differ by less than `1e-6`, so
do the relevances of `a` and `c`. -/
def TiesTransitive {R : Type} [LinearOrderedField R] (v : List (Document R)) : Prop :=
  ∀ a ∈ v, ∀ b ∈ v, ∀ c ∈ v,
    |a.relevance - b.relevance| < 1 / 1000000 → |b.relevance - c.relevance| < 1 / 1000000 →
    |a.relevance - c.relevance| < 1 / 1000000

/-- The order of two documents of a sorted result, `a` before `b`: when their
relevances differ by less than `1e-6` the rating of `a` is at least the rating
of `b`, and otherwise the relevance of `a` is greater. -/
def InOrder {R : Type} [LinearOrderedField R] (a b : Document R) : Prop :=
  (|a.relevance - b.relevance| < 1 / 1000000 → a.rating ≥ b.rating) ∧
  (¬ |a.relevance - b.relevance| < 1 / 1000000 → a.relevance > b.relevance) ∧
  b.relevance - a.relevance < 1 / 1000000

/-- The default predicate of `FindTopDocuments`: the status is `ACTUAL`. -/
def actualFilter : Int → DocumentStatus → Int → Bool :=
  fun _id status _rating => decide (DocumentStatus.ACTUAL = status)

/-- The states of a server: the fresh one and those obtained by calls of
`SetStopWords` and `AddDocument`. -/
inductive Reachable : Server → Prop
  | empty : Reachable Server.empty
  | setStopWords (s : Server) (text : String) :
      Reachable s → Reachable (SetStopWords s text)
  | addDocument (s : Server) (document_id : Int) (document : String)
      (status : DocumentStatus) (ratings : List Int) :
      Reachable s → Reachable (AddDocument s document_id document status ratings)

/-- The arguments of one call of `AddDocument`. -/
structure AddDocumentCall where
  document_id : Int
  document : String
  status : DocumentStatus
  ratings : List Int

/-- The state after a sequence of calls of `AddDocument`. -/
def addDocuments (s : Server) (calls : List AddDocumentCall) : Server :=
  calls.foldl (fun s c => AddDocument s c.document_id c.document c.status c.ratings) s

/-- The state after a sequence of calls of `SetStopWords`. -/
def setStopWordsAll (s : Server) (texts : List String) : Server :=
  texts.foldl SetStopWords s

/-- The index entries of a server hold each document id once. -/
def EntriesNodup (s : Server) : Prop :=
  ∀ word docs, mapFind s.word_to_document_freqs_ word = some docs → (mapKeys docs).Nodup

/-- The maps of a server are in ascending key order. -/
structure WellFormed (s : Server) : Prop where
  index : (mapKeys s.word_to_document_freqs_).Sorted (· < ·)
  entries : ∀ word docs, mapFind s.word_to_document_freqs_ word = some docs →
    (mapKeys docs).Sorted (· < ·)
  documents : (mapKeys s.documents_).Sorted (· < ·)

/-- The sum of the term frequencies stored for `document_id` in all the
entries of the index. -/
def freqSum (s : Server) (document_id : Int) : ℚ :=
  (s.word_to_document_freqs_.map (fun e => (mapFind e.2 document_id).getD 0)).sum

/-- The invariant of the index: every document id of an entry of the inverted
index is a key of the document store, every entry of the index holds a
document id, and every stored term frequency is positive. -/
structure IndexInvariant (s : Server) : Prop where
  ids : ∀ e ∈ s.word_to_document_freqs_, ∀ p ∈ e.2, p.1 ∈ mapKeys s.documents_
  nonempty : ∀ e ∈ s.word_to_document_freqs_, e.2 ≠ []
  positive : ∀ e ∈ s.word_to_document_freqs_, ∀ p ∈ e.2, 0 < p.2

/-- The body of the loop of `ParseQuery`. -/
def parseStep (s : Server) (query : Query) (word : String) : Query :=
  let query_word := ParseQueryWord s word
  if !query_word.is_stop then
    if query_word.is_minus then
      { query with minus_words := setInsert query.minus_words query_word.data }
    else
      { query with plus_words := setInsert query.plus_words query_word.data }
  else query

/-- The words that the loop of `SplitIntoWords` and the step after it yield for
the characters `cs` still to read when the variable `word` holds `word`. -/
def splitFrom (word : List Char) : List Char → List String
  | [] => if word ≠ [] then [String.mk word] else []
  | c :: cs =>
    if c = ' ' then
      (if word ≠ [] then String.mk word :: splitFrom [] cs else splitFrom [] cs)
    else splitFrom (word ++ [c]) cs

/-- The maximal runs of characters other than the space in a text, from left
to right: the pieces between the spaces, without the empty ones. -/
def maximalRuns (text : String) : List String :=
  ((text.data.splitOn ' ').filter (fun run => decide (run ≠ []))).map String.mk

/-- The words `ws` joined by single spaces. -/
def joinWithSpaces (ws : List String) : String :=
  String.mk (List.intercalate [' '] (ws.map String.data))

/-- The variant of `FindTopDocuments` of the design notes, with a single
application of the predicate: it sorts and truncates the documents that
`FindAllDocuments` returns, without checking `filter` on them again. -/
def FindTopDocumentsSingleFilter {R : Type} [LinearOrderedField R] (ln : ℚ → R) (s : Server)
    (raw_query : String) (filter : Int → DocumentStatus → Int → Bool) :
    Option (List (Document R)) := do
  let query := ParseQuery s raw_query
  let matched_documents ← FindAllDocuments ln s query filter
  let matched_documents := sort compareDocuments matched_documents
  if matched_documents.length > MAX_RESULT_DOCUMENT_COUNT then
    pure (matched_documents.take MAX_RESULT_DOCUMENT_COUNT)
  else
    pure matched_documents

/-! ## The servers of the unit tests -/

/-- The server of `TestSimpleSearch`. -/
def simpleSearchServer : Server :=
  AddDocument
    (AddDocument
      (AddDocument
        (AddDocument
          (AddDocument Server.empty 0 "cat in the big city" DocumentStatus.ACTUAL [1, 2, 3])
          1 "big developer in the big city" DocumentStatus.ACTUAL [1, 2, 3])
        2 "dog city" DocumentStatus.ACTUAL [1, 2, 3])
      3 "empty document" DocumentStatus.ACTUAL [1, 2, 3])
    4 "no text!!!!!!!!" DocumentStatus.ACTUAL [1, 2, 3]

/-- The second server of `TestMinusWordsExcludeDocFromSERP`. -/
def minusWordsServer : Server :=
  AddDocument
    (AddDocument Server.empty 1 "cat in the city" DocumentStatus.ACTUAL [1, 2, 3])
    2 "dog in the city" DocumentStatus.ACTUAL [1, 2, 3]

/-- The second server of `TestRelevanceCalculationAndRelevanceSort`. -/
def relevanceServer : Server :=
  addDocuments Server.empty
    [⟨0, "test text with no dark jokes text", DocumentStatus.ACTUAL, [1, 2, 3]⟩,
     ⟨1, "empty jar", DocumentStatus.ACTUAL, [1, 2, 3]⟩,
     ⟨3, "jar with nutella", DocumentStatus.ACTUAL, [1, 2, 3]⟩]

/-- The server of `TestRatingCalculation`. -/
def ratingServer : Server :=
  addDocuments Server.empty
    [⟨0, "cat in the big city", DocumentStatus.ACTUAL, [1, 2, 3]⟩,
     ⟨1, "developer in the big chair", DocumentStatus.ACTUAL, [1, -2, 10]⟩,
     ⟨2, "dog city", DocumentStatus.ACTUAL, [-1, 2, -10]⟩]

/-- The server of `TestMatching`. -/
def matchingServer : Server :=
  AddDocument Server.empty 0 "test text with no dark jokes" DocumentStatus.ACTUAL [1, 2, 3]

/-- The document of `TestExcludeStopWordsFromAddedDocumentContent`. -/
def stopWordsCalls : List AddDocumentCall :=
  [⟨42, "cat in the city", DocumentStatus.ACTUAL, [1, 2, 3]⟩]

/-- The server of `TestSearchForStatus`. -/
def statusServer : Server :=
  addDocuments Server.empty
    [⟨0, "city and no text!!!!!!!!", DocumentStatus.REMOVED, [1, 2, 3]⟩,
     ⟨1, "cat in the big city", DocumentStatus.ACTUAL, [1, 2, 3]⟩,
     ⟨2, "big developer in the big city", DocumentStatus.ACTUAL, [1, 2, 3]⟩,
     ⟨3, "city dog city", DocumentStatus.BANNED, [1, 2, 3]⟩,
     ⟨4, "city and the empty document", DocumentStatus.IRRELEVANT, [1, 2, 3]⟩]

/-- The server of `TestUsersLambda`. -/
def usersLambdaServer : Server :=
  addDocuments Server.empty
    [⟨0, "test text with no dark jokes", DocumentStatus.ACTUAL, [1, 2, 3]⟩,
     ⟨1, "test text with no dark jokes", DocumentStatus.ACTUAL, [1, 2, 3]⟩,
     ⟨2, "test text with no dark jokes", DocumentStatus.ACTUAL, [1, 2, 3]⟩,
     ⟨3, "test text with no dark jokes", DocumentStatus.ACTUAL, [1, 2, 3]⟩,
     ⟨4, "test text with no dark jokes", DocumentStatus.ACTUAL, [1, 2, 3]⟩]

/-- The predicate of `TestUsersLambda`: the id is even. -/
def evenIdFilter : Int → DocumentStatus → Int → Bool :=
  fun document_id _status _rating => decide (document_id % 2 = 0)

/-- The first server of `TestRelevanceCalculationAndRelevanceSort`, with a
single document. -/
def singleDocumentServer : Server :=
  AddDocument Server.empty 0 "test text with no dark jokes" DocumentStatus.ACTUAL [1, 2, 3]

/-! ## Two more servers -/

/-- A server with six documents that hold the word `city`. -/
def sixDocumentsServer : Server :=
  AddDocument
    (AddDocument
      (AddDocument
        (AddDocument
          (AddDocument
            (AddDocument Server.empty 0 "city" DocumentStatus.ACTUAL [1])
            1 "city park" DocumentStatus.ACTUAL [2])
          2 "old city" DocumentStatus.ACTUAL [3])
        3 "city city" DocumentStatus.ACTUAL [4])
      4 "big city life" DocumentStatus.ACTUAL [5])
    5 "the city" DocumentStatus.ACTUAL [6]

/-- The text made of the word `a` followed by `n` times the word `b`. -/
def longDocument (n : Nat) : String :=
  String.join ("a" :: List.replicate n " b")

/-- A server with two long documents, whose relevances for the query `a` are
`ln (3/2) / 708` and `ln (3/2) / 709`, and a third document without `a`. -/
def tiedServer : Server :=
  AddDocument
    (AddDocument
      (AddDocument Server.empty 1 (longDocument 707) DocumentStatus.ACTUAL [1])
      2 (longDocument 708) DocumentStatus.ACTUAL [5])
    3 "c" DocumentStatus.ACTUAL [1]

/-- A server with the document 1, of text `a`, status `ACTUAL` and rating 1. -/
def oneDocumentServer : Server :=
  AddDocument Server.empty 1 "a" DocumentStatus.ACTUAL [1]


/-- Calls of `AddDocument` for `n + 1` documents with the ids `-1`, `0`, ...,
`n - 1`, each of text `a`, status `ACTUAL` and without ratings. -/
def manyDocuments (n : Nat) : List AddDocumentCall :=
  ⟨-1, "a", DocumentStatus.ACTUAL, []⟩ ::
    List.map (fun i : Nat => (⟨(i : Int), "a", DocumentStatus.ACTUAL, []⟩ : AddDocumentCall))
      (List.range n)

/-- A server with `2^31 + 1` documents, each of text `a`; their ids `-1`, `0`,
..., `2^31 - 1` are values of the type `int`. -/
def hugeServer : Server :=
  addDocuments Server.empty (manyDocuments 2147483648)

/-- A server with the document 0, in which ten of ten words are `a`, and the
document 1 of text `b`, with the term frequencies that the program computes
in the arithmetic of `double`. -/
def doubleServer : Server :=
  AddDocumentDouble
    (AddDocumentDouble Server.empty 0 "a a a a a a a a a a" DocumentStatus.ACTUAL [1])
    1 "b" DocumentStatus.ACTUAL [1]
/-! ## Facts about the containers -/

section Containers

variable {K V : Type}

@[simp] theorem mapKeys_nil : mapKeys ([] : List (K × V)) = [] := rfl

@[simp] theorem mapKeys_cons (e : K × V) (m : List (K × V)) :
    mapKeys (e :: m) = e.1 :: mapKeys m := rfl

theorem mapFind_eq_none_iff [DecidableEq K] (m : List (K × V)) (k : K) :
    mapFind m k = none ↔ k ∉ mapKeys m := by
  induction m with
  | nil => simp [mapFind]
  | cons e m ih =>
    obtain ⟨k', v⟩ := e
    by_cases h : k = k'
    · simp [mapFind, h]
    · simp [mapFind, h, ih]

theorem mapFind_isSome_iff [DecidableEq K] (m : List (K × V)) (k : K) :
    (mapFind m k).isSome = true ↔ k ∈ mapKeys m := by
  rw [← not_iff_not, ← mapFind_eq_none_iff]
  cases mapFind m k <;> simp

theorem mem_of_mapFind_eq_some [DecidableEq K] {m : List (K × V)} {k : K} {v : V}
    (h : mapFind m k = some v) : (k, v) ∈ m := by
  induction m with
  | nil => simp [mapFind] at h
  | cons e m ih =>
    obtain ⟨k', v'⟩ := e
    by_cases hk : k = k'
    · simp [mapFind, hk] at h
      simp [hk, h]
    · simp [mapFind, hk] at h
      exact List.mem_cons_of_mem _ (ih h)

theorem mapFind_eq_some_of_mem [DecidableEq K] {m : List (K × V)} {k : K} {v : V}
    (hnd : (mapKeys m).Nodup) (h : (k, v) ∈ m) : mapFind m k = some v := by
  induction m with
  | nil => simp at h
  | cons e m ih =>
    obtain ⟨k', v'⟩ := e
    simp only [mapKeys_cons, List.nodup_cons] at hnd
    rcases List.mem_cons.1 h with heq | hmem
    · cases heq
      simp [mapFind]
    · have hk : k ≠ k' := by
        rintro rfl
        exact hnd.1 (List.mem_map_of_mem Prod.fst hmem)
      simp [mapFind, hk, ih hnd.2 hmem]

theorem mapCount_eq_zero_iff [DecidableEq K] (m : List (K × V)) (k : K) :
    mapCount m k = 0 ↔ mapFind m k = none := by
  unfold mapCount
  cases mapFind m k <;> simp

theorem mapFind_mapReplace [DecidableEq K] (m : List (K × V)) (k k' : K) (v : V) :
    mapFind (mapReplace m k v) k' =
      if k' = k then (mapFind m k).map (fun _ => v) else mapFind m k' := by
  induction m with
  | nil => simp [mapReplace, mapFind]
  | cons e m ih =>
    obtain ⟨k₀, v₀⟩ := e
    by_cases h : k = k₀
    · subst h
      by_cases h' : k' = k
      · simp [mapReplace, mapFind, h']
      · simp [mapReplace, mapFind, h']
    · by_cases h' : k' = k
      · subst h'
        simp [mapReplace, mapFind, h, ih]
      · by_cases h'' : k' = k₀
        · subst h''
          simp [mapReplace, mapFind, h, h']
        · simp [mapReplace, mapFind, h, h', h'', ih]

theorem mapKeys_mapReplace [DecidableEq K] (m : List (K × V)) (k : K) (v : V) :
    mapKeys (mapReplace m k v) = mapKeys m := by
  induction m with
  | nil => rfl
  | cons e m ih =>
    obtain ⟨k₀, v₀⟩ := e
    by_cases h : k = k₀
    · simp [mapReplace, h]
    · simp [mapReplace, h, ih]

theorem mapFind_mapInsertNew [DecidableEq K] [LinearOrder K] (m : List (K × V)) (k k' : K) (v : V)
    (hk : mapFind m k = none) :
    mapFind (mapInsertNew m k v) k' = if k' = k then some v else mapFind m k' := by
  induction m with
  | nil => simp [mapInsertNew, mapFind]
  | cons e m ih =>
    obtain ⟨k₀, v₀⟩ := e
    have hne : k ≠ k₀ := by
      intro h
      simp [mapFind, h] at hk
    have hk' : mapFind m k = none := by simpa [mapFind, hne] using hk
    by_cases hlt : k < k₀
    · simp [mapInsertNew, hlt, mapFind]
    · by_cases h' : k' = k
      · subst h'
        simp [mapInsertNew, hlt, mapFind, hne, ih hk']
      · by_cases h'' : k' = k₀
        · subst h''
          simp [mapInsertNew, hlt, mapFind, h']
        · simp [mapInsertNew, hlt, mapFind, h', h'', ih hk']

theorem mem_mapKeys_mapInsertNew [LinearOrder K] (m : List (K × V)) (k k' : K) (v : V) :
    k' ∈ mapKeys (mapInsertNew m k v) ↔ k' = k ∨ k' ∈ mapKeys m := by
  induction m with
  | nil => simp [mapInsertNew]
  | cons e m ih =>
    obtain ⟨k₀, v₀⟩ := e
    by_cases hlt : k < k₀
    · simp [mapInsertNew, hlt]
    · simp [mapInsertNew, hlt, ih]
      tauto

theorem sorted_mapInsertNew [LinearOrder K] (m : List (K × V)) (k : K) (v : V)
    (hs : (mapKeys m).Sorted (· < ·)) (hk : k ∉ mapKeys m) :
    (mapKeys (mapInsertNew m k v)).Sorted (· < ·) := by
  induction m with
  | nil => simp [mapInsertNew]
  | cons e m ih =>
    obtain ⟨k₀, v₀⟩ := e
    simp only [mapKeys_cons, List.sorted_cons] at hs
    simp only [mapKeys_cons, List.mem_cons, not_or] at hk
    by_cases hlt : k < k₀
    · simp only [mapInsertNew, hlt, if_true, mapKeys_cons, List.sorted_cons, List.mem_cons]
      refine ⟨?_, hs.1, hs.2⟩
      rintro b (rfl | hb)
      · exact hlt
      · exact lt_trans hlt (hs.1 b hb)
    · simp only [mapInsertNew, hlt, if_false, mapKeys_cons, List.sorted_cons]
      refine ⟨?_, ih hs.2 hk.2⟩
      intro b hb
      rcases (mem_mapKeys_mapInsertNew m k b v).1 hb with rfl | hb
      · exact lt_of_le_of_ne (not_lt.1 hlt) (Ne.symm hk.1)
      · exact hs.1 b hb

theorem mapFind_mapUpdate [DecidableEq K] [LinearOrder K] (m : List (K × V)) (k k' : K) (dflt : V)
    (f : V → V) :
    mapFind (mapUpdate m k dflt f) k' =
      if k' = k then some (f ((mapFind m k).getD dflt)) else mapFind m k' := by
  unfold mapUpdate
  cases h : mapFind m k with
  | none => simp [mapFind_mapInsertNew m k k' (f dflt) h]
  | some v => simp [mapFind_mapReplace, h]

theorem sorted_mapUpdate [DecidableEq K] [LinearOrder K] (m : List (K × V)) (k : K) (dflt : V) (f : V → V)
    (hs : (mapKeys m).Sorted (· < ·)) : (mapKeys (mapUpdate m k dflt f)).Sorted (· < ·) := by
  unfold mapUpdate
  cases h : mapFind m k with
  | none => exact sorted_mapInsertNew m k _ hs ((mapFind_eq_none_iff m k).1 h)
  | some v => simpa [mapKeys_mapReplace] using hs

theorem mapFind_mapEmplace [DecidableEq K] [LinearOrder K] (m : List (K × V)) (k k' : K) (v : V) :
    mapFind (mapEmplace m k v) k' =
      if k' = k then some ((mapFind m k).getD v) else mapFind m k' := by
  unfold mapEmplace
  cases h : mapFind m k with
  | none => simp [mapFind_mapInsertNew m k k' v h]
  | some w =>
    by_cases h' : k' = k
    · simp [h', h]
    · simp [h']

theorem sorted_mapEmplace [DecidableEq K] [LinearOrder K] (m : List (K × V)) (k : K) (v : V)
    (hs : (mapKeys m).Sorted (· < ·)) : (mapKeys (mapEmplace m k v)).Sorted (· < ·) := by
  unfold mapEmplace
  cases h : mapFind m k with
  | none => exact sorted_mapInsertNew m k _ hs ((mapFind_eq_none_iff m k).1 h)
  | some w => exact hs

theorem mapFind_mapErase [DecidableEq K] (m : List (K × V)) (k k' : K) :
    mapFind (mapErase m k) k' = if k' = k then none else mapFind m k' := by
  induction m with
  | nil => simp [mapErase, mapFind]
  | cons e m ih =>
    obtain ⟨k₀, v₀⟩ := e
    have hcons : mapErase ((k₀, v₀) :: m) k =
        if k₀ = k then mapErase m k else (k₀, v₀) :: mapErase m k := by
      by_cases h : k₀ = k <;> simp [mapErase, List.filter_cons, h]
    rw [hcons]
    by_cases h : k₀ = k
    · subst h
      by_cases h' : k' = k₀
      · subst h'
        simpa using ih
      · simp [ih, h', mapFind]
    · by_cases h' : k' = k₀
      · subst h'
        simp [h, mapFind]
      · simp [h, mapFind, h', ih]

theorem sorted_mapErase [DecidableEq K] [LinearOrder K] (m : List (K × V)) (k : K)
    (hs : (mapKeys m).Sorted (· < ·)) : (mapKeys (mapErase m k)).Sorted (· < ·) := by
  unfold mapErase mapKeys
  exact List.Pairwise.sublist (List.Sublist.map _ (List.filter_sublist _)) hs

theorem mem_setInsertNew [LinearOrder K] (s : List K) (k k' : K) :
    k' ∈ setInsertNew s k ↔ k' = k ∨ k' ∈ s := by
  induction s with
  | nil => simp [setInsertNew]
  | cons a s ih =>
    by_cases hlt : k < a
    · simp [setInsertNew, hlt]
    · simp [setInsertNew, hlt, ih]
      tauto

theorem mem_setInsert [DecidableEq K] [LinearOrder K] (s : List K) (k k' : K) :
    k' ∈ setInsert s k ↔ k' = k ∨ k' ∈ s := by
  unfold setInsert
  by_cases h : k ∈ s
  · simp only [h, if_true]
    constructor
    · exact Or.inr
    · rintro (rfl | h')
      · exact h
      · exact h'
  · simp only [h, if_false, mem_setInsertNew]

theorem sorted_setInsertNew [LinearOrder K] (s : List K) (k : K)
    (hs : s.Sorted (· < ·)) (hk : k ∉ s) : (setInsertNew s k).Sorted (· < ·) := by
  induction s with
  | nil => simp [setInsertNew]
  | cons a s ih =>
    simp only [List.sorted_cons] at hs
    simp only [List.mem_cons, not_or] at hk
    by_cases hlt : k < a
    · simp only [setInsertNew, hlt, if_true, List.sorted_cons, List.mem_cons]
      refine ⟨?_, hs.1, hs.2⟩
      rintro b (rfl | hb)
      · exact hlt
      · exact lt_trans hlt (hs.1 b hb)
    · simp only [setInsertNew, hlt, if_false, List.sorted_cons]
      refine ⟨?_, ih hs.2 hk.2⟩
      intro b hb
      rcases (mem_setInsertNew s k b).1 hb with rfl | hb
      · exact lt_of_le_of_ne (not_lt.1 hlt) (Ne.symm hk.1)
      · exact hs.1 b hb

theorem sorted_setInsert [DecidableEq K] [LinearOrder K] (s : List K) (k : K)
    (hs : s.Sorted (· < ·)) : (setInsert s k).Sorted (· < ·) := by
  unfold setInsert
  by_cases h : k ∈ s
  · simpa [h] using hs
  · simpa [h] using sorted_setInsertNew s k hs h

end Containers

/-! ## The loops of `FindAllDocuments` -/

section Loops

variable {R : Type} [LinearOrderedField R]

theorem mapFind_of_mapCount_ne_zero {K V : Type} [DecidableEq K] {m : List (K × V)} {k : K}
    (h : mapCount m k ≠ 0) : ∃ v, mapFind m k = some v := by
  cases hf : mapFind m k with
  | none => exact absurd ((mapCount_eq_zero_iff m k).2 hf) h
  | some v => exact ⟨v, rfl⟩

/-- The inner loop never throws, keeps the map sorted, and adds
`term_freq * idf` to the entry of every accepted document of the word. -/
theorem addWordRelevance_spec (s : Server) (filter : Int → DocumentStatus → Int → Bool)
    (idf : R) (docs : List (Int × ℚ)) (hnd : (mapKeys docs).Nodup) (acc : List (Int × R)) :
    ∃ acc', addWordRelevance s filter idf docs acc = some acc' ∧
      ((mapKeys acc).Sorted (· < ·) → (mapKeys acc').Sorted (· < ·)) ∧
      ∀ id, mapFind acc' id =
        match mapFind docs id with
        | some tf =>
          if accepts s filter id then some ((mapFind acc id).getD 0 + (tf : R) * idf)
          else mapFind acc id
        | none => mapFind acc id := by
  induction docs generalizing acc with
  | nil => exact ⟨acc, rfl, id, fun _ => rfl⟩
  | cons e rest ih =>
    obtain ⟨id₀, tf₀⟩ := e
    simp only [mapKeys_cons, List.nodup_cons] at hnd
    have hrest : mapFind rest id₀ = none := (mapFind_eq_none_iff rest id₀).2 hnd.1
    -- the map after the first entry
    have key : ∃ acc₁, addWordRelevance s filter idf ((id₀, tf₀) :: rest) acc =
          addWordRelevance s filter idf rest acc₁ ∧
        ((mapKeys acc).Sorted (· < ·) → (mapKeys acc₁).Sorted (· < ·)) ∧
        ∀ id, mapFind acc₁ id =
          if id = id₀ ∧ accepts s filter id₀ = true then
            some ((mapFind acc id₀).getD 0 + (tf₀ : R) * idf)
          else mapFind acc id := by
      cases hd : mapFind s.documents_ id₀ with
      | none =>
        refine ⟨acc, ?_, id, ?_⟩
        · simp [addWordRelevance, (mapCount_eq_zero_iff _ _).2 hd]
        · intro id
          simp [accepts, hd]
      | some data =>
        have hc : mapCount s.documents_ id₀ ≠ 0 := by
          rw [Ne, mapCount_eq_zero_iff, hd]
          simp
        by_cases hf : filter id₀ data.status data.rating = true
        · refine ⟨mapUpdate acc id₀ 0 (fun relevance => relevance + (tf₀ : R) * idf),
            ?_, sorted_mapUpdate _ _ _ _, ?_⟩
          · simp [addWordRelevance, hc, mapAt, hd, hf]
          · intro id
            rw [mapFind_mapUpdate]
            by_cases hid : id = id₀
            · simp [hid, accepts, hd, hf]
            · simp [hid]
        · refine ⟨acc, ?_, id, ?_⟩
          · simp [addWordRelevance, hc, mapAt, hd, hf]
          · intro id
            simp [accepts, hd, hf]
    obtain ⟨acc₁, h₁, hs₁, hv₁⟩ := key
    obtain ⟨acc', h', hs', hv'⟩ := ih hnd.2 acc₁
    refine ⟨acc', h₁.trans h', fun h => hs' (hs₁ h), ?_⟩
    intro id
    rw [hv' id]
    by_cases hid : id = id₀
    · subst hid
      rw [hrest, hv₁ id]
      by_cases ha : accepts s filter id = true
      · simp [mapFind, ha]
      · simp [mapFind, ha]
    · rw [hv₁ id]
      simp [mapFind, hid]

theorem inSomeEntry_cons (s : Server) (word : String) (rest : List String) (id : Int) :
    inSomeEntry s (word :: rest) id = (inIndexEntry s word id || inSomeEntry s rest id) := by
  simp [inSomeEntry]

theorem relevanceOf_cons (ln : ℚ → R) (s : Server) (word : String) (rest : List String)
    (id : Int) :
    relevanceOf ln s (word :: rest) id =
      (if inIndexEntry s word id = true then
        (storedFreq s word id : R) *
          ln ((GetDocumentCount s : ℚ) * 1 / (documentFreq s word : ℚ))
       else 0) + relevanceOf ln s rest id := by
  unfold relevanceOf
  by_cases h : inIndexEntry s word id = true
  · rw [List.filter_cons_of_pos (p := fun word => inIndexEntry s word id) h, List.map_cons,
      List.sum_cons, if_pos h]
  · rw [List.filter_cons_of_neg (p := fun word => inIndexEntry s word id) h, if_neg h,
      zero_add]

theorem relevanceOf_eq_zero (ln : ℚ → R) (s : Server) (words : List String) (id : Int)
    (h : inSomeEntry s words id = false) : relevanceOf ln s words id = 0 := by
  induction words with
  | nil => simp [relevanceOf]
  | cons word rest ih =>
    rw [inSomeEntry_cons, Bool.or_eq_false_iff] at h
    rw [relevanceOf_cons, ih h.2, if_neg (by simp [h.1]), zero_add]

/-- The loop over the plus-words never throws, keeps the map sorted, and adds
to the entry of every accepted document found the relevance of the words. -/
theorem addPlusWords_spec (ln : ℚ → R) (s : Server) (hs : EntriesNodup s)
    (filter : Int → DocumentStatus → Int → Bool) (words : List String)
    (acc : List (Int × R)) :
    ∃ acc', addPlusWords ln s filter words acc = some acc' ∧
      ((mapKeys acc).Sorted (· < ·) → (mapKeys acc').Sorted (· < ·)) ∧
      ∀ id, mapFind acc' id =
        if accepts s filter id = true ∧ inSomeEntry s words id = true then
          some ((mapFind acc id).getD 0 + relevanceOf ln s words id)
        else mapFind acc id := by
  induction words generalizing acc with
  | nil =>
    refine ⟨acc, rfl, id, fun id => ?_⟩
    simp [inSomeEntry]
  | cons word rest ih =>
    cases hw : mapFind s.word_to_document_freqs_ word with
    | none =>
      obtain ⟨acc', h', hs', hv'⟩ := ih acc
      refine ⟨acc', ?_, hs', ?_⟩
      · rw [addPlusWords, if_pos ((mapCount_eq_zero_iff _ _).2 hw), h']
      · intro id
        have hi : inIndexEntry s word id = false := by simp [inIndexEntry, hw]
        rw [hv' id, inSomeEntry_cons, relevanceOf_cons, hi]
        simp
    | some docs =>
      have hc : ¬ mapCount s.word_to_document_freqs_ word = 0 := by
        rw [mapCount_eq_zero_iff, hw]
        simp
      obtain ⟨acc₁, h₁, hs₁, hv₁⟩ := addWordRelevance_spec s filter
        (ln ((GetDocumentCount s : ℚ) * 1 / (docs.length : ℚ))) docs (hs word docs hw) acc
      obtain ⟨acc', h', hs', hv'⟩ := ih acc₁
      refine ⟨acc', ?_, fun h => hs' (hs₁ h), ?_⟩
      · have hidf : ComputeWordInverseDocumentFreq ln s word =
            some (ln ((GetDocumentCount s : ℚ) * 1 / (docs.length : ℚ))) := by
          unfold ComputeWordInverseDocumentFreq mapAt
          rw [hw]
          rfl
        rw [addPlusWords, if_neg hc, hidf]
        unfold mapAt
        rw [hw]
        show (addWordRelevance s filter _ docs acc).bind _ = _
        rw [h₁]
        exact h'
      · intro id
        have hi : inIndexEntry s word id = (mapFind docs id).isSome := by
          simp [inIndexEntry, hw]
        have hf : storedFreq s word id = (mapFind docs id).getD 0 := by
          simp [storedFreq, hw]
        have hdf : documentFreq s word = docs.length := by
          simp [documentFreq, hw]
        rw [hv' id, hv₁ id, inSomeEntry_cons, relevanceOf_cons, hi, hf, hdf]
        cases hd : mapFind docs id with
        | none => simp
        | some tf =>
          by_cases ha : accepts s filter id = true
          · by_cases hr : inSomeEntry s rest id = true
            · simp [ha, hr, add_assoc]
            · have hr' : inSomeEntry s rest id = false := by simpa using hr
              simp [ha, hr', relevanceOf_eq_zero ln s rest id hr']
          · simp [ha]

end Loops

/-- The relevance of the first word of a list, from its index entry. -/
theorem relevanceOf_cons_of_entry {R : Type} [LinearOrderedField R] (ln : ℚ → R) (s : Server)
    (word : String) (rest : List String) (id : Int) (docs : List (Int × ℚ))
    (h : mapFind s.word_to_document_freqs_ word = some docs) :
    relevanceOf ln s (word :: rest) id =
      (if (mapFind docs id).isSome = true then
        (((mapFind docs id).getD 0 : ℚ) : R) *
          ln ((GetDocumentCount s : ℚ) * 1 / (docs.length : ℚ))
       else 0) + relevanceOf ln s rest id := by
  rw [relevanceOf_cons]
  unfold inIndexEntry storedFreq documentFreq
  rw [h]

theorem relevanceOf_nil {R : Type} [LinearOrderedField R] (ln : ℚ → R) (s : Server)
    (id : Int) : relevanceOf ln s [] id = 0 := by
  simp [relevanceOf]


theorem mapFind_foldl_mapErase {V W : Type} (docs : List (Int × W)) (acc : List (Int × V))
    (id : Int) :
    mapFind (docs.foldl (fun m e => mapErase m e.1) acc) id =
      if id ∈ mapKeys docs then none else mapFind acc id := by
  induction docs generalizing acc with
  | nil => simp
  | cons e rest ih =>
    simp only [List.foldl_cons, ih, mapFind_mapErase, mapKeys_cons, List.mem_cons]
    by_cases h1 : id ∈ mapKeys rest
    · simp [h1]
    · by_cases h2 : id = e.1
      · simp [h2]
      · simp [h1, h2]

theorem sorted_foldl_mapErase {V W : Type} (docs : List (Int × W)) (acc : List (Int × V))
    (h : (mapKeys acc).Sorted (· < ·)) :
    (mapKeys (docs.foldl (fun m e => mapErase m e.1) acc)).Sorted (· < ·) := by
  induction docs generalizing acc with
  | nil => simpa using h
  | cons e rest ih => exact ih _ (sorted_mapErase _ _ h)

/-- The loop over the minus-words never throws, keeps the map sorted, and
erases the documents found in the index entry of a minus-word. -/
theorem eraseMinusWords_spec {R : Type} (s : Server) (words : List String)
    (acc : List (Int × R)) :
    ∃ acc', eraseMinusWords s words acc = some acc' ∧
      ((mapKeys acc).Sorted (· < ·) → (mapKeys acc').Sorted (· < ·)) ∧
      ∀ id, mapFind acc' id =
        if inSomeEntry s words id = true then none else mapFind acc id := by
  induction words generalizing acc with
  | nil =>
    refine ⟨acc, rfl, id, fun id => ?_⟩
    simp [inSomeEntry]
  | cons word rest ih =>
    cases hw : mapFind s.word_to_document_freqs_ word with
    | none =>
      obtain ⟨acc', h', hs', hv'⟩ := ih acc
      refine ⟨acc', ?_, hs', ?_⟩
      · simp [eraseMinusWords, (mapCount_eq_zero_iff _ _).2 hw, h']
      · intro id
        rw [hv' id]
        simp [inSomeEntry, inIndexEntry, hw]
    | some docs =>
      have hc : mapCount s.word_to_document_freqs_ word ≠ 0 := by
        rw [Ne, mapCount_eq_zero_iff, hw]
        simp
      obtain ⟨acc', h', hs', hv'⟩ := ih (docs.foldl (fun m e => mapErase m e.1) acc)
      refine ⟨acc', ?_, fun h => hs' (sorted_foldl_mapErase _ _ h), ?_⟩
      · simp [eraseMinusWords, hc, mapAt, hw, h']
      · intro id
        rw [hv' id, mapFind_foldl_mapErase]
        by_cases hr : inSomeEntry s rest id = true
        · have : inSomeEntry s (word :: rest) id = true := by
            simp only [inSomeEntry, List.any_cons, Bool.or_eq_true] at hr ⊢
            exact Or.inr hr
          simp [hr, this]
        · by_cases hd : id ∈ mapKeys docs
          · have : inSomeEntry s (word :: rest) id = true := by
              simp [inSomeEntry, inIndexEntry, hw, mapFind_isSome_iff, hd]
            simp [hr, this, hd]
          · have : inSomeEntry s (word :: rest) id = false := by
              have hr' : inSomeEntry s rest id = false := by simpa using hr
              have hr'' : ∀ x ∈ rest, inIndexEntry s x id = false := by
                simpa [inSomeEntry] using hr'
              simp only [inSomeEntry, List.any_cons, Bool.or_eq_false_iff]
              refine ⟨?_, by simpa [inSomeEntry] using hr'⟩
              simp only [inIndexEntry, hw]
              rw [← Bool.not_eq_true, mapFind_isSome_iff]
              exact hd
            simp [hr, this, hd]

/-! ## Reachable states -/

theorem wellFormed_empty : WellFormed Server.empty :=
  ⟨List.sorted_nil, fun _ _ h => by simp [Server.empty, mapFind] at h, List.sorted_nil⟩

theorem wellFormed_setStopWords (s : Server) (text : String) (h : WellFormed s) :
    WellFormed (SetStopWords s text) :=
  ⟨h.index, h.entries, h.documents⟩

theorem wellFormed_addDocument (s : Server) (document_id : Int) (document : String)
    (status : DocumentStatus) (ratings : List Int) (h : WellFormed s) :
    WellFormed (AddDocument s document_id document status ratings) := by
  have key : ∀ (inv : ℚ) (ws : List String) (freqs : List (String × List (Int × ℚ))),
      (mapKeys freqs).Sorted (· < ·) →
      (∀ word docs, mapFind freqs word = some docs → (mapKeys docs).Sorted (· < ·)) →
      (mapKeys (ws.foldl (fun freqs word => mapUpdate freqs word []
          (fun docs => mapUpdate docs document_id 0 (fun tf => tf + inv))) freqs)).Sorted
            (· < ·) ∧
      ∀ word docs,
        mapFind (ws.foldl (fun freqs word => mapUpdate freqs word []
          (fun docs => mapUpdate docs document_id 0 (fun tf => tf + inv))) freqs) word
          = some docs → (mapKeys docs).Sorted (· < ·) := by
    intro inv ws
    induction ws with
    | nil => intro freqs hs hf; exact ⟨hs, hf⟩
    | cons w ws ih =>
      intro freqs hs hf
      rw [List.foldl_cons]
      apply ih _ (sorted_mapUpdate _ _ _ _ hs)
      intro word docs hd
      rw [mapFind_mapUpdate] at hd
      by_cases hw : word = w
      · rw [if_pos hw] at hd
        cases hd
        apply sorted_mapUpdate
        cases hfw : mapFind freqs w with
        | none => exact List.sorted_nil
        | some docs₀ => exact hf w docs₀ hfw
      · rw [if_neg hw] at hd
        exact hf word docs hd
  obtain ⟨h1, h2⟩ := key (1 / ((SplitIntoWordsNoStop s document).length : ℚ))
    (SplitIntoWordsNoStop s document) _ h.index h.entries
  exact ⟨h1, h2, sorted_mapEmplace _ _ _ h.documents⟩

theorem Reachable.wellFormed {s : Server} (h : Reachable s) : WellFormed s := by
  induction h with
  | empty => exact wellFormed_empty
  | setStopWords s text _ ih => exact wellFormed_setStopWords s text ih
  | addDocument s id document status ratings _ ih =>
    exact wellFormed_addDocument s id document status ratings ih

theorem WellFormed.entriesNodup {s : Server} (h : WellFormed s) : EntriesNodup s :=
  fun word docs hd => List.Sorted.nodup (h.entries word docs hd)

/-! ## What `FindAllDocuments` returns -/

/-- Two maps in ascending key order that agree on every key are equal. -/
theorem map_ext_of_sorted {K V : Type} [DecidableEq K] [LinearOrder K] :
    ∀ (m₁ m₂ : List (K × V)), (mapKeys m₁).Sorted (· < ·) → (mapKeys m₂).Sorted (· < ·) →
      (∀ k, mapFind m₁ k = mapFind m₂ k) → m₁ = m₂
  | [], [], _, _, _ => rfl
  | [], (k, v) :: m₂, _, _, h => by
    have := h k
    simp [mapFind] at this
  | (k, v) :: m₁, [], _, _, h => by
    have := h k
    simp [mapFind] at this
  | (k₁, v₁) :: m₁, (k₂, v₂) :: m₂, h₁, h₂, h => by
    simp only [mapKeys_cons, List.sorted_cons] at h₁ h₂
    have hnot₁ : ∀ k, k ≤ k₁ → mapFind m₁ k = none := fun k hk =>
      (mapFind_eq_none_iff m₁ k).2 (fun hm => absurd (h₁.1 k hm) (not_lt.2 hk))
    have hnot₂ : ∀ k, k ≤ k₂ → mapFind m₂ k = none := fun k hk =>
      (mapFind_eq_none_iff m₂ k).2 (fun hm => absurd (h₂.1 k hm) (not_lt.2 hk))
    have hk : k₁ = k₂ := by
      by_contra hne
      rcases lt_or_gt_of_ne hne with hlt | hgt
      · have := h k₁
        simp [mapFind, hne, hnot₂ k₁ hlt.le] at this
      · have := h k₂
        simp [mapFind, Ne.symm hne, hnot₁ k₂ (le_of_lt hgt)] at this
    subst hk
    have hv : v₁ = v₂ := by
      have := h k₁
      simpa [mapFind] using this
    subst hv
    have htail : ∀ k, mapFind m₁ k = mapFind m₂ k := by
      intro k
      by_cases hkk : k = k₁
      · rw [hkk, hnot₁ k₁ le_rfl, hnot₂ k₁ le_rfl]
      · have := h k
        simpa [mapFind, hkk] using this
    rw [map_ext_of_sorted m₁ m₂ h₁.2 h₂.2 htail]

/-- A lookup in a filtered and relabelled map. -/
theorem mapFind_filter_map {K V W : Type} [DecidableEq K] (m : List (K × V))
    (hnd : (mapKeys m).Nodup) (p : K × V → Bool) (g : K × V → W) (k : K) :
    mapFind ((m.filter p).map (fun e => (e.1, g e))) k =
      match mapFind m k with
      | some v => if p (k, v) then some (g (k, v)) else none
      | none => none := by
  induction m with
  | nil => simp [mapFind]
  | cons e m ih =>
    obtain ⟨k₀, v₀⟩ := e
    simp only [mapKeys_cons, List.nodup_cons] at hnd
    by_cases hk : k = k₀
    · subst hk
      have hnone : mapFind m k = none := (mapFind_eq_none_iff m k).2 hnd.1
      by_cases hp : p (k, v₀) = true
      · simp [List.filter_cons, hp, mapFind]
      · have := ih hnd.2
        rw [hnone] at this
        simp [List.filter_cons, hp, mapFind, this]
    · by_cases hp : p (k₀, v₀) = true
      · simp [List.filter_cons, hp, mapFind, hk, ih hnd.2]
      · simp [List.filter_cons, hp, mapFind, hk, ih hnd.2]

theorem sorted_filter_map {K V W : Type} [LinearOrder K] (m : List (K × V))
    (hs : (mapKeys m).Sorted (· < ·)) (p : K × V → Bool) (g : K × V → W) :
    (mapKeys ((m.filter p).map (fun e => (e.1, g e)))).Sorted (· < ·) := by
  have : mapKeys ((m.filter p).map (fun e => (e.1, g e))) = mapKeys (m.filter p) := by
    simp [mapKeys, List.map_map, Function.comp_def]
  rw [this]
  exact List.Pairwise.sublist (List.Sublist.map _ (List.filter_sublist _)) hs

theorem collectDocuments_spec {R : Type} (s : Server) (g : Int → R)
    (l : List (Int × DocumentData)) (hl : ∀ e ∈ l, mapFind s.documents_ e.1 = some e.2) :
    collectDocuments s (l.map (fun e => (e.1, g e.1))) =
      some (l.map (fun e => (⟨e.1, g e.1, e.2.rating⟩ : Document R))) := by
  induction l with
  | nil => rfl
  | cons e l ih =>
    have h₁ := hl e (List.mem_cons_self _ _)
    have h₂ := ih (fun e' he' => hl e' (List.mem_cons_of_mem _ he'))
    simp only [List.map_cons, collectDocuments, mapAt, h₁, h₂]
    rfl

theorem keepFiltered_spec {R : Type} (s : Server) (filter : Int → DocumentStatus → Int → Bool)
    (g : Int → R) (l : List (Int × DocumentData))
    (hl : ∀ e ∈ l, mapFind s.documents_ e.1 = some e.2 ∧
      filter e.1 e.2.status e.2.rating = true) :
    keepFiltered s filter (l.map (fun e => (⟨e.1, g e.1, e.2.rating⟩ : Document R))) =
      some (l.map (fun e => (⟨e.1, g e.1, e.2.rating⟩ : Document R))) := by
  induction l with
  | nil => rfl
  | cons e l ih =>
    have h₁ := hl e (List.mem_cons_self _ _)
    have h₂ := ih (fun e' he' => hl e' (List.mem_cons_of_mem _ he'))
    simp only [List.map_cons, keepFiltered, mapAt, h₁.1, h₂]
    simp [h₁.2]

theorem mem_filter_documents {s : Server} (hs : WellFormed s) (p : Int × DocumentData → Bool)
    (e : Int × DocumentData) (he : e ∈ s.documents_.filter p) :
    mapFind s.documents_ e.1 = some e.2 :=
  mapFind_eq_some_of_mem (List.Sorted.nodup hs.documents) (List.mem_filter.1 he).1

section FindAll

variable {R : Type} [LinearOrderedField R]

/-- In a well-formed state `FindAllDocuments` does not throw and returns the
documents that answer the query, in ascending order of their ids. -/
theorem FindAllDocuments_eq (ln : ℚ → R) (s : Server) (hs : WellFormed s) (query : Query)
    (filter : Int → DocumentStatus → Int → Bool) :
    FindAllDocuments ln s query filter = some (candidates ln s query filter) := by
  obtain ⟨acc₁, h₁, hs₁, hv₁⟩ :=
    addPlusWords_spec ln s hs.entriesNodup filter query.plus_words []
  obtain ⟨acc₂, h₂, hs₂, hv₂⟩ := eraseMinusWords_spec s query.minus_words acc₁
  have hsorted : (mapKeys acc₂).Sorted (· < ·) := hs₂ (hs₁ List.sorted_nil)
  have heq : acc₂ = (s.documents_.filter (qualifies s query filter)).map
      (fun e => (e.1, relevanceOf ln s query.plus_words e.1)) := by
    apply map_ext_of_sorted _ _ hsorted
      (sorted_filter_map _ hs.documents _ (fun e => relevanceOf ln s query.plus_words e.1))
    intro id
    rw [hv₂ id, hv₁ id,
      mapFind_filter_map _ (List.Sorted.nodup hs.documents) _
        (fun e => relevanceOf ln s query.plus_words e.1)]
    unfold accepts qualifies
    cases hd : mapFind s.documents_ id with
    | none => simp [mapFind]
    | some data =>
      by_cases hf : filter id data.status data.rating = true <;>
      by_cases hp : inSomeEntry s query.plus_words id = true <;>
      by_cases hm : inSomeEntry s query.minus_words id = true <;>
      simp [hf, hp, hm, mapFind]
  unfold FindAllDocuments
  rw [h₁]
  show (eraseMinusWords s query.minus_words acc₁).bind _ = _
  rw [h₂]
  show collectDocuments s acc₂ = _
  rw [heq]
  exact collectDocuments_spec s _ _ (fun e he => mem_filter_documents hs _ e he)

/-- The second check of `filter` in `FindTopDocuments` keeps every document
that `FindAllDocuments` returned. -/
theorem keepFiltered_candidates (ln : ℚ → R) (s : Server) (hs : WellFormed s)
    (query : Query) (filter : Int → DocumentStatus → Int → Bool) :
    keepFiltered s filter (candidates ln s query filter) =
      some (candidates ln s query filter) := by
  apply keepFiltered_spec
  intro e he
  refine ⟨mem_filter_documents hs _ e he, ?_⟩
  have := (List.mem_filter.1 he).2
  simp only [qualifies, Bool.and_eq_true] at this
  exact this.1.1

/-- In a well-formed state `FindTopDocuments` does not throw and returns the
first documents of the sorted list of the documents that answer the query. -/
theorem FindTopDocuments_eq (ln : ℚ → R) (s : Server) (hs : WellFormed s)
    (raw_query : String) (filter : Int → DocumentStatus → Int → Bool) :
    FindTopDocuments ln s raw_query filter =
      some (topOf (candidates ln s (ParseQuery s raw_query) filter)) := by
  unfold FindTopDocuments
  show (FindAllDocuments ln s (ParseQuery s raw_query) filter).bind _ = _
  rw [FindAllDocuments_eq ln s hs]
  show (keepFiltered s filter _).bind _ = _
  rw [keepFiltered_candidates ln s hs]
  show (if _ then _ else _) = _
  unfold topOf
  split <;> rfl

end FindAll

/-! ## Sorting and truncation -/

theorem sortInsert_perm {α : Type} (comp : α → α → Bool) (x : α) (l : List α) :
    (sortInsert comp x l).Perm (x :: l) := by
  induction l with
  | nil => exact List.Perm.refl _
  | cons y ys ih =>
    unfold sortInsert
    split
    · exact List.Perm.refl _
    · exact ((List.Perm.cons y ih).trans (List.Perm.swap x y ys))

theorem foldl_sortInsert_perm {α : Type} (comp : α → α → Bool) (v sorted : List α) :
    (v.foldl (fun sorted x => sortInsert comp x sorted) sorted).Perm (v ++ sorted) := by
  induction v generalizing sorted with
  | nil => exact List.Perm.refl _
  | cons x v ih =>
    rw [List.foldl_cons]
    refine (ih _).trans ?_
    refine (List.Perm.append_left v (sortInsert_perm comp x sorted)).trans ?_
    exact List.perm_middle

/-- Sorting rearranges the elements of the vector. -/
theorem sort_perm {α : Type} (comp : α → α → Bool) (v : List α) : (sort comp v).Perm v := by
  simpa [sort] using foldl_sortInsert_perm comp v []

theorem sort_length {α : Type} (comp : α → α → Bool) (v : List α) :
    (sort comp v).length = v.length :=
  (sort_perm comp v).length_eq

theorem sortInsert_chain {α : Type} (comp : α → α → Bool)
    (hasymm : ∀ a b, comp a b = true → comp b a = false) (x : α) (l : List α)
    (hl : l.Chain' (fun a b => comp b a = false)) :
    (sortInsert comp x l).Chain' (fun a b => comp b a = false) := by
  induction l with
  | nil => simp [sortInsert]
  | cons y ys ih =>
    unfold sortInsert
    by_cases hxy : comp x y = true
    · rw [if_pos hxy]
      exact List.Chain'.cons (hasymm x y hxy) hl
    · rw [if_neg hxy]
      have hys := ih (List.Chain'.tail hl)
      cases ys with
      | nil =>
        simp only [sortInsert, List.chain'_cons, List.chain'_singleton, and_true]
        simpa using hxy
      | cons z zs =>
        unfold sortInsert at hys ⊢
        by_cases hxz : comp x z = true
        · rw [if_pos hxz] at hys ⊢
          exact List.Chain'.cons (by simpa using hxy) hys
        · rw [if_neg hxz] at hys ⊢
          exact List.Chain'.cons (List.chain'_cons.1 hl).1 hys

/-- With an asymmetric comparison, no element of the sorted vector has to be
put before its left neighbour. -/
theorem sort_chain {α : Type} (comp : α → α → Bool)
    (hasymm : ∀ a b, comp a b = true → comp b a = false) (v : List α) :
    (sort comp v).Chain' (fun a b => comp b a = false) := by
  have key : ∀ (v sorted : List α), sorted.Chain' (fun a b => comp b a = false) →
      (v.foldl (fun sorted x => sortInsert comp x sorted) sorted).Chain'
        (fun a b => comp b a = false) := by
    intro v
    induction v with
    | nil => intro sorted h; exact h
    | cons x v ih =>
      intro sorted h
      exact ih _ (sortInsert_chain comp hasymm x sorted h)
  exact key v [] List.chain'_nil

section Top

variable {R : Type} [LinearOrderedField R]

theorem topOf_eq_take (l : List (Document R)) :
    topOf l = (sort compareDocuments l).take MAX_RESULT_DOCUMENT_COUNT := by
  unfold topOf
  split
  · rfl
  · rename_i h
    rw [List.take_of_length_le (not_lt.1 h)]

theorem topOf_length_le (l : List (Document R)) :
    (topOf l).length ≤ MAX_RESULT_DOCUMENT_COUNT := by
  rw [topOf_eq_take, List.length_take]
  exact min_le_left _ _

theorem topOf_length (l : List (Document R)) :
    (topOf l).length = min MAX_RESULT_DOCUMENT_COUNT l.length := by
  rw [topOf_eq_take, List.length_take, sort_length]

theorem mem_of_mem_topOf {l : List (Document R)} {d : Document R} (h : d ∈ topOf l) :
    d ∈ l := by
  rw [topOf_eq_take] at h
  exact (sort_perm compareDocuments l).subset (List.mem_of_mem_take h)

theorem topOf_perm {l : List (Document R)} (h : l.length ≤ MAX_RESULT_DOCUMENT_COUNT) :
    (topOf l).Perm l := by
  rw [topOf_eq_take, List.take_of_length_le (by rw [sort_length]; exact h)]
  exact sort_perm _ _

theorem candidates_map_id (ln : ℚ → R) (s : Server) (query : Query)
    (filter : Int → DocumentStatus → Int → Bool) :
    (candidates ln s query filter).map (fun d => d.id) =
      mapKeys (s.documents_.filter (qualifies s query filter)) := by
  simp [candidates, mapKeys, List.map_map, Function.comp_def]

theorem candidates_length (ln : ℚ → R) (s : Server) (query : Query)
    (filter : Int → DocumentStatus → Int → Bool) :
    (candidates ln s query filter).length =
      (s.documents_.filter (qualifies s query filter)).length := by
  simp [candidates]

theorem mem_candidates {ln : ℚ → R} {s : Server} {query : Query}
    {filter : Int → DocumentStatus → Int → Bool} {d : Document R} :
    d ∈ candidates ln s query filter ↔
      ∃ e ∈ s.documents_, qualifies s query filter e = true ∧
        d = ⟨e.1, relevanceOf ln s query.plus_words e.1, e.2.rating⟩ := by
  simp only [candidates, List.mem_map, List.mem_filter]
  constructor
  · rintro ⟨e, ⟨he, hq⟩, rfl⟩
    exact ⟨e, he, hq, rfl⟩
  · rintro ⟨e, he, hq, rfl⟩
    exact ⟨e, ⟨he, hq⟩, rfl⟩

theorem inSomeEntry_eq_true {s : Server} {words : List String} {id : Int} :
    inSomeEntry s words id = true ↔ ∃ w ∈ words, inIndexEntry s w id = true := by
  simp [inSomeEntry]

theorem inSomeEntry_eq_false {s : Server} {words : List String} {id : Int} :
    inSomeEntry s words id = false ↔ ∀ w ∈ words, inIndexEntry s w id = false := by
  simp [inSomeEntry]

end Top

/-! ## The search results -/

section Results

variable {R : Type} [LinearOrderedField R]

theorem FindTopDocumentsActual_eq (ln : ℚ → R) (s : Server) (raw_query : String) :
    FindTopDocumentsActual ln s raw_query = FindTopDocuments ln s raw_query actualFilter :=
  rfl

/-- What is known of a document of the list of candidates. -/
theorem candidate_facts {ln : ℚ → R} {s : Server} (hs : WellFormed s) {query : Query}
    {filter : Int → DocumentStatus → Int → Bool} {d : Document R}
    (hd : d ∈ candidates ln s query filter) :
    ∃ data, mapFind s.documents_ d.id = some data ∧ d.rating = data.rating ∧
      d.relevance = relevanceOf ln s query.plus_words d.id ∧
      filter d.id data.status d.rating = true ∧
      inSomeEntry s query.plus_words d.id = true ∧
      inSomeEntry s query.minus_words d.id = false := by
  obtain ⟨e, he, hq, rfl⟩ := mem_candidates.1 hd
  simp only [qualifies, Bool.and_eq_true, Bool.not_eq_true'] at hq
  exact ⟨e.2, mapFind_eq_some_of_mem (List.Sorted.nodup hs.documents) he, rfl, rfl,
    hq.1.1, hq.1.2, hq.2⟩

/-- A stored document that meets the conditions is a candidate. -/
theorem candidate_of_facts (ln : ℚ → R) {s : Server} {query : Query}
    {filter : Int → DocumentStatus → Int → Bool} {id : Int} {data : DocumentData}
    (hd : mapFind s.documents_ id = some data)
    (hf : filter id data.status data.rating = true)
    (hp : inSomeEntry s query.plus_words id = true)
    (hm : inSomeEntry s query.minus_words id = false) :
    ∃ d ∈ candidates ln s query filter, d.id = id := by
  refine ⟨⟨id, relevanceOf ln s query.plus_words id, data.rating⟩, ?_, rfl⟩
  refine mem_candidates.2 ⟨(id, data), mem_of_mapFind_eq_some hd, ?_, rfl⟩
  simp [qualifies, hf, hp, hm]

end Results

/-- C1: in every reachable state, for every raw query and every predicate,
`FindTopDocuments` returns a list; every returned document is in the store and
carries its stored rating, is accepted by the predicate with its stored status
and rating, is in the index entry of some plus-word of the parsed query and in
the index entry of no minus-word; and when at most five stored documents meet
these conditions, every one of them is returned. -/
theorem FindTopDocuments_sound_and_complete {R : Type} [LinearOrderedField R] (ln : ℚ → R)
    (s : Server) (hs : Reachable s) (raw_query : String)
    (filter : Int → DocumentStatus → Int → Bool) :
    ∃ result, FindTopDocuments ln s raw_query filter = some result ∧
      (∀ d ∈ result, ∃ data, mapFind s.documents_ d.id = some data ∧
        d.rating = data.rating ∧
        filter d.id data.status data.rating = true ∧
        (∃ w ∈ (ParseQuery s raw_query).plus_words, inIndexEntry s w d.id = true) ∧
        (∀ w ∈ (ParseQuery s raw_query).minus_words, inIndexEntry s w d.id = false)) ∧
      ((s.documents_.filter (fun e =>
          filter e.1 e.2.status e.2.rating &&
          (ParseQuery s raw_query).plus_words.any (fun w => inIndexEntry s w e.1) &&
          !(ParseQuery s raw_query).minus_words.any (fun w => inIndexEntry s w e.1))).length
            ≤ 5 →
        ∀ id data, mapFind s.documents_ id = some data →
          filter id data.status data.rating = true →
          (∃ w ∈ (ParseQuery s raw_query).plus_words, inIndexEntry s w id = true) →
          (∀ w ∈ (ParseQuery s raw_query).minus_words, inIndexEntry s w id = false) →
          ∃ d ∈ result, d.id = id) := by
  refine ⟨_, FindTopDocuments_eq ln s hs.wellFormed raw_query filter, ?_, ?_⟩
  · intro d hd
    obtain ⟨data, h1, h2, _, h4, h5, h6⟩ :=
      candidate_facts hs.wellFormed (mem_of_mem_topOf hd)
    exact ⟨data, h1, h2, h2 ▸ h4, inSomeEntry_eq_true.1 h5, inSomeEntry_eq_false.1 h6⟩
  · intro hcount id data hd hf hp hm
    have hlen : (candidates ln s (ParseQuery s raw_query) filter).length ≤
        MAX_RESULT_DOCUMENT_COUNT := by
      rw [candidates_length]
      exact hcount
    obtain ⟨d, hmem, hid⟩ := candidate_of_facts ln hd hf
      (inSomeEntry_eq_true.2 hp) (inSomeEntry_eq_false.2 hm)
    exact ⟨d, (topOf_perm hlen).mem_iff.2 hmem, hid⟩

theorem simpleSearchServer_reachable : Reachable simpleSearchServer :=
  Reachable.addDocument _ _ _ _ _ (Reachable.addDocument _ _ _ _ _
    (Reachable.addDocument _ _ _ _ _ (Reachable.addDocument _ _ _ _ _
      (Reachable.addDocument _ _ _ _ _ Reachable.empty))))

/-- C1, on the server of `TestSimpleSearch`: the query `city` returns the three
documents that contain `city`, which are the documents 0, 1 and 2. -/
theorem FindTopDocuments_sound_and_complete_witness :
    Reachable simpleSearchServer ∧
    ∃ result, FindTopDocumentsActual (fun x : ℚ => Real.log (x : ℝ)) simpleSearchServer "city" = some result ∧
      result.length = 3 ∧
      (∀ d ∈ result, d.id ∈ [0, 1, 2]) ∧
      (∀ id ∈ [0, 1, 2], ∃ d ∈ result, d.id = id) := by
  refine ⟨simpleSearchServer_reachable, ?_⟩
  obtain ⟨result, hres, hsound, hcomplete⟩ :=
    FindTopDocuments_sound_and_complete (fun x : ℚ => Real.log (x : ℝ)) simpleSearchServer
      simpleSearchServer_reachable "city" actualFilter
  have hq : ParseQuery simpleSearchServer "city" = ⟨["city"], []⟩ := by decide!
  have hdocs : simpleSearchServer.documents_ =
      [(0, ⟨2, DocumentStatus.ACTUAL⟩), (1, ⟨2, DocumentStatus.ACTUAL⟩),
       (2, ⟨2, DocumentStatus.ACTUAL⟩), (3, ⟨2, DocumentStatus.ACTUAL⟩),
       (4, ⟨2, DocumentStatus.ACTUAL⟩)] := by decide!
  refine ⟨result, hres, ?_, ?_, ?_⟩
  · have heq := FindTopDocuments_eq (fun x : ℚ => Real.log (x : ℝ)) simpleSearchServer
      simpleSearchServer_reachable.wellFormed "city" actualFilter
    rw [hres] at heq
    rw [Option.some.inj heq, topOf_length, candidates_length]
    decide!
  · intro d hd
    obtain ⟨data, _, _, _, ⟨w, hw, hin⟩, _⟩ := hsound d hd
    rw [hq] at hw
    have hw' : w = "city" := by simpa using hw
    subst hw'
    have hkeys : ∀ id, inIndexEntry simpleSearchServer "city" id = true → id ∈ [0, 1, 2] := by
      have hentry : mapFind simpleSearchServer.word_to_document_freqs_ "city" =
          some [(0, 1 / 5), (1, 1 / 6), (2, 1 / 2)] := by decide!
      intro id h
      unfold inIndexEntry at h
      rw [hentry] at h
      have := (mapFind_isSome_iff _ id).1 h
      simpa [mapKeys] using this
    exact hkeys d.id hin
  · have hcount : (simpleSearchServer.documents_.filter (fun e =>
          actualFilter e.1 e.2.status e.2.rating &&
          (ParseQuery simpleSearchServer "city").plus_words.any
            (fun w => inIndexEntry simpleSearchServer w e.1) &&
          !(ParseQuery simpleSearchServer "city").minus_words.any
            (fun w => inIndexEntry simpleSearchServer w e.1))).length ≤ 5 := by decide!
    intro id hid
    have hall : ∀ id ∈ [(0 : Int), 1, 2],
        mapFind simpleSearchServer.documents_ id = some ⟨2, DocumentStatus.ACTUAL⟩ ∧
        inIndexEntry simpleSearchServer "city" id = true := by decide!
    obtain ⟨h1, h2⟩ := hall id hid
    exact hcomplete hcount id _ h1 rfl ⟨"city", by rw [hq]; simp, h2⟩
      (by rw [hq]; simp)

/-- C2: in every reachable state, for every raw query and every predicate, a
document that is in the index entry of a minus-word of the parsed query is not
in the list returned by `FindTopDocuments`, whatever plus-words it holds and
whatever the predicate says of it. -/
theorem FindTopDocuments_excludes_minus_words {R : Type} [LinearOrderedField R] (ln : ℚ → R)
    (s : Server) (hs : Reachable s) (raw_query : String)
    (filter : Int → DocumentStatus → Int → Bool) (word : String)
    (hword : word ∈ (ParseQuery s raw_query).minus_words) (document_id : Int)
    (hdoc : inIndexEntry s word document_id = true) :
    ∃ result, FindTopDocuments ln s raw_query filter = some result ∧
      ∀ d ∈ result, d.id ≠ document_id := by
  refine ⟨_, FindTopDocuments_eq ln s hs.wellFormed raw_query filter, ?_⟩
  intro d hd hid
  obtain ⟨data, _, _, _, _, _, h6⟩ := candidate_facts hs.wellFormed (mem_of_mem_topOf hd)
  have := inSomeEntry_eq_false.1 h6 word hword
  rw [hid, hdoc] at this
  exact Bool.noConfusion this

theorem minusWordsServer_reachable : Reachable minusWordsServer :=
  Reachable.addDocument _ _ _ _ _ (Reachable.addDocument _ _ _ _ _ Reachable.empty)

/-- C2, on the server of `TestMinusWordsExcludeDocFromSERP`: the document 2 holds
the minus-word `dog` of the query `in the city -dog`, which returns the
document 1 alone. -/
theorem FindTopDocuments_excludes_minus_words_witness :
    Reachable minusWordsServer ∧
    "dog" ∈ (ParseQuery minusWordsServer "in the city -dog").minus_words ∧
    inIndexEntry minusWordsServer "dog" 2 = true ∧
    ∃ result,
      FindTopDocumentsActual (fun x : ℚ => Real.log (x : ℝ)) minusWordsServer
        "in the city -dog" = some result ∧
      result.map (fun d => d.id) = [1] ∧ ∀ d ∈ result, d.id ≠ 2 := by
  have hword : "dog" ∈ (ParseQuery minusWordsServer "in the city -dog").minus_words := by
    decide!
  have hdoc : inIndexEntry minusWordsServer "dog" 2 = true := by decide!
  refine ⟨minusWordsServer_reachable, hword, hdoc, ?_⟩
  obtain ⟨result, hres, hne⟩ :=
    FindTopDocuments_excludes_minus_words (fun x : ℚ => Real.log (x : ℝ)) minusWordsServer
      minusWordsServer_reachable "in the city -dog" actualFilter "dog" hword 2 hdoc
  refine ⟨result, hres, ?_, hne⟩
  have heq := FindTopDocuments_eq (fun x : ℚ => Real.log (x : ℝ)) minusWordsServer
    minusWordsServer_reachable.wellFormed "in the city -dog" actualFilter
  rw [hres] at heq
  have hkeys : mapKeys (minusWordsServer.documents_.filter
      (qualifies minusWordsServer (ParseQuery minusWordsServer "in the city -dog")
        actualFilter)) = [1] := by decide!
  have hlen : (candidates (fun x : ℚ => Real.log (x : ℝ)) minusWordsServer
      (ParseQuery minusWordsServer "in the city -dog") actualFilter).length ≤
        MAX_RESULT_DOCUMENT_COUNT := by
    rw [candidates_length, ← List.length_map _ Prod.fst]
    change (mapKeys _).length ≤ _
    rw [hkeys]
    decide
  have hperm := (topOf_perm hlen).map (fun d => d.id)
  rw [candidates_map_id, hkeys, ← Option.some.inj heq] at hperm
  exact List.perm_singleton.1 hperm

theorem sixDocumentsServer_reachable : Reachable sixDocumentsServer :=
  Reachable.addDocument _ _ _ _ _ (Reachable.addDocument _ _ _ _ _
    (Reachable.addDocument _ _ _ _ _ (Reachable.addDocument _ _ _ _ _
      (Reachable.addDocument _ _ _ _ _ (Reachable.addDocument _ _ _ _ _ Reachable.empty)))))

/-! ## The order of the results -/

section Order

variable {R : Type} [LinearOrderedField R]

theorem compareDocuments_asymm (a b : Document R) (h : compareDocuments a b = true) :
    compareDocuments b a = false := by
  unfold compareDocuments at h ⊢
  rw [abs_sub_comm b.relevance a.relevance]
  by_cases ht : |a.relevance - b.relevance| < 1 / 1000000
  · rw [if_pos ht] at h ⊢
    simp only [decide_eq_true_eq, decide_eq_false_iff_not, not_lt, gt_iff_lt] at h ⊢
    exact le_of_lt h
  · rw [if_neg ht] at h ⊢
    simp only [decide_eq_true_eq, decide_eq_false_iff_not, not_lt, gt_iff_lt] at h ⊢
    exact le_of_lt h

theorem chain_get {α : Type} {r : α → α → Prop} :
    ∀ {l : List α}, l.Chain' r → ∀ (i : Nat) (a b : α),
      l[i]? = some a → l[i + 1]? = some b → r a b
  | [], _, i, a, b, ha, _ => by simp at ha
  | [x], _, i, a, b, _, hb => by simp at hb
  | x :: y :: l, h, 0, a, b, ha, hb => by
    simp only [List.getElem?_cons_zero, Option.some.injEq, zero_add,
      List.getElem?_cons_succ] at ha hb
    subst ha
    subst hb
    exact (List.chain'_cons.1 h).1
  | x :: y :: l, h, i + 1, a, b, ha, hb => by
    rw [List.getElem?_cons_succ] at ha hb
    exact chain_get (List.chain'_cons.1 h).2 i a b ha hb

theorem topOf_chain (l : List (Document R)) :
    (topOf l).Chain' (fun a b => compareDocuments b a = false) := by
  rw [topOf_eq_take]
  exact List.Chain'.take (sort_chain compareDocuments compareDocuments_asymm l) _

theorem topOf_pair_of_false (a b : Document R) (h : compareDocuments b a = false) :
    topOf [a, b] = [a, b] := by
  have hs : sort compareDocuments [a, b] = [a, b] := by
    simp only [sort, List.foldl_cons, List.foldl_nil, sortInsert, h]
    rfl
  rw [topOf_eq_take, hs]
  rfl

theorem topOf_pair_of_true (a b : Document R) (h : compareDocuments b a = true) :
    topOf [a, b] = [b, a] := by
  have hs : sort compareDocuments [a, b] = [b, a] := by
    simp only [sort, List.foldl_cons, List.foldl_nil, sortInsert, h]
    rfl
  rw [topOf_eq_take, hs]
  rfl

end Order

theorem tiedServer_reachable : Reachable tiedServer :=
  Reachable.addDocument _ _ _ _ _ (Reachable.addDocument _ _ _ _ _
    (Reachable.addDocument _ _ _ _ _ Reachable.empty))

/-- The index entry of the word `a` on `tiedServer`. -/
theorem tiedServer_entry : mapFind tiedServer.word_to_document_freqs_ "a" =
    some [(1, 1 / 708), (2, 1 / 709)] := by
  decide!

theorem tiedServer_documents : tiedServer.documents_ =
    [(1, ⟨1, DocumentStatus.ACTUAL⟩), (2, ⟨5, DocumentStatus.ACTUAL⟩),
     (3, ⟨1, DocumentStatus.ACTUAL⟩)] := by
  decide!

theorem tiedServer_query : ParseQuery tiedServer "a" = ⟨["a"], []⟩ := by
  decide!

theorem inIndexEntry_of_entry (s : Server) (word : String) (docs : List (Int × ℚ))
    (h : mapFind s.word_to_document_freqs_ word = some docs) (id : Int) :
    inIndexEntry s word id = (mapFind docs id).isSome := by
  unfold inIndexEntry
  rw [h]

/-- The two candidates of the query `a` on `tiedServer`. -/
theorem tiedServer_candidates {R : Type} [LinearOrderedField R] (ln : ℚ → R) :
    candidates ln tiedServer (ParseQuery tiedServer "a") actualFilter =
      [⟨1, ((1 / 708 : ℚ) : R) * ln ((3 : ℚ) * 1 / 2) + 0, 1⟩,
       ⟨2, ((1 / 709 : ℚ) : R) * ln ((3 : ℚ) * 1 / 2) + 0, 5⟩] := by
  have hin := inIndexEntry_of_entry tiedServer "a" _ tiedServer_entry
  have hcount : GetDocumentCount tiedServer = 3 := by
    unfold GetDocumentCount
    rw [tiedServer_documents]
    decide
  have hfilter : tiedServer.documents_.filter
      (qualifies tiedServer (ParseQuery tiedServer "a") actualFilter) =
      [(1, ⟨1, DocumentStatus.ACTUAL⟩), (2, ⟨5, DocumentStatus.ACTUAL⟩)] := by
    rw [tiedServer_query, tiedServer_documents]
    have hq : ∀ e : Int × DocumentData,
        qualifies tiedServer ⟨["a"], []⟩ actualFilter e =
          (actualFilter e.1 e.2.status e.2.rating &&
            ((mapFind [((1 : Int), (1 / 708 : ℚ)), (2, 1 / 709)] e.1).isSome || false) &&
            !false) := by
      intro e
      simp only [qualifies, inSomeEntry, List.any_cons, List.any_nil, hin]
    simp only [List.filter_cons, hq]
    decide!
  have hrel : ∀ id, relevanceOf ln tiedServer ["a"] id =
      (if (mapFind [((1 : Int), (1 / 708 : ℚ)), (2, 1 / 709)] id).isSome = true then
        (((mapFind [((1 : Int), (1 / 708 : ℚ)), (2, 1 / 709)] id).getD 0 : ℚ) : R) *
          ln ((3 : ℚ) * 1 / 2) else 0) + 0 := by
    intro id
    rw [relevanceOf_cons_of_entry ln tiedServer "a" [] id _ tiedServer_entry, relevanceOf_nil,
      hcount]
    norm_num
  unfold candidates
  rw [hfilter, tiedServer_query]
  simp only [List.map_cons, List.map_nil, hrel]
  have h1 : mapFind [((1 : Int), (1 / 708 : ℚ)), (2, 1 / 709)] 1 = some (1 / 708) := by
    decide!
  have h2 : mapFind [((1 : Int), (1 / 708 : ℚ)), (2, 1 / 709)] 2 = some (1 / 709) := by
    decide!
  rw [h1, h2]
  simp

/-- The list returned for the query `a` on `tiedServer`: the document 2, of
relevance `ln (3/2) / 709` and rating 5, comes before the document 1, of
relevance `ln (3/2) / 708` and rating 1. -/
theorem tiedServer_result :
    FindTopDocumentsActual (fun x : ℚ => Real.log (x : ℝ)) tiedServer "a" =
      some [⟨2, Real.log (3 / 2) / 709, 5⟩, ⟨1, Real.log (3 / 2) / 708, 1⟩] := by
  have hL : Real.log (((3 : ℚ) * 1 / 2 : ℚ) : ℝ) = Real.log (3 / 2) := by
    congr 1
    push_cast
    norm_num
  have hpos : 0 < Real.log (3 / 2) := Real.log_pos (by norm_num)
  have hle : Real.log (3 / 2) ≤ 3 / 2 - 1 := Real.log_le_sub_one_of_pos (by norm_num)
  rw [FindTopDocumentsActual_eq,
    FindTopDocuments_eq _ tiedServer tiedServer_reachable.wellFormed,
    tiedServer_candidates]
  simp only [hL]
  have h1 : (((1 / 708 : ℚ) : ℝ)) * Real.log (3 / 2) + 0 = Real.log (3 / 2) / 708 := by
    push_cast
    ring
  have h2 : (((1 / 709 : ℚ) : ℝ)) * Real.log (3 / 2) + 0 = Real.log (3 / 2) / 709 := by
    push_cast
    ring
  rw [h1, h2]
  have hcmp : compareDocuments (⟨2, Real.log (3 / 2) / 709, 5⟩ : Document ℝ)
      ⟨1, Real.log (3 / 2) / 708, 1⟩ = true := by
    unfold compareDocuments
    have htied : |Real.log (3 / 2) / 709 - Real.log (3 / 2) / 708| < 1 / 1000000 := by
      rw [abs_lt]
      constructor <;> linarith
    simp only [htied, if_true]
    decide
  rw [topOf_pair_of_true _ _ hcmp]

/-! ## The contract of `std::sort` -/

theorem sortInsert_pairwise {α : Type} {comp : α → α → Bool} {v : List α}
    (hswo : StrictWeakOrderOn comp v) (x : α) (hx : x ∈ v) (l : List α)
    (hl : ∀ y ∈ l, y ∈ v) (hp : l.Pairwise (fun a b => comp b a = false)) :
    (sortInsert comp x l).Pairwise (fun a b => comp b a = false) := by
  induction l with
  | nil => simp [sortInsert]
  | cons y ys ih =>
    have hy : y ∈ v := hl y (List.mem_cons_self _ _)
    have hys : ∀ z ∈ ys, z ∈ v := fun z hz => hl z (List.mem_cons_of_mem _ hz)
    unfold sortInsert
    by_cases hxy : comp x y = true
    · rw [if_pos hxy]
      refine List.Pairwise.cons ?_ hp
      intro z hz
      have hzv : z ∈ v := hl z hz
      cases hzx : comp z x with
      | false => rfl
      | true =>
        have hzy := hswo.trans z hzv x hx y hy hzx hxy
        rcases List.mem_cons.1 hz with rfl | hz'
        · rw [hswo.irrefl z hzv] at hzy
          exact Bool.noConfusion hzy
        · rw [(List.pairwise_cons.1 hp).1 z hz'] at hzy
          exact Bool.noConfusion hzy
    · rw [if_neg hxy]
      refine List.Pairwise.cons ?_ (ih hys (List.pairwise_cons.1 hp).2)
      intro w hw
      rcases List.mem_cons.1 ((sortInsert_perm comp x ys).subset hw) with rfl | hw'
      · simpa using hxy
      · exact (List.pairwise_cons.1 hp).1 w hw'

/-- Insertion sort meets the contract of `std::sort`. -/
theorem stdSort_sort {α : Type} :
    StdSort (sort : (α → α → Bool) → List α → List α) := by
  refine ⟨sort_perm, ?_⟩
  intro comp v hswo
  have key : ∀ (w sorted : List α), (∀ y ∈ w, y ∈ v) → (∀ y ∈ sorted, y ∈ v) →
      sorted.Pairwise (fun a b => comp b a = false) →
      (w.foldl (fun sorted x => sortInsert comp x sorted) sorted).Pairwise
        (fun a b => comp b a = false) := by
    intro w
    induction w with
    | nil => intro sorted _ _ h; exact h
    | cons x w ih =>
      intro sorted hw hsorted h
      rw [List.foldl_cons]
      refine ih _ (fun y hy => hw y (List.mem_cons_of_mem _ hy)) ?_
        (sortInsert_pairwise hswo x (hw x (List.mem_cons_self _ _)) sorted hsorted h)
      intro y hy
      rcases List.mem_cons.1 ((sortInsert_perm comp x sorted).subset hy) with rfl | hy'
      · exact hw y (List.mem_cons_self _ _)
      · exact hsorted y hy'
  exact key v [] (fun y hy => hy) (fun y hy => absurd hy (List.not_mem_nil y))
    List.Pairwise.nil

section SortContract

variable {R : Type} [LinearOrderedField R]

theorem compareDocuments_eq_true_iff (a b : Document R) :
    compareDocuments a b = true ↔
      (|a.relevance - b.relevance| < 1 / 1000000 ∧ a.rating > b.rating) ∨
      (¬ |a.relevance - b.relevance| < 1 / 1000000 ∧ a.relevance > b.relevance) := by
  unfold compareDocuments
  by_cases ht : |a.relevance - b.relevance| < 1 / 1000000
  · rw [if_pos ht, decide_eq_true_eq]
    exact ⟨fun h => Or.inl ⟨ht, h⟩, fun h => h.elim (fun h => h.2) (fun h => absurd ht h.1)⟩
  · rw [if_neg ht, decide_eq_true_eq]
    exact ⟨fun h => Or.inr ⟨ht, h⟩, fun h => h.elim (fun h => absurd h.1 ht) (fun h => h.2)⟩

theorem compareDocuments_eq_false_iff (a b : Document R) :
    compareDocuments a b = false ↔
      (|a.relevance - b.relevance| < 1 / 1000000 → a.rating ≤ b.rating) ∧
      (¬ |a.relevance - b.relevance| < 1 / 1000000 → a.relevance ≤ b.relevance) := by
  unfold compareDocuments
  by_cases ht : |a.relevance - b.relevance| < 1 / 1000000
  · rw [if_pos ht, decide_eq_false_iff_not, gt_iff_lt, not_lt]
    exact ⟨fun h => ⟨fun _ => h, fun hn => absurd ht hn⟩, fun h => h.1 ht⟩
  · rw [if_neg ht, decide_eq_false_iff_not, gt_iff_lt, not_lt]
    exact ⟨fun h => ⟨fun ht' => absurd ht' ht, fun _ => h⟩, fun h => h.2 ht⟩

theorem not_tied_of_gt {x y : R} (h : ¬ |x - y| < 1 / 1000000) (hgt : x > y) :
    1 / 1000000 ≤ x - y := by
  rw [abs_of_pos (sub_pos.2 hgt)] at h
  exact not_lt.1 h

theorem tied_self (x : R) : |x - x| < 1 / 1000000 := by
  rw [sub_self, abs_zero]
  norm_num

/-- No document has to be put before `a` by the comparison exactly when `a`
and it are in the order of a sorted result. -/
theorem inOrder_of_compareDocuments {a b : Document R} (h : compareDocuments b a = false) :
    InOrder a b := by
  rw [compareDocuments_eq_false_iff, abs_sub_comm b.relevance a.relevance] at h
  by_cases ht : |a.relevance - b.relevance| < 1 / 1000000
  · refine ⟨fun _ => h.1 ht, fun hn => absurd ht hn, ?_⟩
    have := (abs_lt.1 ht).1
    linarith
  · have hle := h.2 ht
    have hne : a.relevance ≠ b.relevance := by
      intro heq
      apply ht
      rw [heq]
      exact tied_self _
    have hlt : b.relevance < a.relevance := lt_of_le_of_ne hle (Ne.symm hne)
    refine ⟨fun ht' => absurd ht' ht, fun _ => hlt, ?_⟩
    have : (0 : R) < 1 / 1000000 := by norm_num
    linarith

/-- When being tied is transitive among the documents of a vector, the
comparison of `FindTopDocuments` is a strict weak ordering on them. -/
theorem strictWeakOrderOn_of_tiesTransitive {v : List (Document R)} (hties : TiesTransitive v) :
    StrictWeakOrderOn compareDocuments v := by
  have hsymm : ∀ a b : Document R, |a.relevance - b.relevance| < 1 / 1000000 →
      |b.relevance - a.relevance| < 1 / 1000000 := by
    intro a b h
    rw [abs_sub_comm]
    exact h
  have hincomp : ∀ a b : Document R, compareDocuments a b = false →
      compareDocuments b a = false →
      |a.relevance - b.relevance| < 1 / 1000000 ∧ a.rating = b.rating := by
    intro a b hab hba
    rw [compareDocuments_eq_false_iff] at hab hba
    have ht : |a.relevance - b.relevance| < 1 / 1000000 := by
      by_contra hn
      have h1 := hab.2 hn
      have h2 := hba.2 (fun h => hn (hsymm b a h))
      apply hn
      rw [le_antisymm h1 h2]
      exact tied_self _
    exact ⟨ht, le_antisymm (hab.1 ht) (hba.1 (hsymm a b ht))⟩
  refine ⟨?_, ?_, ?_⟩
  · intro a _
    rw [compareDocuments_eq_false_iff]
    exact ⟨fun _ => le_refl _, fun h => absurd (tied_self _) h⟩
  · intro a ha b hb c hc hab hbc
    rw [compareDocuments_eq_true_iff] at hab hbc ⊢
    rcases hab with ⟨tab, rab⟩ | ⟨nab, gab⟩
    · rcases hbc with ⟨tbc, rbc⟩ | ⟨nbc, gbc⟩
      · exact Or.inl ⟨hties a ha b hb c hc tab tbc, lt_trans rbc rab⟩
      · have nac : ¬ |a.relevance - c.relevance| < 1 / 1000000 := fun tac =>
          nbc (hties b hb a ha c hc (hsymm a b tab) tac)
        refine Or.inr ⟨nac, ?_⟩
        have h1 := not_tied_of_gt nbc gbc
        have h2 := (abs_lt.1 tab).1
        show c.relevance < a.relevance
        linarith
    · rcases hbc with ⟨tbc, rbc⟩ | ⟨nbc, gbc⟩
      · have nac : ¬ |a.relevance - c.relevance| < 1 / 1000000 := fun tac =>
          nab (hties a ha c hc b hb tac (hsymm b c tbc))
        refine Or.inr ⟨nac, ?_⟩
        have h1 := not_tied_of_gt nab gab
        have h2 := (abs_lt.1 tbc).1
        show c.relevance < a.relevance
        linarith
      · have h1 := not_tied_of_gt nab gab
        have h2 := not_tied_of_gt nbc gbc
        have hpos : (0 : R) < 1 / 1000000 := by norm_num
        have hgt : c.relevance < a.relevance := by linarith
        refine Or.inr ⟨?_, hgt⟩
        intro tac
        have := (abs_lt.1 tac).2
        linarith
  · intro a ha b hb c hc hab hba hbc hcb
    obtain ⟨tab, rab⟩ := hincomp a b hab hba
    obtain ⟨tbc, rbc⟩ := hincomp b c hbc hcb
    have tac := hties a ha b hb c hc tab tbc
    rw [compareDocuments_eq_false_iff, compareDocuments_eq_false_iff]
    refine ⟨⟨fun _ => le_of_eq (rab.trans rbc), fun h => absurd tac h⟩,
      ⟨fun _ => le_of_eq (rab.trans rbc).symm, fun h => absurd (hsymm a c tac) h⟩⟩

/-- Being tied is transitive among two documents. -/
theorem tiesTransitive_pair (x y : Document R) : TiesTransitive [x, y] := by
  intro a ha b hb c hc hab hbc
  simp only [List.mem_cons, List.mem_singleton, List.not_mem_nil, or_false] at ha hb hc
  rcases ha with rfl | rfl <;> rcases hb with rfl | rfl <;> rcases hc with rfl | rfl <;>
    first
    | exact hab
    | exact hbc
    | exact tied_self _

/-- The method `FindTopDocuments` is `FindTopDocumentsWith` for the insertion
sort. -/
theorem FindTopDocumentsWith_sort (ln : ℚ → R) (s : Server) (raw_query : String)
    (filter : Int → DocumentStatus → Int → Bool) :
    FindTopDocumentsWith sort ln s raw_query filter = FindTopDocuments ln s raw_query filter :=
  rfl

/-- In a well-formed state `FindTopDocumentsWith` does not throw and returns
the first five documents of what the sort makes of the list of the documents
that answer the query. -/
theorem FindTopDocumentsWith_eq
    (sortFn : (Document R → Document R → Bool) → List (Document R) → List (Document R))
    (ln : ℚ → R) (s : Server) (hs : WellFormed s)
    (raw_query : String) (filter : Int → DocumentStatus → Int → Bool) :
    FindTopDocumentsWith sortFn ln s raw_query filter =
      some ((sortFn compareDocuments
        (candidates ln s (ParseQuery s raw_query) filter)).take MAX_RESULT_DOCUMENT_COUNT) := by
  unfold FindTopDocumentsWith
  show (FindAllDocuments ln s (ParseQuery s raw_query) filter).bind _ = _
  rw [FindAllDocuments_eq ln s hs]
  show (keepFiltered s filter _).bind _ = _
  rw [keepFiltered_candidates ln s hs]
  show (if _ then _ else _) = _
  split
  · rfl
  · rename_i h
    rw [List.take_of_length_le (not_lt.1 h)]
    rfl

end SortContract

theorem perm_pair {α : Type} {l : List α} {a b : α} (h : l.Perm [a, b]) :
    l = [a, b] ∨ l = [b, a] := by
  match l, h with
  | [], h => exact absurd h.length_eq (by simp)
  | [x], h => exact absurd h.length_eq (by simp)
  | x :: y :: z :: l, h => exact absurd h.length_eq (by simp)
  | [x, y], h =>
    have hx : x ∈ [a, b] := h.subset (List.mem_cons_self _ _)
    simp only [List.mem_cons, List.mem_singleton, List.not_mem_nil, or_false] at hx
    rcases hx with rfl | rfl
    · have := (List.perm_cons x).1 h
      rw [List.perm_singleton.1 this]
      exact Or.inl rfl
    · have := (List.perm_cons x).1 (h.trans (List.Perm.swap x a []))
      rw [List.perm_singleton.1 this]
      exact Or.inr rfl

/-- A function that meets the contract of `std::sort` exchanges two elements
of which the second has to be put before the first, when the comparison is a
strict weak ordering on them. -/
theorem stdSort_pair_of_true {α : Type} {sortFn : (α → α → Bool) → List α → List α}
    (hsort : StdSort sortFn) (comp : α → α → Bool) (a b : α)
    (hswo : StrictWeakOrderOn comp [a, b]) (h : comp b a = true) :
    sortFn comp [a, b] = [b, a] := by
  rcases perm_pair (hsort.perm comp [a, b]) with heq | heq
  · have hsorted := hsort.sorted comp [a, b] hswo
    rw [heq] at hsorted
    have := (List.pairwise_cons.1 hsorted).1 b (List.mem_singleton_self _)
    rw [h] at this
    exact Bool.noConfusion this
  · exact heq

/-- The list returned for the query `a` on `tiedServer`, for every function
that meets the contract of `std::sort`: the document 2, of relevance
`ln (3/2) / 709` and rating 5, comes before the document 1, of relevance
`ln (3/2) / 708` and rating 1. -/
theorem tiedServer_result_with
    (sortFn : (Document ℝ → Document ℝ → Bool) → List (Document ℝ) → List (Document ℝ))
    (hsort : StdSort sortFn) :
    FindTopDocumentsWith sortFn (fun x : ℚ => Real.log (x : ℝ)) tiedServer "a" actualFilter =
      some [⟨2, Real.log (3 / 2) / 709, 5⟩, ⟨1, Real.log (3 / 2) / 708, 1⟩] := by
  have hL : Real.log (((3 : ℚ) * 1 / 2 : ℚ) : ℝ) = Real.log (3 / 2) := by
    congr 1
    push_cast
    norm_num
  have hpos : 0 < Real.log (3 / 2) := Real.log_pos (by norm_num)
  have hle : Real.log (3 / 2) ≤ 3 / 2 - 1 := Real.log_le_sub_one_of_pos (by norm_num)
  rw [FindTopDocumentsWith_eq sortFn _ tiedServer tiedServer_reachable.wellFormed,
    tiedServer_candidates]
  simp only [hL]
  have h1 : (((1 / 708 : ℚ) : ℝ)) * Real.log (3 / 2) + 0 = Real.log (3 / 2) / 708 := by
    push_cast
    ring
  have h2 : (((1 / 709 : ℚ) : ℝ)) * Real.log (3 / 2) + 0 = Real.log (3 / 2) / 709 := by
    push_cast
    ring
  rw [h1, h2]
  have hcmp : compareDocuments (⟨2, Real.log (3 / 2) / 709, 5⟩ : Document ℝ)
      ⟨1, Real.log (3 / 2) / 708, 1⟩ = true := by
    unfold compareDocuments
    have htied : |Real.log (3 / 2) / 709 - Real.log (3 / 2) / 708| < 1 / 1000000 := by
      rw [abs_lt]
      constructor <;> linarith
    simp only [htied, if_true]
    decide
  rw [stdSort_pair_of_true hsort compareDocuments _ _
    (strictWeakOrderOn_of_tiesTransitive (tiesTransitive_pair _ _)) hcmp]
  rfl

/-- C3 fails as it is stated: on `tiedServer` the query `a` returns the
document 2 before the document 1 although the relevance of the document 2 is
the smaller one, because the two relevances differ by less than `1e-6` and the
comparison then looks at the ratings alone. This is so for the insertion sort
and for every function that meets the contract of `std::sort`. -/
theorem FindTopDocuments_not_descending_counterexample :
    Reachable tiedServer ∧
    ¬ (∀ result,
        FindTopDocumentsActual (fun x : ℚ => Real.log (x : ℝ)) tiedServer "a" = some result →
        ∀ (i : Nat) (a b : Document ℝ), result[i]? = some a → result[i + 1]? = some b →
          a.relevance ≥ b.relevance ∧
          (|a.relevance - b.relevance| < 1 / 1000000 → a.rating ≥ b.rating)) ∧
    ∀ sortFn : (Document ℝ → Document ℝ → Bool) → List (Document ℝ) → List (Document ℝ),
      StdSort sortFn →
      ¬ (∀ result,
        FindTopDocumentsWith sortFn (fun x : ℚ => Real.log (x : ℝ)) tiedServer "a"
          actualFilter = some result →
        ∀ (i : Nat) (a b : Document ℝ), result[i]? = some a → result[i + 1]? = some b →
          a.relevance ≥ b.relevance ∧
          (|a.relevance - b.relevance| < 1 / 1000000 → a.rating ≥ b.rating)) := by
  have hpos : 0 < Real.log (3 / 2) := Real.log_pos (by norm_num)
  have hlt : Real.log (3 / 2) / 709 < Real.log (3 / 2) / 708 :=
    div_lt_div_of_pos_left hpos (by norm_num) (by norm_num)
  refine ⟨tiedServer_reachable, ?_, ?_⟩
  · intro h
    have := (h _ tiedServer_result 0 ⟨2, Real.log (3 / 2) / 709, 5⟩
      ⟨1, Real.log (3 / 2) / 708, 1⟩ rfl rfl).1
    simp only [ge_iff_le] at this
    exact absurd this (not_le.2 hlt)
  · intro sortFn hsort h
    have := (h _ (tiedServer_result_with sortFn hsort) 0 ⟨2, Real.log (3 / 2) / 709, 5⟩
      ⟨1, Real.log (3 / 2) / 708, 1⟩ rfl rfl).1
    simp only [ge_iff_le] at this
    exact absurd this (not_le.2 hlt)

/-- C3, as amended: for every function that meets the contract of `std::sort`,
in every reachable state, for every raw query and every predicate: when being
tied (relevances that differ by less than `1e-6`) is transitive among the
documents that answer the query, the comparison of `FindTopDocuments` is a
strict weak ordering on them; and when it is a strict weak ordering, any two
documents of the list returned, and so two neighbours, are in this order: when
their relevances differ by less than `1e-6` the rating of the first is at least
the rating of the second, and otherwise the relevance of the first is greater
than the relevance of the second; so the relevance of the second never exceeds
the relevance of the first by `1e-6` or more. -/
theorem FindTopDocuments_ordered {R : Type} [LinearOrderedField R]
    (sortFn : (Document R → Document R → Bool) → List (Document R) → List (Document R))
    (hsort : StdSort sortFn) (ln : ℚ → R)
    (s : Server) (hs : Reachable s) (raw_query : String)
    (filter : Int → DocumentStatus → Int → Bool) :
    (TiesTransitive (candidates ln s (ParseQuery s raw_query) filter) →
      StrictWeakOrderOn compareDocuments
        (candidates ln s (ParseQuery s raw_query) filter)) ∧
    (StrictWeakOrderOn compareDocuments (candidates ln s (ParseQuery s raw_query) filter) →
      ∃ result, FindTopDocumentsWith sortFn ln s raw_query filter = some result ∧
        result.Pairwise InOrder ∧
        ∀ (i : Nat) (a b : Document R), result[i]? = some a → result[i + 1]? = some b →
          (|a.relevance - b.relevance| < 1 / 1000000 → a.rating ≥ b.rating) ∧
          (¬ |a.relevance - b.relevance| < 1 / 1000000 → a.relevance > b.relevance) ∧
          b.relevance - a.relevance < 1 / 1000000) := by
  refine ⟨strictWeakOrderOn_of_tiesTransitive, ?_⟩
  intro hswo
  refine ⟨_, FindTopDocumentsWith_eq sortFn ln s hs.wellFormed raw_query filter, ?_⟩
  have hpair : ((sortFn compareDocuments
      (candidates ln s (ParseQuery s raw_query) filter)).take
        MAX_RESULT_DOCUMENT_COUNT).Pairwise InOrder :=
    ((hsort.sorted _ _ hswo).sublist (List.take_sublist _ _)).imp
      (fun h => inOrder_of_compareDocuments h)
  exact ⟨hpair, fun i a b ha hb => chain_get hpair.chain' i a b ha hb⟩

/-- C3 as amended, on `tiedServer` and the insertion sort: the two documents
that answer the query `a` have relevances that differ by less than `1e-6`, and
of the two documents returned the first has the greater rating. -/
theorem FindTopDocuments_ordered_witness :
    StdSort (sort : (Document ℝ → Document ℝ → Bool) → List (Document ℝ) →
      List (Document ℝ)) ∧
    Reachable tiedServer ∧
    TiesTransitive (candidates (fun x : ℚ => Real.log (x : ℝ)) tiedServer
      (ParseQuery tiedServer "a") actualFilter) ∧
    ∃ result,
      FindTopDocumentsWith sort (fun x : ℚ => Real.log (x : ℝ)) tiedServer "a" actualFilter =
        some result ∧
      result.map (fun d => (d.id, d.rating)) = [(2, 5), (1, 1)] ∧
      ∀ (i : Nat) (a b : Document ℝ), result[i]? = some a → result[i + 1]? = some b →
        (|a.relevance - b.relevance| < 1 / 1000000 → a.rating ≥ b.rating) ∧
        (¬ |a.relevance - b.relevance| < 1 / 1000000 → a.relevance > b.relevance) ∧
        b.relevance - a.relevance < 1 / 1000000 := by
  have hties : TiesTransitive (candidates (fun x : ℚ => Real.log (x : ℝ)) tiedServer
      (ParseQuery tiedServer "a") actualFilter) := by
    rw [tiedServer_candidates]
    exact tiesTransitive_pair _ _
  have hthm := FindTopDocuments_ordered sort stdSort_sort (fun x : ℚ => Real.log (x : ℝ))
    tiedServer tiedServer_reachable "a" actualFilter
  obtain ⟨result, hres, _, hord⟩ := hthm.2 (hthm.1 hties)
  refine ⟨stdSort_sort, tiedServer_reachable, hties, result, hres, ?_, hord⟩
  have := tiedServer_result
  rw [FindTopDocumentsActual_eq, ← FindTopDocumentsWith_sort, hres] at this
  rw [Option.some.inj this]
  rfl

/-- C4: for every function that meets the contract of `std::sort`, in every
reachable state, for every raw query and every predicate, `FindTopDocuments`
returns at most `MAX_RESULT_DOCUMENT_COUNT = 5` documents: the list returned is
the first part of the sorted list of the documents that answer the query, a
rearrangement of these documents; it is all of the sorted list when at most
five documents answer the query and its first five documents when more than
five do; and when the comparison is a strict weak ordering on these documents,
no document that is left out has to be put before a document that is
returned. -/
theorem FindTopDocuments_truncates {R : Type} [LinearOrderedField R]
    (sortFn : (Document R → Document R → Bool) → List (Document R) → List (Document R))
    (hsort : StdSort sortFn) (ln : ℚ → R)
    (s : Server) (hs : Reachable s) (raw_query : String)
    (filter : Int → DocumentStatus → Int → Bool) :
    ∃ result rest,
      FindTopDocumentsWith sortFn ln s raw_query filter = some result ∧
      result ++ rest =
        sortFn compareDocuments (candidates ln s (ParseQuery s raw_query) filter) ∧
      (result ++ rest).Perm (candidates ln s (ParseQuery s raw_query) filter) ∧
      result.length ≤ 5 ∧
      result.length = min 5 (candidates ln s (ParseQuery s raw_query) filter).length ∧
      ((candidates ln s (ParseQuery s raw_query) filter).length ≤ 5 → rest = []) ∧
      (5 < (candidates ln s (ParseQuery s raw_query) filter).length → result.length = 5) ∧
      (candidates ln s (ParseQuery s raw_query) filter).length =
        (s.documents_.filter (fun e =>
          filter e.1 e.2.status e.2.rating &&
          (ParseQuery s raw_query).plus_words.any (fun w => inIndexEntry s w e.1) &&
          !(ParseQuery s raw_query).minus_words.any (fun w => inIndexEntry s w e.1))).length ∧
      (StrictWeakOrderOn compareDocuments (candidates ln s (ParseQuery s raw_query) filter) →
        ∀ a ∈ result, ∀ b ∈ rest, compareDocuments b a = false) := by
  have hperm := hsort.perm compareDocuments (candidates ln s (ParseQuery s raw_query) filter)
  have hlen := hperm.length_eq
  have h5 : MAX_RESULT_DOCUMENT_COUNT = 5 := rfl
  refine ⟨_, (sortFn compareDocuments
      (candidates ln s (ParseQuery s raw_query) filter)).drop MAX_RESULT_DOCUMENT_COUNT,
    FindTopDocumentsWith_eq sortFn ln s hs.wellFormed raw_query filter,
    List.take_append_drop _ _, ?_, ?_, ?_, ?_, ?_, candidates_length ln s _ filter, ?_⟩
  · rw [List.take_append_drop]
    exact hperm
  · rw [List.length_take, h5]
    exact min_le_left _ _
  · rw [List.length_take, hlen, h5]
  · intro h
    apply List.drop_eq_nil_of_le
    rw [hlen, h5]
    exact h
  · intro h
    rw [List.length_take, hlen, h5]
    exact min_eq_left (le_of_lt h)
  · intro hswo a ha b hb
    have hsorted := hsort.sorted _ _ hswo
    rw [← List.take_append_drop MAX_RESULT_DOCUMENT_COUNT (sortFn compareDocuments
      (candidates ln s (ParseQuery s raw_query) filter))] at hsorted
    exact (List.pairwise_append.1 hsorted).2.2 a ha b hb

/-- C4, on a server with six documents that hold `city` and the insertion
sort: six documents answer the query `city`, and five of them are returned. -/
theorem FindTopDocuments_truncates_witness :
    StdSort (sort : (Document ℝ → Document ℝ → Bool) → List (Document ℝ) →
      List (Document ℝ)) ∧
    Reachable sixDocumentsServer ∧
    ∃ result rest,
      FindTopDocumentsWith sort (fun x : ℚ => Real.log (x : ℝ)) sixDocumentsServer "city"
        actualFilter = some result ∧
      FindTopDocuments (fun x : ℚ => Real.log (x : ℝ)) sixDocumentsServer "city"
        actualFilter = some result ∧
      (result ++ rest).Perm (candidates (fun x : ℚ => Real.log (x : ℝ)) sixDocumentsServer
        (ParseQuery sixDocumentsServer "city") actualFilter) ∧
      (candidates (fun x : ℚ => Real.log (x : ℝ)) sixDocumentsServer
        (ParseQuery sixDocumentsServer "city") actualFilter).length = 6 ∧
      result.length = 5 ∧ rest.length = 1 := by
  obtain ⟨result, rest, h1, _, h3, _, _, _, h7, h8, _⟩ :=
    FindTopDocuments_truncates sort stdSort_sort (fun x : ℚ => Real.log (x : ℝ))
      sixDocumentsServer sixDocumentsServer_reachable "city" actualFilter
  have hsix : (candidates (fun x : ℚ => Real.log (x : ℝ)) sixDocumentsServer
      (ParseQuery sixDocumentsServer "city") actualFilter).length = 6 := by
    rw [h8]
    decide!
  have hfive : result.length = 5 := h7 (by rw [hsix]; decide)
  refine ⟨stdSort_sort, sixDocumentsServer_reachable, result, rest, h1, ?_, h3, hsix, hfive, ?_⟩
  · rw [← FindTopDocumentsWith_sort]
    exact h1
  · have := h3.length_eq
    rw [List.length_append, hsix, hfive] at this
    omega

/-! ## The term frequencies stored by `AddDocument` -/

theorem inIndexEntry_eq_freqAt (s : Server) (word : String) (id : Int) :
    inIndexEntry s word id = (freqAt s.word_to_document_freqs_ word id).isSome := by
  unfold inIndexEntry freqAt
  cases mapFind s.word_to_document_freqs_ word <;> rfl

theorem storedFreq_eq_freqAt (s : Server) (word : String) (id : Int) :
    storedFreq s word id = (freqAt s.word_to_document_freqs_ word id).getD 0 := by
  unfold storedFreq freqAt
  cases mapFind s.word_to_document_freqs_ word <;> rfl

/-- One step of the loop of `AddDocument`. -/
theorem freqAt_mapUpdate (index : List (String × List (Int × ℚ))) (w : String) (id : Int)
    (inv : ℚ) (word : String) (id' : Int) :
    freqAt (mapUpdate index w []
        (fun docs => mapUpdate docs id 0 (fun tf => tf + inv))) word id' =
      if word = w ∧ id' = id then some ((freqAt index w id).getD 0 + inv)
      else freqAt index word id' := by
  unfold freqAt
  rw [mapFind_mapUpdate]
  by_cases hw : word = w
  · subst hw
    rw [if_pos rfl, Option.some_bind, mapFind_mapUpdate]
    by_cases hid : id' = id
    · subst hid
      cases mapFind index word <;> simp [mapFind]
    · cases mapFind index word <;> simp [mapFind, hid]
  · simp [hw]

/-- The loop of `AddDocument`: every occurrence of a word adds
`inv_word_count` to the frequency stored for the word and the document. -/
theorem freqAt_foldl (id : Int) (inv : ℚ) (words : List String)
    (index : List (String × List (Int × ℚ))) (word : String) (id' : Int) :
    freqAt (words.foldl (fun freqs w => mapUpdate freqs w []
        (fun docs => mapUpdate docs id 0 (fun tf => tf + inv))) index) word id' =
      if word ∈ words ∧ id' = id then
        some ((freqAt index word id).getD 0 + (words.count word : ℚ) * inv)
      else freqAt index word id' := by
  induction words generalizing index with
  | nil => simp
  | cons w words ih =>
    rw [List.foldl_cons, ih, freqAt_mapUpdate, freqAt_mapUpdate]
    by_cases hid : id' = id
    · subst hid
      by_cases hw : word = w
      · subst hw
        by_cases hmem : word ∈ words
        · simp [hmem, List.count_cons_self]
          ring
        · simp [hmem, List.count_eq_zero_of_not_mem hmem]
      · have hw' : ¬ w = word := fun h => hw h.symm
        by_cases hmem : word ∈ words
        · simp [hmem, hw, List.count_cons_of_ne hw']
        · simp [hmem, hw]
    · simp [hid]

/-- The index after `AddDocument`. -/
theorem freqAt_addDocument (s : Server) (id : Int) (document : String)
    (status : DocumentStatus) (ratings : List Int) (word : String) (id' : Int) :
    freqAt (AddDocument s id document status ratings).word_to_document_freqs_ word id' =
      if word ∈ SplitIntoWordsNoStop s document ∧ id' = id then
        some ((freqAt s.word_to_document_freqs_ word id).getD 0 +
          ((SplitIntoWordsNoStop s document).count word : ℚ) *
            (1 / ((SplitIntoWordsNoStop s document).length : ℚ)))
      else freqAt s.word_to_document_freqs_ word id' :=
  freqAt_foldl id _ _ _ word id'

theorem stop_words_addDocument (s : Server) (id : Int) (document : String)
    (status : DocumentStatus) (ratings : List Int) :
    (AddDocument s id document status ratings).stop_words_ = s.stop_words_ := rfl

theorem SplitIntoWordsNoStop_congr {s s' : Server} (h : s'.stop_words_ = s.stop_words_)
    (text : String) : SplitIntoWordsNoStop s' text = SplitIntoWordsNoStop s text := by
  unfold SplitIntoWordsNoStop IsStopWord
  rw [h]

theorem stop_words_addDocuments (s : Server) (calls : List AddDocumentCall) :
    (addDocuments s calls).stop_words_ = s.stop_words_ := by
  induction calls generalizing s with
  | nil => rfl
  | cons c calls ih =>
    unfold addDocuments at ih ⊢
    rw [List.foldl_cons, ih, stop_words_addDocument]

theorem Reachable.addDocuments {s : Server} (h : Reachable s) (calls : List AddDocumentCall) :
    Reachable (addDocuments s calls) := by
  induction calls generalizing s with
  | nil => exact h
  | cons c calls ih => exact ih (Reachable.addDocument _ _ _ _ _ h)

/-- Calls of `AddDocument` for other documents leave the frequencies of a
document as they are. -/
theorem freqAt_addDocuments_of_not_mem (s : Server) (calls : List AddDocumentCall)
    (word : String) (id : Int) (hid : id ∉ calls.map (fun c => c.document_id)) :
    freqAt (addDocuments s calls).word_to_document_freqs_ word id =
      freqAt s.word_to_document_freqs_ word id := by
  induction calls generalizing s with
  | nil => rfl
  | cons c calls ih =>
    simp only [List.map_cons, List.mem_cons, not_or] at hid
    unfold addDocuments at ih ⊢
    rw [List.foldl_cons, ih _ hid.2, freqAt_addDocument]
    simp [hid.1]

/-- After calls of `AddDocument` with pairwise distinct ids on a server whose
index has nothing for these ids, the index holds for a word of a document the
number of its occurrences divided by the number of words of the document, and
holds nothing for another word. -/
theorem freqAt_addDocuments (s : Server) (calls : List AddDocumentCall)
    (hnd : (calls.map (fun c => c.document_id)).Nodup)
    (hfresh : ∀ c ∈ calls, ∀ word, freqAt s.word_to_document_freqs_ word c.document_id = none)
    (c : AddDocumentCall) (hc : c ∈ calls) (word : String) :
    freqAt (addDocuments s calls).word_to_document_freqs_ word c.document_id =
      if word ∈ SplitIntoWordsNoStop s c.document then
        some (((SplitIntoWordsNoStop s c.document).count word : ℚ) /
          ((SplitIntoWordsNoStop s c.document).length : ℚ))
      else none := by
  induction calls generalizing s with
  | nil => simp at hc
  | cons c₀ calls ih =>
    simp only [List.map_cons, List.nodup_cons] at hnd
    have hstep : addDocuments s (c₀ :: calls) =
        addDocuments (AddDocument s c₀.document_id c₀.document c₀.status c₀.ratings) calls :=
      rfl
    rw [hstep]
    rcases List.mem_cons.1 hc with rfl | hc'
    · rw [freqAt_addDocuments_of_not_mem _ _ _ _ hnd.1, freqAt_addDocument,
        hfresh c (List.mem_cons_self _ _) word]
      by_cases hw : word ∈ SplitIntoWordsNoStop s c.document
      · simp [hw, div_eq_mul_inv]
      · simp [hw]
    · have hne : c.document_id ≠ c₀.document_id := by
        intro h
        exact hnd.1 (h ▸ List.mem_map_of_mem (fun c => c.document_id) hc')
      have := ih (AddDocument s c₀.document_id c₀.document c₀.status c₀.ratings) hnd.2
        (fun c' hc'' word' => by
          have hne' : c'.document_id ≠ c₀.document_id := by
            intro h
            exact hnd.1 (h ▸ List.mem_map_of_mem (fun c => c.document_id) hc'')
          rw [freqAt_addDocument]
          simp [hne', hfresh c' (List.mem_cons_of_mem _ hc'') word']) hc'
      rw [this, SplitIntoWordsNoStop_congr (stop_words_addDocument _ _ _ _ _)]

theorem mapFind_documents_addDocument (s : Server) (id : Int) (document : String)
    (status : DocumentStatus) (ratings : List Int) (id' : Int) :
    mapFind (AddDocument s id document status ratings).documents_ id' =
      if id' = id then
        some ((mapFind s.documents_ id).getD ⟨ComputeAverageRating ratings, status⟩)
      else mapFind s.documents_ id' :=
  mapFind_mapEmplace _ _ _ _

/-- A document of the store was in it before the calls or is the document of
one of the calls. -/
theorem mem_of_mapFind_documents_addDocuments (s : Server) (calls : List AddDocumentCall)
    (id : Int) (data : DocumentData)
    (h : mapFind (addDocuments s calls).documents_ id = some data) :
    (mapFind s.documents_ id).isSome = true ∨ ∃ c ∈ calls, c.document_id = id := by
  induction calls generalizing s with
  | nil => exact Or.inl (by rw [show addDocuments s [] = s from rfl] at h; simp [h])
  | cons c calls ih =>
    rcases ih (AddDocument s c.document_id c.document c.status c.ratings) h with h' | h'
    · rw [mapFind_documents_addDocument] at h'
      by_cases hid : id = c.document_id
      · exact Or.inr ⟨c, List.mem_cons_self _ _, hid.symm⟩
      · rw [if_neg hid] at h'
        exact Or.inl h'
    · obtain ⟨c', hc', hid⟩ := h'
      exact Or.inr ⟨c', List.mem_cons_of_mem _ hc', hid⟩

/-- C5: on a server built from one without documents by calls of `AddDocument`
with pairwise distinct ids, every document `d` returned by `FindTopDocuments`
is the document of one of the calls, and its relevance is the sum, over the
plus-words `w` of the parsed query whose index entry holds `d`, of
`tf(w, d) * ln (N / df(w))`, where `tf(w, d)` is the number of occurrences of
`w` among the words of the document left by the stop words divided by the
number of these words, `N` is `GetDocumentCount()` and `df(w)` is the number of
documents in the index entry of `w`. -/
theorem FindTopDocuments_relevance {R : Type} [LinearOrderedField R] (ln : ℚ → R)
    (s₀ : Server) (hs₀ : Reachable s₀) (hindex : s₀.word_to_document_freqs_ = [])
    (hdocs : s₀.documents_ = []) (calls : List AddDocumentCall)
    (hnd : (calls.map (fun c => c.document_id)).Nodup)
    (raw_query : String) (filter : Int → DocumentStatus → Int → Bool) :
    ∃ result, FindTopDocuments ln (addDocuments s₀ calls) raw_query filter = some result ∧
      ∀ d ∈ result, ∃ c ∈ calls, c.document_id = d.id ∧
        d.relevance =
          (((ParseQuery (addDocuments s₀ calls) raw_query).plus_words.filter
              (fun w => inIndexEntry (addDocuments s₀ calls) w d.id)).map
            (fun w =>
              ((((SplitIntoWordsNoStop s₀ c.document).count w : ℚ) /
                ((SplitIntoWordsNoStop s₀ c.document).length : ℚ) : ℚ) : R) *
              ln ((GetDocumentCount (addDocuments s₀ calls) : ℚ) /
                (documentFreq (addDocuments s₀ calls) w : ℚ)))).sum := by
  have hs : Reachable (addDocuments s₀ calls) := hs₀.addDocuments calls
  refine ⟨_, FindTopDocuments_eq ln _ hs.wellFormed raw_query filter, ?_⟩
  intro d hd
  obtain ⟨data, h1, _, h3, _, _, _⟩ := candidate_facts hs.wellFormed (mem_of_mem_topOf hd)
  have hc : ∃ c ∈ calls, c.document_id = d.id := by
    rcases mem_of_mapFind_documents_addDocuments s₀ calls d.id data h1 with h | h
    · rw [hdocs] at h
      simp [mapFind] at h
    · exact h
  obtain ⟨c, hc, hid⟩ := hc
  refine ⟨c, hc, hid, ?_⟩
  rw [h3]
  unfold relevanceOf
  congr 1
  apply List.map_congr_left
  intro w hw
  have hin : inIndexEntry (addDocuments s₀ calls) w d.id = true := by
    simpa using (List.mem_filter.1 hw).2
  have hfreq := freqAt_addDocuments s₀ calls hnd
    (fun c' _ word => by rw [hindex]; rfl) c hc w
  rw [mul_one, storedFreq_eq_freqAt, ← hid, hfreq]
  rw [inIndexEntry_eq_freqAt, ← hid, hfreq] at hin
  by_cases hmem : w ∈ SplitIntoWordsNoStop s₀ c.document
  · rw [if_pos hmem]
    rfl
  · rw [if_neg hmem] at hin
    exact Bool.noConfusion hin

open Finset in
/-- The value of `ln (3/2)` to five places. -/
theorem log_three_halves_bounds :
    (0.405464 : ℝ) < Real.log (3 / 2) ∧ Real.log (3 / 2) < 0.405466 := by
  have t : |(3⁻¹ : ℝ)| = 3⁻¹ := abs_of_pos (by norm_num)
  have z := Real.abs_log_sub_add_sum_range_le (show |(3⁻¹ : ℝ)| < 1 by rw [t]; norm_num) 14
  rw [t] at z
  have h23 : (1 : ℝ) - 3⁻¹ = (3 / 2)⁻¹ := by norm_num
  rw [h23, Real.log_inv] at z
  simp only [sum_range_succ, sum_range_zero] at z
  norm_num at z
  rw [abs_le] at z
  constructor
  · linarith [z.1, z.2]
  · linarith [z.1, z.2]

theorem log_three_eq : Real.log 3 = Real.log 2 + Real.log (3 / 2) := by
  rw [← Real.log_mul (by norm_num) (by norm_num)]
  norm_num

theorem relevanceServer_reachable : Reachable relevanceServer :=
  Reachable.empty.addDocuments _

/-- The candidates of the query `text with` on `relevanceServer`. -/
theorem relevanceServer_candidates :
    candidates (fun x : ℚ => Real.log (x : ℝ)) relevanceServer
        (ParseQuery relevanceServer "text with") actualFilter =
      [⟨0, 2 / 7 * Real.log 3 + 1 / 7 * Real.log (3 / 2), 2⟩,
       ⟨3, 1 / 3 * Real.log (3 / 2), 2⟩] := by
  have hquery : ParseQuery relevanceServer "text with" = ⟨["text", "with"], []⟩ := by
    decide!
  have htext : mapFind relevanceServer.word_to_document_freqs_ "text" =
      some [(0, 2 / 7)] := by decide!
  have hwith : mapFind relevanceServer.word_to_document_freqs_ "with" =
      some [(0, 1 / 7), (3, 1 / 3)] := by decide!
  have hcount : GetDocumentCount relevanceServer = 3 := by decide!
  have hfilter : relevanceServer.documents_.filter
      (qualifies relevanceServer (ParseQuery relevanceServer "text with") actualFilter) =
      [(0, ⟨2, DocumentStatus.ACTUAL⟩), (3, ⟨2, DocumentStatus.ACTUAL⟩)] := by decide!
  have h0 : relevanceOf (fun x : ℚ => Real.log (x : ℝ)) relevanceServer ["text", "with"] 0 =
      2 / 7 * Real.log 3 + 1 / 7 * Real.log (3 / 2) := by
    rw [relevanceOf_cons_of_entry _ _ _ _ _ _ htext,
      relevanceOf_cons_of_entry _ _ _ _ _ _ hwith, relevanceOf_nil, hcount]
    have e1 : mapFind [((0 : Int), (2 / 7 : ℚ))] 0 = some (2 / 7) := by decide!
    have e2 : mapFind [((0 : Int), (1 / 7 : ℚ)), (3, 1 / 3)] 0 = some (1 / 7) := by decide!
    rw [e1, e2]
    simp only [Option.isSome_some, if_true, Option.getD_some, List.length_cons,
      List.length_nil]
    push_cast
    norm_num
  have h3 : relevanceOf (fun x : ℚ => Real.log (x : ℝ)) relevanceServer ["text", "with"] 3 =
      1 / 3 * Real.log (3 / 2) := by
    rw [relevanceOf_cons_of_entry _ _ _ _ _ _ htext,
      relevanceOf_cons_of_entry _ _ _ _ _ _ hwith, relevanceOf_nil, hcount]
    have e1 : mapFind [((0 : Int), (2 / 7 : ℚ))] 3 = none := by decide!
    have e2 : mapFind [((0 : Int), (1 / 7 : ℚ)), (3, 1 / 3)] 3 = some (1 / 3) := by decide!
    rw [e1, e2]
    simp only [Option.isSome_some, Option.isSome_none, if_true, Option.getD_some,
      List.length_cons, List.length_nil]
    push_cast
    norm_num
  unfold candidates
  rw [hfilter, hquery]
  simp only [List.map_cons, List.map_nil, h0, h3]

/-- The list returned for the query `text with` on `relevanceServer`. -/
theorem relevanceServer_result :
    FindTopDocumentsActual (fun x : ℚ => Real.log (x : ℝ)) relevanceServer "text with" =
      some [⟨0, 2 / 7 * Real.log 3 + 1 / 7 * Real.log (3 / 2), 2⟩,
            ⟨3, 1 / 3 * Real.log (3 / 2), 2⟩] := by
  rw [FindTopDocumentsActual_eq,
    FindTopDocuments_eq _ relevanceServer relevanceServer_reachable.wellFormed,
    relevanceServer_candidates]
  have hb := log_three_halves_bounds
  have h2 := Real.log_two_gt_d9
  have hcmp : compareDocuments (⟨3, 1 / 3 * Real.log (3 / 2), 2⟩ : Document ℝ)
      ⟨0, 2 / 7 * Real.log 3 + 1 / 7 * Real.log (3 / 2), 2⟩ = false := by
    unfold compareDocuments
    have hnt : ¬ |1 / 3 * Real.log (3 / 2) -
        (2 / 7 * Real.log 3 + 1 / 7 * Real.log (3 / 2))| < 1 / 1000000 := by
      rw [log_three_eq, not_lt, abs_sub_comm]
      refine le_trans ?_ (le_abs_self _)
      norm_num at h2 hb ⊢
      linarith [hb.1, hb.2]
    simp only [hnt, if_false, decide_eq_false_iff_not, not_lt, gt_iff_lt]
    rw [log_three_eq]
    norm_num at h2 hb ⊢
    linarith [hb.1, hb.2]
  rw [topOf_pair_of_false _ _ hcmp]

/-- C5, on the second server of `TestRelevanceCalculationAndRelevanceSort`: the
query `text with` returns the document 0 with the relevance
`2/7 * ln 3 + 1/7 * ln (3/2)`, which is `0.371813` to five places, and then the
document 3 with the relevance `1/3 * ln (3/2)`, which is `0.135155` to five
places; each relevance is the sum that the theorem gives. -/
theorem FindTopDocuments_relevance_witness :
    Reachable Server.empty ∧
    ([0, 1, 3] : List Int).Nodup ∧
    ∃ result,
      FindTopDocuments (fun x : ℚ => Real.log (x : ℝ)) relevanceServer "text with"
        actualFilter = some result ∧
      result.map (fun d => d.id) = [0, 3] ∧
      result.map (fun d => d.relevance) =
        [2 / 7 * Real.log 3 + 1 / 7 * Real.log (3 / 2), 1 / 3 * Real.log (3 / 2)] ∧
      |2 / 7 * Real.log 3 + 1 / 7 * Real.log (3 / 2) - 0.371813| < 0.00001 ∧
      |1 / 3 * Real.log (3 / 2) - 0.135155| < 0.00001 ∧
      ∀ d ∈ result, ∃ c ∈
          ([⟨0, "test text with no dark jokes text", DocumentStatus.ACTUAL, [1, 2, 3]⟩,
            ⟨1, "empty jar", DocumentStatus.ACTUAL, [1, 2, 3]⟩,
            ⟨3, "jar with nutella", DocumentStatus.ACTUAL, [1, 2, 3]⟩] :
            List AddDocumentCall),
        c.document_id = d.id ∧
        d.relevance =
          (((ParseQuery relevanceServer "text with").plus_words.filter
              (fun w => inIndexEntry relevanceServer w d.id)).map
            (fun w =>
              ((((SplitIntoWordsNoStop Server.empty c.document).count w : ℚ) /
                ((SplitIntoWordsNoStop Server.empty c.document).length : ℚ) : ℚ) : ℝ) *
              Real.log (((GetDocumentCount relevanceServer : ℚ) /
                (documentFreq relevanceServer w : ℚ) : ℚ) : ℝ))).sum := by
  have hnd : ([0, 1, 3] : List Int).Nodup := by decide
  obtain ⟨result, hres, hrel⟩ :=
    FindTopDocuments_relevance (fun x : ℚ => Real.log (x : ℝ)) Server.empty Reachable.empty
      rfl rfl
      [⟨0, "test text with no dark jokes text", DocumentStatus.ACTUAL, [1, 2, 3]⟩,
       ⟨1, "empty jar", DocumentStatus.ACTUAL, [1, 2, 3]⟩,
       ⟨3, "jar with nutella", DocumentStatus.ACTUAL, [1, 2, 3]⟩] hnd "text with"
      actualFilter
  have hb := log_three_halves_bounds
  have h2 := Real.log_two_gt_d9
  have h2' := Real.log_two_lt_d9
  have heq := relevanceServer_result
  rw [FindTopDocumentsActual_eq] at heq
  have hresult : result = _ := Option.some.inj ((hres.symm.trans heq))
  refine ⟨Reachable.empty, hnd, result, hres, ?_, ?_, ?_, ?_, hrel⟩
  · rw [hresult]
    rfl
  · rw [hresult]
    rfl
  · rw [log_three_eq, abs_lt]
    norm_num at h2 h2' hb ⊢
    constructor <;> linarith [hb.1, hb.2]
  · rw [abs_lt]
    norm_num at hb ⊢
    constructor <;> linarith [hb.1, hb.2]

/-! ## The term frequencies and the relevance in the arithmetic of `double` -/

/-- One step of the loop of `AddDocument`, for any update of the frequency. -/
theorem freqAt_mapUpdate_fun (index : List (String × List (Int × ℚ))) (w : String) (id : Int)
    (f : ℚ → ℚ) (word : String) (id' : Int) :
    freqAt (mapUpdate index w [] (fun docs => mapUpdate docs id 0 f)) word id' =
      if word = w ∧ id' = id then some (f ((freqAt index w id).getD 0))
      else freqAt index word id' := by
  unfold freqAt
  rw [mapFind_mapUpdate]
  by_cases hw : word = w
  · subst hw
    rw [if_pos rfl, Option.some_bind, mapFind_mapUpdate]
    by_cases hid : id' = id
    · subst hid
      cases mapFind index word <;> simp [mapFind]
    · cases mapFind index word <;> simp [mapFind, hid]
  · simp [hw]

/-- The loop of `AddDocument`, for any update of the frequency: the update is
applied once for every occurrence of the word. -/
theorem freqAt_foldl_fun (id : Int) (f : ℚ → ℚ) (words : List String)
    (index : List (String × List (Int × ℚ))) (word : String) (id' : Int) :
    freqAt (words.foldl (fun freqs w => mapUpdate freqs w []
        (fun docs => mapUpdate docs id 0 f)) index) word id' =
      if word ∈ words ∧ id' = id then
        some (f^[words.count word] ((freqAt index word id).getD 0))
      else freqAt index word id' := by
  induction words generalizing index with
  | nil => simp
  | cons w words ih =>
    rw [List.foldl_cons, ih, freqAt_mapUpdate_fun, freqAt_mapUpdate_fun]
    by_cases hid : id' = id
    · subst hid
      by_cases hw : word = w
      · subst hw
        by_cases hmem : word ∈ words
        · simp [hmem, List.count_cons_self, Function.iterate_succ_apply]
        · simp [hmem, List.count_eq_zero_of_not_mem hmem]
      · have hw' : ¬ w = word := fun h => hw h.symm
        by_cases hmem : word ∈ words
        · simp [hmem, hw, List.count_cons_of_ne hw']
        · simp [hmem, hw]
    · simp [hid]

/-- The index after `AddDocumentDouble`. -/
theorem freqAt_addDocumentDouble (s : Server) (id : Int) (document : String)
    (status : DocumentStatus) (ratings : List Int) (word : String) (id' : Int) :
    freqAt (AddDocumentDouble s id document status ratings).word_to_document_freqs_ word id' =
      if word ∈ SplitIntoWordsNoStop s document ∧ id' = id then
        some ((fun tf => roundDouble (tf + roundDouble
            (1 / roundDouble ((SplitIntoWordsNoStop s document).length : ℚ))))^[
          (SplitIntoWordsNoStop s document).count word]
          ((freqAt s.word_to_document_freqs_ word id).getD 0))
      else freqAt s.word_to_document_freqs_ word id' :=
  freqAt_foldl_fun id _ _ _ word id'

/-- The inner loop of `FindAllDocuments` for a word with one document. -/
theorem addWordRelevanceDouble_single (s : Server) (filter : Int → DocumentStatus → Int → Bool)
    (idf : ℚ) (id : Int) (tf : ℚ) (data : DocumentData)
    (hd : mapFind s.documents_ id = some data)
    (hf : filter id data.status data.rating = true) :
    addWordRelevanceDouble s filter idf [(id, tf)] [] =
      some [(id, roundDouble (0 + roundDouble (tf * idf)))] := by
  have hcount : mapCount s.documents_ id ≠ 0 := by
    rw [Ne, mapCount_eq_zero_iff, hd]
    exact Option.noConfusion
  unfold addWordRelevanceDouble
  rw [if_pos hcount]
  show (mapFind s.documents_ id).bind _ = _
  rw [hd, Option.some_bind, if_pos hf]
  rfl

/-- The method `FindAllDocuments` in the arithmetic of `double`, for a query
of one plus-word whose index entry holds one document, which the predicate
accepts. -/
theorem FindAllDocumentsDouble_single (lnD : ℚ → ℚ) (s : Server) (query : Query)
    (filter : Int → DocumentStatus → Int → Bool) (w : String) (id : Int) (tf : ℚ)
    (data : DocumentData) (hplus : query.plus_words = [w]) (hminus : query.minus_words = [])
    (hentry : mapFind s.word_to_document_freqs_ w = some [(id, tf)])
    (hd : mapFind s.documents_ id = some data)
    (hf : filter id data.status data.rating = true) :
    FindAllDocumentsDouble lnD s query filter =
      some [⟨id, roundDouble (0 + roundDouble (tf * lnD (roundDouble
        (roundDouble ((GetDocumentCount s : ℚ) * 1) / roundDouble ((1 : Nat) : ℚ))))),
        data.rating⟩] := by
  have hcount : ¬ mapCount s.word_to_document_freqs_ w = 0 := by
    rw [mapCount_eq_zero_iff, hentry]
    exact Option.noConfusion
  have hplusWords : addPlusWordsDouble lnD s filter [w] [] =
      some [(id, roundDouble (0 + roundDouble (tf * lnD (roundDouble
        (roundDouble ((GetDocumentCount s : ℚ) * 1) / roundDouble ((1 : Nat) : ℚ))))))] := by
    unfold addPlusWordsDouble
    rw [if_neg hcount]
    unfold ComputeWordInverseDocumentFreqDouble
    show ((mapFind s.word_to_document_freqs_ w).bind _).bind _ = _
    rw [hentry, Option.some_bind]
    show ((mapFind s.word_to_document_freqs_ w).bind _) = _
    rw [hentry, Option.some_bind]
    show (addWordRelevanceDouble s filter _ [(id, tf)] []).bind _ = _
    rw [addWordRelevanceDouble_single s filter _ id tf data hd hf, Option.some_bind]
    rfl
  unfold FindAllDocumentsDouble
  rw [hplus, hminus]
  show (addPlusWordsDouble lnD s filter [w] []).bind _ = _
  rw [hplusWords, Option.some_bind]
  show (eraseMinusWords s [] _).bind _ = _
  rw [show eraseMinusWords s [] _ = some _ from rfl, Option.some_bind]
  show (mapAt s.documents_ id).bind _ = _
  rw [show mapAt s.documents_ id = some data from hd, Option.some_bind]
  rfl

/-- The method `FindTopDocuments` in the arithmetic of `double`, for every
function that meets the contract of `std::sort` and a query of one plus-word
whose index entry holds one document, which the predicate accepts. -/
theorem FindTopDocumentsDouble_single
    (sortFn : (Document ℚ → Document ℚ → Bool) → List (Document ℚ) → List (Document ℚ))
    (hsort : StdSort sortFn) (lnD : ℚ → ℚ) (s : Server) (raw_query : String)
    (filter : Int → DocumentStatus → Int → Bool) (w : String) (id : Int) (tf : ℚ)
    (data : DocumentData) (hquery : ParseQuery s raw_query = ⟨[w], []⟩)
    (hentry : mapFind s.word_to_document_freqs_ w = some [(id, tf)])
    (hd : mapFind s.documents_ id = some data)
    (hf : filter id data.status data.rating = true) :
    FindTopDocumentsDouble sortFn lnD s raw_query filter =
      some [⟨id, roundDouble (0 + roundDouble (tf * lnD (roundDouble
        (roundDouble ((GetDocumentCount s : ℚ) * 1) / roundDouble ((1 : Nat) : ℚ))))),
        data.rating⟩] := by
  unfold FindTopDocumentsDouble
  show (FindAllDocumentsDouble lnD s (ParseQuery s raw_query) filter).bind _ = _
  rw [FindAllDocumentsDouble_single lnD s _ filter w id tf data (by rw [hquery])
    (by rw [hquery]) hentry hd hf, Option.some_bind]
  show (keepFiltered s filter [_]).bind _ = _
  have hkeep : ∀ doc : Document ℚ, doc.id = id → doc.rating = data.rating →
      keepFiltered s filter [doc] = some [doc] := by
    intro doc hid hrating
    unfold keepFiltered
    show (mapFind s.documents_ doc.id).bind _ = _
    rw [hid, hd, Option.some_bind]
    show (keepFiltered s filter []).bind _ = _
    rw [show keepFiltered s filter ([] : List (Document ℚ)) = some [] from rfl,
      Option.some_bind, hrating, if_pos hf]
    rfl
  rw [hkeep _ rfl rfl, Option.some_bind]
  have hone := List.perm_singleton.1 (hsort.perm compareDocumentsDouble
    [(⟨id, roundDouble (0 + roundDouble (tf * lnD (roundDouble
        (roundDouble ((GetDocumentCount s : ℚ) * 1) / roundDouble ((1 : Nat) : ℚ))))),
        data.rating⟩ : Document ℚ)])
  show (if (sortFn compareDocumentsDouble [_]).length > MAX_RESULT_DOCUMENT_COUNT then _
    else _) = _
  rw [hone]
  rfl

/-! ## The relevance in the arithmetic of `double` -/

open Finset in
/-- The logarithm of 2 is no value of the type `double`: it lies between
`6243314768165359 / 2^53`, the value nearest to it, and the next value. -/
theorem log_two_double_bounds :
    (6243314768165359 / 9007199254740992 : ℝ) + 1 / 100000000000000000 < Real.log 2 ∧
    Real.log 2 < 6243314768165359 / 9007199254740992 + 1 / 18014398509481984 := by
  have t : |(2⁻¹ : ℝ)| = 2⁻¹ := abs_of_pos (by norm_num)
  have z := Real.abs_log_sub_add_sum_range_le (show |(2⁻¹ : ℝ)| < 1 by rw [t]; norm_num) 58
  rw [t] at z
  have h2 : (1 : ℝ) - 2⁻¹ = 2⁻¹ := by norm_num
  rw [h2, Real.log_inv] at z
  simp only [sum_range_succ, sum_range_zero] at z
  norm_num at z
  rw [abs_le] at z
  constructor
  · linarith [z.1, z.2]
  · linarith [z.1, z.2]

/-- The state of `doubleServer`. -/
theorem doubleServer_state :
    mapFind doubleServer.word_to_document_freqs_ "a" =
      some [(0, 9007199254740991 / 9007199254740992)] ∧
    mapFind doubleServer.documents_ 0 = some ⟨1, DocumentStatus.ACTUAL⟩ ∧
    ParseQuery doubleServer "a" = ⟨["a"], []⟩ ∧
    GetDocumentCount doubleServer = 2 ∧
    documentFreq doubleServer "a" = 1 ∧
    mapKeys doubleServer.documents_ = [0, 1] := by
  refine ⟨by decide!, by decide!, by decide!, by decide!, by decide!, by decide!⟩

/-- C5 fails as it is stated: on the server with the document 0, in which ten
of ten words are `a`, and the document 1 of text `b`, the program stores the
term frequency `1 - 2^-53` for `a` in the document 0, `GetDocumentCount()` is 2
and one document has the word `a`. For every function that meets the contract
of `std::sort` and every library logarithm that returns for `2.0` the `double`
nearest to `ln 2`, which is `6243314768165359 / 2^53`, the query `a` returns
the document 0 with the relevance `6243314768165358 / 2^53`, which is less
than `tf * ln (N / df)` for the stored term frequency as well as for the
quotient `10 / 10` of the number of occurrences by the number of words. -/
theorem FindTopDocuments_relevance_counterexample :
    mapFind doubleServer.word_to_document_freqs_ "a" =
      some [(0, 9007199254740991 / 9007199254740992)] ∧
    mapKeys doubleServer.documents_ = [0, 1] ∧
    GetDocumentCount doubleServer = 2 ∧
    documentFreq doubleServer "a" = 1 ∧
    |(6243314768165359 / 9007199254740992 : ℝ) - Real.log 2| < 1 / 18014398509481984 ∧
    (∀ sortFn : (Document ℚ → Document ℚ → Bool) → List (Document ℚ) → List (Document ℚ),
      StdSort sortFn →
      ∀ lnD : ℚ → ℚ, lnD 2 = 6243314768165359 / 9007199254740992 →
        FindTopDocumentsDouble sortFn lnD doubleServer "a" actualFilter =
          some [⟨0, 6243314768165358 / 9007199254740992, 1⟩]) ∧
    (((6243314768165358 / 9007199254740992 : ℚ) : ℝ) <
      ((9007199254740991 / 9007199254740992 : ℚ) : ℝ) *
        Real.log ((((GetDocumentCount doubleServer : ℚ) /
          (documentFreq doubleServer "a" : ℚ) : ℚ)) : ℝ)) ∧
    (((6243314768165358 / 9007199254740992 : ℚ) : ℝ) <
      ((((SplitIntoWordsNoStop Server.empty "a a a a a a a a a a").count "a" : ℚ) /
        ((SplitIntoWordsNoStop Server.empty "a a a a a a a a a a").length : ℚ) : ℚ) : ℝ) *
        Real.log ((((GetDocumentCount doubleServer : ℚ) /
          (documentFreq doubleServer "a" : ℚ) : ℚ)) : ℝ)) := by
  obtain ⟨hentry, hd, hquery, hN, hdf, hkeys⟩ := doubleServer_state
  have hb := log_two_double_bounds
  have hwords : SplitIntoWordsNoStop Server.empty "a a a a a a a a a a" =
      ["a", "a", "a", "a", "a", "a", "a", "a", "a", "a"] := by decide!
  have hlog : Real.log ((((GetDocumentCount doubleServer : ℚ) /
      (documentFreq doubleServer "a" : ℚ) : ℚ)) : ℝ) = Real.log 2 := by
    rw [hN, hdf]
    norm_num
  refine ⟨hentry, hkeys, hN, hdf, ?_, ?_, ?_, ?_⟩
  · rw [abs_lt]
    constructor <;> linarith [hb.1, hb.2]
  · intro sortFn hsort lnD hln
    have harg : roundDouble (roundDouble ((GetDocumentCount doubleServer : ℚ) * 1) /
        roundDouble ((1 : Nat) : ℚ)) = 2 := by
      rw [hN]
      decide!
    have hval : roundDouble (0 + roundDouble
        (9007199254740991 / 9007199254740992 * (6243314768165359 / 9007199254740992))) =
        6243314768165358 / 9007199254740992 := by decide!
    rw [FindTopDocumentsDouble_single sortFn hsort lnD doubleServer "a" actualFilter "a" 0
      (9007199254740991 / 9007199254740992) ⟨1, DocumentStatus.ACTUAL⟩ hquery hentry hd rfl,
      harg, hln, hval]
  · rw [hlog]
    push_cast
    linarith [hb.1]
  · rw [hlog, hwords]
    norm_num
    linarith [hb.1]

/-! ## The average rating -/

theorem wrapInt32_of_range (x : Int) (h₁ : -2147483648 ≤ x) (h₂ : x ≤ 2147483647) :
    wrapInt32 x = x := by
  unfold wrapInt32
  omega

theorem wrapInt32_add_wrapInt32 (x y : Int) :
    wrapInt32 (wrapInt32 x + y) = wrapInt32 (x + y) := by
  unfold wrapInt32
  omega

/-- The loop of `ComputeAverageRating` computes the sum of the ratings reduced
to the range of `int`. -/
theorem foldl_wrapInt32 (ratings : List Int) (init : Int) :
    ratings.foldl (fun sum rating => wrapInt32 (sum + rating)) (wrapInt32 init) =
      wrapInt32 (init + ratings.sum) := by
  induction ratings generalizing init with
  | nil => simp
  | cons r rest ih =>
    rw [List.foldl_cons, wrapInt32_add_wrapInt32, ih, List.sum_cons, add_assoc]

theorem rating_sum_eq (ratings : List Int) :
    ratings.foldl (fun sum rating => wrapInt32 (sum + rating)) 0 = wrapInt32 ratings.sum := by
  have h := foldl_wrapInt32 ratings 0
  have h0 : wrapInt32 0 = 0 := by decide
  rw [h0, zero_add] at h
  exact h

/-- The quotient of the truncated division by a positive number is between
zero and the dividend. -/
theorem tdiv_bounds (a b : Int) (hb : 0 < b) :
    (0 ≤ a → 0 ≤ Int.tdiv a b ∧ Int.tdiv a b ≤ a) ∧
    (a ≤ 0 → a ≤ Int.tdiv a b ∧ Int.tdiv a b ≤ 0) := by
  constructor
  · intro ha
    rw [Int.tdiv_eq_ediv ha (le_of_lt hb)]
    exact ⟨Int.ediv_nonneg ha (le_of_lt hb), Int.ediv_le_self b ha⟩
  · intro ha
    have hna : 0 ≤ -a := by omega
    have h : Int.tdiv a b = -((-a) / b) := by
      rw [← Int.tdiv_eq_ediv hna (le_of_lt hb), Int.neg_tdiv, neg_neg]
    rw [h]
    have h1 := Int.ediv_nonneg hna (le_of_lt hb)
    have h2 := Int.ediv_le_self b hna
    constructor <;> omega

/-- The value of `ComputeAverageRating` when the number of ratings and their
sum are in the range of `int`. -/
theorem ComputeAverageRating_of_range (ratings : List Int)
    (hlen : (ratings.length : Int) ≤ 2147483647)
    (hmin : -2147483648 ≤ ratings.sum) (hmax : ratings.sum ≤ 2147483647) :
    ComputeAverageRating ratings =
      if ratings = [] then 0 else Int.tdiv ratings.sum (ratings.length : Int) := by
  unfold ComputeAverageRating
  by_cases hnil : ratings = []
  · rw [if_pos hnil, if_pos hnil]
  · rw [if_neg hnil, if_neg hnil]
    have hpos : (0 : Int) < ratings.length := by
      have : 0 < ratings.length := List.length_pos.2 hnil
      exact_mod_cast this
    simp only
    rw [rating_sum_eq, wrapInt32_of_range _ hmin hmax,
      wrapInt32_of_range _ (by omega) hlen]
    have hb := tdiv_bounds ratings.sum ratings.length hpos
    by_cases hs : 0 ≤ ratings.sum
    · have := hb.1 hs
      exact wrapInt32_of_range _ (by omega) (by omega)
    · have := hb.2 (by omega)
      exact wrapInt32_of_range _ (by omega) (by omega)

/-- The entry of the store for the id of a call is the one of the first call
with this id, when the store was empty before the calls. -/
theorem mapFind_documents_addDocuments (s : Server) (calls : List AddDocumentCall) (id : Int) :
    mapFind (addDocuments s calls).documents_ id =
      match mapFind s.documents_ id with
      | some data => some data
      | none =>
        (calls.find? (fun c => decide (c.document_id = id))).map
          (fun c => ⟨ComputeAverageRating c.ratings, c.status⟩) := by
  induction calls generalizing s with
  | nil =>
    rw [show addDocuments s [] = s from rfl]
    cases mapFind s.documents_ id <;> rfl
  | cons c calls ih =>
    rw [show addDocuments s (c :: calls) =
      addDocuments (AddDocument s c.document_id c.document c.status c.ratings) calls from rfl,
      ih, mapFind_documents_addDocument]
    by_cases hid : id = c.document_id
    · subst hid
      cases mapFind s.documents_ c.document_id <;> simp [List.find?_cons]
    · have hid' : ¬ c.document_id = id := fun h => hid h.symm
      cases mapFind s.documents_ id <;> simp [List.find?_cons, hid, hid']

theorem candidates_map_id_rating {R : Type} [LinearOrderedField R] (ln : ℚ → R) (s : Server)
    (query : Query) (filter : Int → DocumentStatus → Int → Bool) :
    (candidates ln s query filter).map (fun d => (d.id, d.rating)) =
      (s.documents_.filter (qualifies s query filter)).map (fun e => (e.1, e.2.rating)) := by
  simp [candidates, List.map_map, Function.comp_def]

/-- C6, as amended: for every list of at most `2^31 - 1` ratings whose sum is
in the range of a 32-bit `int`, `ComputeAverageRating` returns 0 when the list
is empty and otherwise the sum of the ratings divided by their number with
truncation toward zero; on a server built from one without documents by calls
of `AddDocument`, the store holds for an id the value of `ComputeAverageRating`
on the ratings of the first call with this id, and every document returned by
`FindTopDocuments` carries this value as its rating. -/
theorem ComputeAverageRating_truncates {R : Type} [LinearOrderedField R] (ln : ℚ → R) :
    (∀ ratings : List Int, (ratings.length : Int) ≤ 2147483647 →
      -2147483648 ≤ ratings.sum → ratings.sum ≤ 2147483647 →
      ComputeAverageRating ratings =
        if ratings = [] then 0 else Int.tdiv ratings.sum (ratings.length : Int)) ∧
    (∀ (s₀ : Server) (calls : List AddDocumentCall), Reachable s₀ → s₀.documents_ = [] →
      (∀ id c, calls.find? (fun c => decide (c.document_id = id)) = some c →
        mapFind (addDocuments s₀ calls).documents_ id =
          some ⟨ComputeAverageRating c.ratings, c.status⟩) ∧
      ∀ (raw_query : String) (filter : Int → DocumentStatus → Int → Bool),
        ∃ result,
          FindTopDocuments ln (addDocuments s₀ calls) raw_query filter = some result ∧
          ∀ d ∈ result, ∃ c,
            calls.find? (fun c => decide (c.document_id = d.id)) = some c ∧
            d.rating = ComputeAverageRating c.ratings) := by
  refine ⟨ComputeAverageRating_of_range, ?_⟩
  intro s₀ calls hs₀ hdocs
  have hstore : ∀ id, mapFind (addDocuments s₀ calls).documents_ id =
      (calls.find? (fun c => decide (c.document_id = id))).map
        (fun c => ⟨ComputeAverageRating c.ratings, c.status⟩) := by
    intro id
    rw [mapFind_documents_addDocuments, hdocs]
    rfl
  refine ⟨?_, ?_⟩
  · intro id c hc
    rw [hstore, hc]
    rfl
  · intro raw_query filter
    have hs : Reachable (addDocuments s₀ calls) := hs₀.addDocuments calls
    refine ⟨_, FindTopDocuments_eq ln _ hs.wellFormed raw_query filter, ?_⟩
    intro d hd
    obtain ⟨data, h1, h2, _⟩ := candidate_facts hs.wellFormed (mem_of_mem_topOf hd)
    rw [hstore] at h1
    cases hc : calls.find? (fun c => decide (c.document_id = d.id)) with
    | none =>
      rw [hc] at h1
      exact Option.noConfusion h1
    | some c =>
      rw [hc] at h1
      refine ⟨c, rfl, ?_⟩
      rw [h2, ← Option.some.inj h1]

/-- C6 fails as it is stated: for `2^31` ratings equal to `-1` the sum
`-2^31` is in the range of `int`, but the number of ratings is not, and
`ComputeAverageRating` returns `1` where the truncated quotient of the sum by
the number of ratings is `-1`. -/
theorem ComputeAverageRating_counterexample :
    (List.replicate 2147483648 (-1 : Int)).sum = -2147483648 ∧
    ComputeAverageRating (List.replicate 2147483648 (-1 : Int)) = 1 ∧
    Int.tdiv (List.replicate 2147483648 (-1 : Int)).sum
      ((List.replicate 2147483648 (-1 : Int)).length : Int) = -1 := by
  have hsum : (List.replicate 2147483648 (-1 : Int)).sum = -2147483648 := by
    rw [List.sum_replicate]
    norm_num
  have hlen : (List.replicate 2147483648 (-1 : Int)).length = 2147483648 :=
    List.length_replicate _ _
  have hne : List.replicate 2147483648 (-1 : Int) ≠ [] := by
    intro h
    have := congrArg List.length h
    rw [hlen] at this
    exact absurd this (by decide)
  refine ⟨hsum, ?_, ?_⟩
  · unfold ComputeAverageRating
    rw [if_neg hne]
    simp only
    rw [rating_sum_eq, hsum, hlen]
    decide
  · rw [hsum, hlen]
    decide

/-- C6 as amended, on the ratings and the server of `TestRatingCalculation`:
the ratings `{1, 2, 3}`, `{1, -2, 10}` and `{-1, 2, -10}` give 2, 3 and -3,
the ratings `{-1, -2}` give -1 and not the floor -2, and the query
`in the big city` returns the documents 0, 1 and 2 with these ratings. -/
theorem ComputeAverageRating_truncates_witness :
    ComputeAverageRating [1, 2, 3] = 2 ∧
    ComputeAverageRating [1, -2, 10] = 3 ∧
    ComputeAverageRating [-1, 2, -10] = -3 ∧
    ComputeAverageRating [-1, -2] = -1 ∧
    ComputeAverageRating [] = 0 ∧
    Reachable Server.empty ∧
    ∃ result,
      FindTopDocuments (fun x : ℚ => Real.log (x : ℝ)) ratingServer "in the big city"
        actualFilter = some result ∧
      (result.map (fun d => (d.id, d.rating))).Perm [(0, 2), (1, 3), (2, -3)] ∧
      ∀ d ∈ result, ∃ c,
        ([⟨0, "cat in the big city", DocumentStatus.ACTUAL, [1, 2, 3]⟩,
          ⟨1, "developer in the big chair", DocumentStatus.ACTUAL, [1, -2, 10]⟩,
          ⟨2, "dog city", DocumentStatus.ACTUAL, [-1, 2, -10]⟩] :
          List AddDocumentCall).find? (fun c => decide (c.document_id = d.id)) = some c ∧
        d.rating = ComputeAverageRating c.ratings := by
  obtain ⟨havg, hserver⟩ :=
    ComputeAverageRating_truncates (fun x : ℚ => Real.log (x : ℝ))
  obtain ⟨_, hfind⟩ := hserver Server.empty
    [⟨0, "cat in the big city", DocumentStatus.ACTUAL, [1, 2, 3]⟩,
     ⟨1, "developer in the big chair", DocumentStatus.ACTUAL, [1, -2, 10]⟩,
     ⟨2, "dog city", DocumentStatus.ACTUAL, [-1, 2, -10]⟩] Reachable.empty rfl
  obtain ⟨result, hres, hrating⟩ := hfind "in the big city" actualFilter
  refine ⟨?_, ?_, ?_, ?_, ?_, Reachable.empty, result, hres, ?_, hrating⟩
  · rw [havg [1, 2, 3] (by decide) (by decide) (by decide)]
    decide
  · rw [havg [1, -2, 10] (by decide) (by decide) (by decide)]
    decide
  · rw [havg [-1, 2, -10] (by decide) (by decide) (by decide)]
    decide
  · rw [havg [-1, -2] (by decide) (by decide) (by decide)]
    decide
  · rw [havg [] (by decide) (by decide) (by decide)]
    decide
  · have hreach : Reachable ratingServer := Reachable.empty.addDocuments _
    have heq := FindTopDocuments_eq (fun x : ℚ => Real.log (x : ℝ)) ratingServer
      hreach.wellFormed "in the big city" actualFilter
    have hres' : FindTopDocuments (fun x : ℚ => Real.log (x : ℝ)) ratingServer
        "in the big city" actualFilter = some result := hres
    rw [hres'] at heq
    have hpairs : (ratingServer.documents_.filter
        (qualifies ratingServer (ParseQuery ratingServer "in the big city")
          actualFilter)).map (fun e => (e.1, e.2.rating)) = [(0, 2), (1, 3), (2, -3)] := by
      decide!
    have hlen : (candidates (fun x : ℚ => Real.log (x : ℝ)) ratingServer
        (ParseQuery ratingServer "in the big city") actualFilter).length ≤
          MAX_RESULT_DOCUMENT_COUNT := by
      rw [← List.length_map _ (fun d => (d.id, d.rating)), candidates_map_id_rating, hpairs]
      decide
    have hperm := (topOf_perm hlen).map (fun d => (d.id, d.rating))
    rw [candidates_map_id_rating, hpairs, ← Option.some.inj heq] at hperm
    exact hperm

/-! ## `MatchDocument` -/

theorem mapCount_ne_zero_iff_inIndexEntry (s : Server) (word : String) (id : Int)
    (docs : List (Int × ℚ)) (h : mapFind s.word_to_document_freqs_ word = some docs) :
    mapCount docs id ≠ 0 ↔ inIndexEntry s word id = true := by
  unfold inIndexEntry
  rw [h, Ne, mapCount_eq_zero_iff]
  cases hd : mapFind docs id <;> simp [hd]

theorem inIndexEntry_of_not_indexed (s : Server) (word : String) (id : Int)
    (h : mapFind s.word_to_document_freqs_ word = none) : inIndexEntry s word id = false := by
  unfold inIndexEntry
  rw [h]

/-- The first loop of `MatchDocument` appends the words whose index entry
holds the document, in the order of the loop. -/
theorem matchPlusWords_spec (s : Server) (id : Int) (words matched : List String) :
    matchPlusWords s id words matched =
      some (matched ++ words.filter (fun w => inIndexEntry s w id)) := by
  induction words generalizing matched with
  | nil => simp [matchPlusWords]
  | cons w rest ih =>
    cases hw : mapFind s.word_to_document_freqs_ w with
    | none =>
      rw [matchPlusWords, if_pos ((mapCount_eq_zero_iff _ _).2 hw), ih,
        List.filter_cons_of_neg (by simp [inIndexEntry_of_not_indexed s w id hw])]
    | some docs =>
      have hc : ¬ mapCount s.word_to_document_freqs_ w = 0 := by
        rw [mapCount_eq_zero_iff, hw]
        simp
      rw [matchPlusWords, if_neg hc]
      unfold mapAt
      rw [hw]
      show (if mapCount docs id ≠ 0 then _ else _) = _
      by_cases hin : inIndexEntry s w id = true
      · rw [if_pos ((mapCount_ne_zero_iff_inIndexEntry s w id docs hw).2 hin), ih,
          List.filter_cons_of_pos (by simpa using hin), List.append_assoc]
        rfl
      · rw [if_neg (fun h => hin ((mapCount_ne_zero_iff_inIndexEntry s w id docs hw).1 h)),
          ih, List.filter_cons_of_neg (by simpa using hin)]

/-- The second loop of `MatchDocument` empties the list when the index entry
of some minus-word holds the document, and leaves it otherwise. -/
theorem matchMinusWords_spec (s : Server) (id : Int) (words matched : List String) :
    matchMinusWords s id words matched =
      some (if inSomeEntry s words id = true then [] else matched) := by
  induction words with
  | nil => simp [matchMinusWords, inSomeEntry]
  | cons w rest ih =>
    rw [inSomeEntry_cons]
    cases hw : mapFind s.word_to_document_freqs_ w with
    | none =>
      rw [matchMinusWords, if_pos ((mapCount_eq_zero_iff _ _).2 hw), ih,
        inIndexEntry_of_not_indexed s w id hw, Bool.false_or]
    | some docs =>
      have hc : ¬ mapCount s.word_to_document_freqs_ w = 0 := by
        rw [mapCount_eq_zero_iff, hw]
        simp
      rw [matchMinusWords, if_neg hc]
      unfold mapAt
      rw [hw]
      show (if mapCount docs id ≠ 0 then _ else _) = _
      by_cases hin : inIndexEntry s w id = true
      · rw [if_pos ((mapCount_ne_zero_iff_inIndexEntry s w id docs hw).2 hin), hin]
        rfl
      · rw [if_neg (fun h => hin ((mapCount_ne_zero_iff_inIndexEntry s w id docs hw).1 h)),
          ih]
        have : inIndexEntry s w id = false := by simpa using hin
        rw [this, Bool.false_or]

/-- What `MatchDocument` returns. -/
theorem MatchDocument_eq (s : Server) (raw_query : String) (id : Int) :
    MatchDocument s raw_query id =
      (mapFind s.documents_ id).map (fun data =>
        (if inSomeEntry s (ParseQuery s raw_query).minus_words id = true then []
         else (ParseQuery s raw_query).plus_words.filter (fun w => inIndexEntry s w id),
         data.status)) := by
  unfold MatchDocument
  show (matchPlusWords s id (ParseQuery s raw_query).plus_words []).bind _ = _
  rw [matchPlusWords_spec]
  show (matchMinusWords s id (ParseQuery s raw_query).minus_words _).bind _ = _
  rw [matchMinusWords_spec, List.nil_append]
  unfold mapAt
  cases mapFind s.documents_ id <;> rfl

/-- The sets of plus-words and of minus-words of a parsed query are in
ascending order. -/
theorem ParseQuery_sorted (s : Server) (text : String) :
    (ParseQuery s text).plus_words.Sorted (· < ·) ∧
    (ParseQuery s text).minus_words.Sorted (· < ·) := by
  unfold ParseQuery
  have key : ∀ (words : List String) (query : Query),
      query.plus_words.Sorted (· < ·) ∧ query.minus_words.Sorted (· < ·) →
      (words.foldl
        (fun query word =>
          let query_word := ParseQueryWord s word
          if !query_word.is_stop then
            if query_word.is_minus then
              { query with minus_words := setInsert query.minus_words query_word.data }
            else
              { query with plus_words := setInsert query.plus_words query_word.data }
          else query) query).plus_words.Sorted (· < ·) ∧
      (words.foldl
        (fun query word =>
          let query_word := ParseQueryWord s word
          if !query_word.is_stop then
            if query_word.is_minus then
              { query with minus_words := setInsert query.minus_words query_word.data }
            else
              { query with plus_words := setInsert query.plus_words query_word.data }
          else query) query).minus_words.Sorted (· < ·) := by
    intro words
    induction words with
    | nil => intro query h; exact h
    | cons w rest ih =>
      intro query h
      rw [List.foldl_cons]
      apply ih
      simp only
      split
      · split
        · exact ⟨h.1, sorted_setInsert _ _ h.2⟩
        · exact ⟨sorted_setInsert _ _ h.1, h.2⟩
      · exact h
  exact key _ _ ⟨List.sorted_nil, List.sorted_nil⟩

/-- C7: for every server state, every raw query and every document id of the
store, `MatchDocument` returns the stored status of the document together
with a list of words: the empty list when some minus-word of the parsed query
has the document in its index entry, and otherwise the plus-words of the
parsed query that have the document in their index entry, each once and in
ascending lexicographic order. -/
theorem MatchDocument_words (s : Server) (raw_query : String) (document_id : Int)
    (data : DocumentData) (hdoc : mapFind s.documents_ document_id = some data) :
    ∃ words, MatchDocument s raw_query document_id = some (words, data.status) ∧
      ((∃ w ∈ (ParseQuery s raw_query).minus_words, inIndexEntry s w document_id = true) →
        words = []) ∧
      ((∀ w ∈ (ParseQuery s raw_query).minus_words, inIndexEntry s w document_id = false) →
        (∀ w, w ∈ words ↔
          w ∈ (ParseQuery s raw_query).plus_words ∧ inIndexEntry s w document_id = true) ∧
        words.Sorted (· < ·) ∧ words.Nodup ∧
        List.Pairwise (fun a b => a.toList < b.toList) words) := by
  rw [MatchDocument_eq, hdoc]
  refine ⟨_, rfl, ?_, ?_⟩
  · intro h
    rw [if_pos (inSomeEntry_eq_true.2 h)]
  · intro h
    have hfalse : ¬ inSomeEntry s (ParseQuery s raw_query).minus_words document_id = true := by
      rw [inSomeEntry_eq_false.2 h]
      exact Bool.noConfusion
    rw [if_neg hfalse]
    have hsorted : ((ParseQuery s raw_query).plus_words.filter
        (fun w => inIndexEntry s w document_id)).Sorted (· < ·) :=
      List.Pairwise.sublist (List.filter_sublist _) (ParseQuery_sorted s raw_query).1
    refine ⟨?_, hsorted, List.Sorted.nodup hsorted, ?_⟩
    · intro w
      rw [List.mem_filter]
    · exact List.Pairwise.imp (fun h => String.lt_iff_toList_lt.1 h) hsorted

/-- C7, on the server of `TestMatching`: the query `test dark jokes` gives the
three words `dark`, `jokes`, `test` for the document 0, and the query
`test -dark jokes` gives the empty list. -/
theorem MatchDocument_words_witness :
    mapFind matchingServer.documents_ 0 = some ⟨2, DocumentStatus.ACTUAL⟩ ∧
    MatchDocument matchingServer "test dark jokes" 0 =
      some (["dark", "jokes", "test"], DocumentStatus.ACTUAL) ∧
    MatchDocument matchingServer "test -dark jokes" 0 = some ([], DocumentStatus.ACTUAL) ∧
    ∃ words, MatchDocument matchingServer "test -dark jokes" 0 =
        some (words, DocumentStatus.ACTUAL) ∧
      ((∃ w ∈ (ParseQuery matchingServer "test -dark jokes").minus_words,
          inIndexEntry matchingServer w 0 = true) → words = []) := by
  have hdoc : mapFind matchingServer.documents_ 0 = some ⟨2, DocumentStatus.ACTUAL⟩ := by
    decide!
  obtain ⟨words, hwords, hminus, _⟩ :=
    MatchDocument_words matchingServer "test -dark jokes" 0 _ hdoc
  exact ⟨hdoc, by decide!, by decide!, words, hwords, hminus⟩

/-- C8: for every server state, every raw query and every document id,
`MatchDocument` fails, by the exception of `map::at`, exactly when the id is
not a key of the document store, and a status that it returns is the status
stored for the id; on a server built from one without documents by calls of
`AddDocument`, it fails exactly for the ids of no call. -/
theorem MatchDocument_fails_iff (s : Server) (raw_query : String) (document_id : Int) :
    (MatchDocument s raw_query document_id = none ↔ document_id ∉ mapKeys s.documents_) ∧
    (∀ words status, MatchDocument s raw_query document_id = some (words, status) →
      ∃ data, mapFind s.documents_ document_id = some data ∧ status = data.status) ∧
    (∀ (s₀ : Server) (calls : List AddDocumentCall), s₀.documents_ = [] →
      s = addDocuments s₀ calls →
      (MatchDocument s raw_query document_id = none ↔
        ∀ c ∈ calls, c.document_id ≠ document_id)) := by
  have hnone : MatchDocument s raw_query document_id = none ↔
      mapFind s.documents_ document_id = none := by
    rw [MatchDocument_eq]
    cases mapFind s.documents_ document_id <;> simp
  refine ⟨?_, ?_, ?_⟩
  · rw [hnone, mapFind_eq_none_iff]
  · intro words status h
    rw [MatchDocument_eq] at h
    cases hd : mapFind s.documents_ document_id with
    | none =>
      rw [hd] at h
      exact Option.noConfusion h
    | some data =>
      rw [hd] at h
      refine ⟨data, rfl, ?_⟩
      have := Option.some.inj h
      exact (congrArg Prod.snd this).symm
  · intro s₀ calls hdocs hs
    rw [hnone, hs, mapFind_documents_addDocuments, hdocs]
    simp only [mapFind, Option.map_eq_none', List.find?_eq_none, decide_eq_true_eq]

/-- C8, on the server of `TestMatching`: `MatchDocument` fails for the id 7,
which is not in the store, and does not fail for the id 0, which is. -/
theorem MatchDocument_fails_iff_witness :
    MatchDocument matchingServer "test dark jokes" 7 = none ∧
    (7 : Int) ∉ mapKeys matchingServer.documents_ ∧
    (0 : Int) ∈ mapKeys matchingServer.documents_ ∧
    MatchDocument matchingServer "test dark jokes" 0 ≠ none := by
  have h7 : (7 : Int) ∉ mapKeys matchingServer.documents_ := by decide!
  have h0 : (0 : Int) ∈ mapKeys matchingServer.documents_ := by decide!
  have hiff7 := (MatchDocument_fails_iff matchingServer "test dark jokes" 7).1
  have hiff0 := (MatchDocument_fails_iff matchingServer "test dark jokes" 0).1
  exact ⟨hiff7.2 h7, h7, h0, fun h => hiff0.1 h h0⟩

/-! ## Stop words -/

theorem stop_words_setStopWordsAll_index (s : Server) (texts : List String) :
    (setStopWordsAll s texts).word_to_document_freqs_ = s.word_to_document_freqs_ ∧
    (setStopWordsAll s texts).documents_ = s.documents_ := by
  induction texts generalizing s with
  | nil => exact ⟨rfl, rfl⟩
  | cons t texts ih =>
    have := ih (SetStopWords s t)
    exact this

theorem Reachable.setStopWordsAll {s : Server} (h : Reachable s) (texts : List String) :
    Reachable (setStopWordsAll s texts) := by
  induction texts generalizing s with
  | nil => exact h
  | cons t texts ih => exact ih (Reachable.setStopWords _ _ h)

/-- A key of the index after the loop of `AddDocument` was a key before or is
one of the words of the document. -/
theorem mem_keys_foldl_mapUpdate (id : Int) (inv : ℚ) (words : List String)
    (index : List (String × List (Int × ℚ))) (word : String)
    (h : word ∈ mapKeys (words.foldl (fun freqs w => mapUpdate freqs w []
        (fun docs => mapUpdate docs id 0 (fun tf => tf + inv))) index)) :
    word ∈ mapKeys index ∨ word ∈ words := by
  induction words generalizing index with
  | nil => exact Or.inl h
  | cons w words ih =>
    rw [List.foldl_cons] at h
    rcases ih _ h with h' | h'
    · rw [← mapFind_isSome_iff, mapFind_mapUpdate] at h'
      by_cases hw : word = w
      · exact Or.inr (hw ▸ List.mem_cons_self _ _)
      · rw [if_neg hw, mapFind_isSome_iff] at h'
        exact Or.inl h'
    · exact Or.inr (List.mem_cons_of_mem _ h')

theorem not_stop_of_mem_SplitIntoWordsNoStop {s : Server} {text word : String}
    (h : word ∈ SplitIntoWordsNoStop s text) : word ∉ s.stop_words_ := by
  unfold SplitIntoWordsNoStop IsStopWord at h
  have := (List.mem_filter.1 h).2
  simpa using this

/-- Calls of `AddDocument` put no stop word into the index. -/
theorem index_keys_not_stop (s : Server) (calls : List AddDocumentCall)
    (h : ∀ w ∈ mapKeys s.word_to_document_freqs_, w ∉ s.stop_words_) :
    ∀ w ∈ mapKeys (addDocuments s calls).word_to_document_freqs_,
      w ∉ (addDocuments s calls).stop_words_ := by
  induction calls generalizing s with
  | nil => exact h
  | cons c calls ih =>
    apply ih (AddDocument s c.document_id c.document c.status c.ratings)
    intro w hw
    rw [stop_words_addDocument]
    rcases mem_keys_foldl_mapUpdate _ _ _ _ _ hw with h' | h'
    · exact h w h'
    · exact not_stop_of_mem_SplitIntoWordsNoStop h'

theorem ParseQueryWord_is_stop (s : Server) (text : String) :
    (ParseQueryWord s text).is_stop = IsStopWord s (ParseQueryWord s text).data := by
  unfold ParseQueryWord
  split <;> rfl

/-- A query whose words are all stop words has no plus-word and no
minus-word. -/
theorem ParseQuery_of_stop_words (s : Server) (text : String)
    (h : ∀ word ∈ SplitIntoWords text, (ParseQueryWord s word).data ∈ s.stop_words_) :
    ParseQuery s text = ⟨[], []⟩ := by
  unfold ParseQuery
  generalize SplitIntoWords text = words at h
  generalize (⟨[], []⟩ : Query) = query
  induction words generalizing query with
  | nil => rfl
  | cons w rest ih =>
    rw [List.foldl_cons]
    have hstop : (ParseQueryWord s w).is_stop = true := by
      rw [ParseQueryWord_is_stop]
      unfold IsStopWord
      exact decide_eq_true (h w (List.mem_cons_self _ _))
    simp only [hstop, Bool.not_true, Bool.false_eq_true, if_false]
    exact ih (fun word hword => h word (List.mem_cons_of_mem _ hword)) query

theorem candidates_of_no_plus_words {R : Type} [LinearOrderedField R] (ln : ℚ → R)
    (s : Server) (minus_words : List String) (filter : Int → DocumentStatus → Int → Bool) :
    candidates ln s ⟨[], minus_words⟩ filter = [] := by
  unfold candidates
  have : s.documents_.filter (qualifies s ⟨[], minus_words⟩ filter) = [] := by
    rw [List.filter_eq_nil_iff]
    intro e _
    simp [qualifies, inSomeEntry]
  rw [this]
  rfl

theorem topOf_nil {R : Type} [LinearOrderedField R] : topOf ([] : List (Document R)) = [] := by
  rw [topOf_eq_take]
  rfl

/-- C9: on a server whose stop words were all registered by calls of
`SetStopWords` before the calls of `AddDocument`, no stop word is a key of the
inverted index; and for every raw query each of whose words is a stop word,
after the removal of one leading `-`, `FindTopDocuments` returns the empty
list for every predicate, and `MatchDocument` returns an empty list of words
for every document of the store and returns no other list for any id. -/
theorem stop_words_are_excluded {R : Type} [LinearOrderedField R] (ln : ℚ → R)
    (texts : List String) (calls : List AddDocumentCall) (s : Server)
    (hs : s = addDocuments (setStopWordsAll Server.empty texts) calls) :
    (∀ w ∈ s.stop_words_, w ∉ mapKeys s.word_to_document_freqs_) ∧
    ∀ raw_query : String,
      (∀ word ∈ SplitIntoWords raw_query, (ParseQueryWord s word).data ∈ s.stop_words_) →
      (∀ filter : Int → DocumentStatus → Int → Bool,
        FindTopDocuments ln s raw_query filter = some []) ∧
      (∀ document_id data, mapFind s.documents_ document_id = some data →
        MatchDocument s raw_query document_id = some ([], data.status)) ∧
      (∀ document_id words status,
        MatchDocument s raw_query document_id = some (words, status) → words = []) := by
  have hreach : Reachable s := by
    rw [hs]
    exact (Reachable.empty.setStopWordsAll texts).addDocuments calls
  refine ⟨?_, ?_⟩
  · intro w hw hkey
    have := index_keys_not_stop (setStopWordsAll Server.empty texts) calls (by
      intro w' hw'
      rw [(stop_words_setStopWordsAll_index Server.empty texts).1] at hw'
      simp [Server.empty] at hw')
    rw [← hs] at this
    exact this w hkey hw
  · intro raw_query hq
    have hquery := ParseQuery_of_stop_words s raw_query hq
    refine ⟨?_, ?_, ?_⟩
    · intro filter
      rw [FindTopDocuments_eq ln s hreach.wellFormed, hquery, candidates_of_no_plus_words,
        topOf_nil]
    · intro document_id data hdoc
      rw [MatchDocument_eq, hdoc, hquery]
      rfl
    · intro document_id words status h
      rw [MatchDocument_eq, hquery] at h
      cases hd : mapFind s.documents_ document_id with
      | none =>
        rw [hd] at h
        exact Option.noConfusion h
      | some data =>
        rw [hd] at h
        have := congrArg Prod.fst (Option.some.inj h)
        exact this.symm

/-- C9, on the servers of `TestExcludeStopWordsFromAddedDocumentContent`: with
the stop words `in the` and the document `cat in the city`, the stop words are
no keys of the index, the query `in` returns nothing and matches no word of
the document 42; without stop words the same query returns the document. -/
theorem stop_words_are_excluded_witness :
    (∀ w ∈ ["in", "the"],
      w ∉ mapKeys (addDocuments (setStopWordsAll Server.empty ["in the"])
        stopWordsCalls).word_to_document_freqs_) ∧
    (addDocuments (setStopWordsAll Server.empty ["in the"]) stopWordsCalls).stop_words_ =
      ["in", "the"] ∧
    FindTopDocuments (fun x : ℚ => Real.log (x : ℝ))
      (addDocuments (setStopWordsAll Server.empty ["in the"]) stopWordsCalls) "in"
      actualFilter = some [] ∧
    MatchDocument (addDocuments (setStopWordsAll Server.empty ["in the"]) stopWordsCalls)
      "in" 42 = some ([], DocumentStatus.ACTUAL) ∧
    ∃ result,
      FindTopDocuments (fun x : ℚ => Real.log (x : ℝ))
        (addDocuments Server.empty stopWordsCalls) "in" actualFilter = some result ∧
      result.map (fun d => d.id) = [42] := by
  have hstop : (addDocuments (setStopWordsAll Server.empty ["in the"])
      stopWordsCalls).stop_words_ = ["in", "the"] := by decide!
  obtain ⟨hkeys, hquery⟩ :=
    stop_words_are_excluded (fun x : ℚ => Real.log (x : ℝ)) ["in the"] stopWordsCalls _ rfl
  obtain ⟨hfind, hmatch, _⟩ := hquery "in" (by decide!)
  refine ⟨?_, hstop, hfind actualFilter, hmatch 42 ⟨2, DocumentStatus.ACTUAL⟩ (by decide!), ?_⟩
  · intro w hw
    exact hkeys w (by rw [hstop]; exact hw)
  · have hreach : Reachable (addDocuments Server.empty stopWordsCalls) :=
      Reachable.empty.addDocuments _
    refine ⟨_, FindTopDocuments_eq _ _ hreach.wellFormed "in" actualFilter, ?_⟩
    have hkeys' : mapKeys ((addDocuments Server.empty stopWordsCalls).documents_.filter
        (qualifies (addDocuments Server.empty stopWordsCalls)
          (ParseQuery (addDocuments Server.empty stopWordsCalls) "in") actualFilter)) =
        [42] := by decide!
    have hlen : (candidates (fun x : ℚ => Real.log (x : ℝ))
        (addDocuments Server.empty stopWordsCalls)
        (ParseQuery (addDocuments Server.empty stopWordsCalls) "in") actualFilter).length ≤
          MAX_RESULT_DOCUMENT_COUNT := by
      rw [← List.length_map _ (fun d => d.id), candidates_map_id, hkeys']
      decide
    have hperm := (topOf_perm hlen).map (fun d => d.id)
    rw [candidates_map_id, hkeys'] at hperm
    exact List.perm_singleton.1 hperm

/-! ## The overloads of `FindTopDocuments` -/

/-- C10: in every reachable state, for every raw query and every status `s`,
`FindTopDocuments(query, s)` is `FindTopDocuments(query, predicate)` for the
predicate that holds when the status is `s`, so every document returned has the
stored status `s`; and `FindTopDocuments(query)` is
`FindTopDocuments(query, ACTUAL)`. -/
theorem FindTopDocuments_overloads {R : Type} [LinearOrderedField R] (ln : ℚ → R)
    (s : Server) (hs : Reachable s) (raw_query : String) (status0 : DocumentStatus) :
    FindTopDocumentsByStatus ln s raw_query status0 =
      FindTopDocuments ln s raw_query (fun _ status _ => decide (status = status0)) ∧
    FindTopDocumentsActual ln s raw_query =
      FindTopDocumentsByStatus ln s raw_query DocumentStatus.ACTUAL ∧
    ∃ result, FindTopDocumentsByStatus ln s raw_query status0 = some result ∧
      ∀ d ∈ result, ∃ data, mapFind s.documents_ d.id = some data ∧
        data.status = status0 := by
  have hpred : (fun (_ : Int) (status : DocumentStatus) (_ : Int) =>
        decide (status0 = status)) =
      (fun (_ : Int) (status : DocumentStatus) (_ : Int) => decide (status = status0)) := by
    funext _ status _
    exact decide_eq_decide.2 eq_comm
  refine ⟨?_, rfl, ?_⟩
  · unfold FindTopDocumentsByStatus
    rw [hpred]
  · unfold FindTopDocumentsByStatus
    refine ⟨_, FindTopDocuments_eq ln s hs.wellFormed raw_query _, ?_⟩
    intro d hd
    obtain ⟨data, h1, _, _, h4, _⟩ := candidate_facts hs.wellFormed (mem_of_mem_topOf hd)
    exact ⟨data, h1, (of_decide_eq_true h4).symm⟩

/-- C10, on the server of `TestSearchForStatus`: of the five documents with
the word `city`, the query `city` with the status `ACTUAL` returns the
documents 1 and 2, which are the two documents of this status. -/
theorem FindTopDocuments_overloads_witness :
    Reachable statusServer ∧
    ∃ result,
      FindTopDocumentsByStatus (fun x : ℚ => Real.log (x : ℝ)) statusServer "city"
        DocumentStatus.ACTUAL = some result ∧
      FindTopDocumentsActual (fun x : ℚ => Real.log (x : ℝ)) statusServer "city"
        = some result ∧
      (result.map (fun d => d.id)).Perm [1, 2] ∧
      ∀ d ∈ result, ∃ data, mapFind statusServer.documents_ d.id = some data ∧
        data.status = DocumentStatus.ACTUAL := by
  have hreach : Reachable statusServer := Reachable.empty.addDocuments _
  obtain ⟨_, hactual, result, hres, hstatus⟩ :=
    FindTopDocuments_overloads (fun x : ℚ => Real.log (x : ℝ)) statusServer hreach "city"
      DocumentStatus.ACTUAL
  refine ⟨hreach, result, hres, hactual.trans hres, ?_, hstatus⟩
  have heq := FindTopDocuments_eq (fun x : ℚ => Real.log (x : ℝ)) statusServer
    hreach.wellFormed "city" actualFilter
  have hres' : FindTopDocuments (fun x : ℚ => Real.log (x : ℝ)) statusServer "city"
      actualFilter = some result := hres
  rw [hres'] at heq
  have hkeys : mapKeys (statusServer.documents_.filter
      (qualifies statusServer (ParseQuery statusServer "city") actualFilter)) = [1, 2] := by
    decide!
  have hlen : (candidates (fun x : ℚ => Real.log (x : ℝ)) statusServer
      (ParseQuery statusServer "city") actualFilter).length ≤ MAX_RESULT_DOCUMENT_COUNT := by
    rw [← List.length_map _ (fun d => d.id), candidates_map_id, hkeys]
    decide
  have hperm := (topOf_perm hlen).map (fun d => d.id)
  rw [candidates_map_id, hkeys, ← Option.some.inj heq] at hperm
  exact hperm

/-! ## What `AddDocument` does to the state -/

theorem length_mapInsertNew {K V : Type} [LinearOrder K] (m : List (K × V)) (k : K) (v : V) :
    (mapInsertNew m k v).length = m.length + 1 := by
  induction m with
  | nil => rfl
  | cons e m ih =>
    obtain ⟨k', v'⟩ := e
    unfold mapInsertNew
    split
    · rfl
    · rw [List.length_cons, ih, List.length_cons]

theorem documents_addDocument (s : Server) (id : Int) (document : String)
    (status : DocumentStatus) (ratings : List Int) :
    (AddDocument s id document status ratings).documents_ =
      mapEmplace s.documents_ id ⟨ComputeAverageRating ratings, status⟩ := rfl

theorem mapEmplace_of_mem {K V : Type} [DecidableEq K] [LinearOrder K] (m : List (K × V))
    (k : K) (v old : V) (h : mapFind m k = some old) : mapEmplace m k v = m := by
  unfold mapEmplace
  rw [h]

theorem mapEmplace_of_not_mem {K V : Type} [DecidableEq K] [LinearOrder K] (m : List (K × V))
    (k : K) (v : V) (h : mapFind m k = none) : mapEmplace m k v = mapInsertNew m k v := by
  unfold mapEmplace
  rw [h]

/-- C11, as amended: for every server state in which the id is a key of the
document store, `AddDocument` with this id leaves the document store as it is:
afterwards the store still maps the id to the entry it had before the call
(the first write wins), and `GetDocumentCount` is unchanged. -/
theorem AddDocument_keeps_stored_entry (s : Server) (document_id : Int) (old : DocumentData)
    (hold : mapFind s.documents_ document_id = some old) (document : String)
    (status : DocumentStatus) (ratings : List Int) :
    (AddDocument s document_id document status ratings).documents_ = s.documents_ ∧
    mapFind (AddDocument s document_id document status ratings).documents_ document_id =
      some old ∧
    GetDocumentCount (AddDocument s document_id document status ratings) =
      GetDocumentCount s := by
  have h : (AddDocument s document_id document status ratings).documents_ = s.documents_ := by
    rw [documents_addDocument, mapEmplace_of_mem _ _ _ old hold]
  refine ⟨h, ?_, ?_⟩
  · rw [h, hold]
  · unfold GetDocumentCount
    rw [h]

theorem oneDocumentServer_reachable : Reachable oneDocumentServer :=
  Reachable.addDocument _ _ _ _ _ Reachable.empty

/-- C11 fails as it is stated: on the server with the document 1 of status
`ACTUAL` and rating 1, a second call of `AddDocument` for the id 1 with the
text `b`, the status `BANNED` and the ratings `{5}` leaves the entry of status
`ACTUAL` and rating 1 in the store, and not the entry of the latest call. -/
theorem AddDocument_overwrite_counterexample :
    Reachable oneDocumentServer ∧
    mapFind oneDocumentServer.documents_ 1 = some ⟨1, DocumentStatus.ACTUAL⟩ ∧
    SplitIntoWordsNoStop oneDocumentServer "b" = ["b"] ∧
    ComputeAverageRating [5] = 5 ∧
    mapFind (AddDocument oneDocumentServer 1 "b" DocumentStatus.BANNED [5]).documents_ 1 =
      some ⟨1, DocumentStatus.ACTUAL⟩ ∧
    mapFind (AddDocument oneDocumentServer 1 "b" DocumentStatus.BANNED [5]).documents_ 1 ≠
      some ⟨ComputeAverageRating [5], DocumentStatus.BANNED⟩ := by
  refine ⟨oneDocumentServer_reachable, ?_, ?_, ?_, ?_, ?_⟩ <;> decide!

/-- C11 as amended, on the server with the document 1: the second call of
`AddDocument` for the id 1 leaves the store and the count of documents as
they are. -/
theorem AddDocument_keeps_stored_entry_witness :
    mapFind oneDocumentServer.documents_ 1 = some ⟨1, DocumentStatus.ACTUAL⟩ ∧
    (AddDocument oneDocumentServer 1 "b" DocumentStatus.BANNED [5]).documents_ =
      oneDocumentServer.documents_ ∧
    GetDocumentCount (AddDocument oneDocumentServer 1 "b" DocumentStatus.BANNED [5]) = 1 := by
  have hold : mapFind oneDocumentServer.documents_ 1 = some ⟨1, DocumentStatus.ACTUAL⟩ := by
    decide!
  obtain ⟨h1, _, h3⟩ :=
    AddDocument_keeps_stored_entry oneDocumentServer 1 _ hold "b" DocumentStatus.BANNED [5]
  refine ⟨hold, h1, ?_⟩
  rw [h3]
  decide!

theorem server_eq (s t : Server) (h₁ : s.stop_words_ = t.stop_words_)
    (h₂ : s.word_to_document_freqs_ = t.word_to_document_freqs_)
    (h₃ : s.documents_ = t.documents_) : s = t := by
  cases s
  cases t
  simp only at h₁ h₂ h₃
  rw [h₁, h₂, h₃]

theorem index_addDocument_of_no_words (s : Server) (id : Int) (document : String)
    (status : DocumentStatus) (ratings : List Int)
    (h : SplitIntoWordsNoStop s document = []) :
    (AddDocument s id document status ratings).word_to_document_freqs_ =
      s.word_to_document_freqs_ := by
  unfold AddDocument
  simp only
  rw [h]
  rfl

/-- C12, as amended: for every server state and every document text that
yields no token after the splitting and the removal of the stop words,
`AddDocument` does not reject the document: it leaves the inverted index and
the stop words as they are and emplaces the id into the document store; when
the id is already a key of the store the whole state is unchanged, and when it
is not, the store gains the entry of the call and holds one document more. -/
theorem AddDocument_without_words (s : Server) (document_id : Int) (document : String)
    (status : DocumentStatus) (ratings : List Int)
    (hwords : SplitIntoWordsNoStop s document = []) :
    (AddDocument s document_id document status ratings).word_to_document_freqs_ =
      s.word_to_document_freqs_ ∧
    (AddDocument s document_id document status ratings).stop_words_ = s.stop_words_ ∧
    ((mapFind s.documents_ document_id).isSome = true →
      AddDocument s document_id document status ratings = s) ∧
    (mapFind s.documents_ document_id = none →
      mapFind (AddDocument s document_id document status ratings).documents_ document_id =
        some ⟨ComputeAverageRating ratings, status⟩ ∧
      (AddDocument s document_id document status ratings).documents_.length =
        s.documents_.length + 1) := by
  have hindex := index_addDocument_of_no_words s document_id document status ratings hwords
  refine ⟨hindex, rfl, ?_, ?_⟩
  · intro hsome
    obtain ⟨old, hold⟩ := Option.isSome_iff_exists.1 hsome
    have hdocs : (AddDocument s document_id document status ratings).documents_ =
        s.documents_ := by
      rw [documents_addDocument, mapEmplace_of_mem _ _ _ old hold]
    exact server_eq _ _ rfl hindex hdocs
  · intro hnone
    refine ⟨?_, ?_⟩
    · rw [mapFind_documents_addDocument, if_pos rfl, hnone]
      rfl
    · rw [documents_addDocument, mapEmplace_of_not_mem _ _ _ hnone, length_mapInsertNew]

/-- C12 fails as it is stated: on the fresh server, `AddDocument` with the
empty text, with a text of spaces or, after `SetStopWords`, with a text of
stop words puts the document into the store, and `GetDocumentCount` becomes
1. -/
theorem AddDocument_reject_counterexample :
    SplitIntoWordsNoStop Server.empty "" = [] ∧
    (AddDocument Server.empty 1 "" DocumentStatus.ACTUAL []).documents_ =
      [(1, ⟨0, DocumentStatus.ACTUAL⟩)] ∧
    (AddDocument Server.empty 1 "" DocumentStatus.ACTUAL []).documents_ ≠
      Server.empty.documents_ ∧
    GetDocumentCount Server.empty = 0 ∧
    GetDocumentCount (AddDocument Server.empty 1 "" DocumentStatus.ACTUAL []) = 1 ∧
    SplitIntoWordsNoStop Server.empty "   " = [] ∧
    GetDocumentCount (AddDocument Server.empty 1 "   " DocumentStatus.ACTUAL [4]) = 1 ∧
    SplitIntoWordsNoStop (SetStopWords Server.empty "in the") "in the in" = [] ∧
    GetDocumentCount (AddDocument (SetStopWords Server.empty "in the") 1 "in the in"
      DocumentStatus.ACTUAL [4]) = 1 := by
  refine ⟨?_, ?_, ?_, ?_, ?_, ?_, ?_, ?_, ?_⟩ <;> decide!

/-- C12 as amended, on the fresh server and the empty text: the index stays
empty and the store gains the document 1 with the rating 0. -/
theorem AddDocument_without_words_witness :
    SplitIntoWordsNoStop Server.empty "" = [] ∧
    (AddDocument Server.empty 1 "" DocumentStatus.ACTUAL []).word_to_document_freqs_ = [] ∧
    mapFind (AddDocument Server.empty 1 "" DocumentStatus.ACTUAL []).documents_ 1 =
      some ⟨0, DocumentStatus.ACTUAL⟩ ∧
    (AddDocument Server.empty 1 "" DocumentStatus.ACTUAL []).documents_.length = 1 := by
  have hwords : SplitIntoWordsNoStop Server.empty "" = [] := by decide!
  obtain ⟨h1, _, _, h4⟩ :=
    AddDocument_without_words Server.empty 1 "" DocumentStatus.ACTUAL [] hwords
  obtain ⟨h5, h6⟩ := h4 rfl
  exact ⟨hwords, h1, h5, h6⟩

/-- C15, as amended: for every server state, every id for which the index
holds nothing yet and every text, with `ws` the words of the text left by the
stop words. With the term frequencies as exact rational numbers, after
`AddDocument` the index entry of every word `w` that occurs in `ws` maps the
id to the number of occurrences of `w` in `ws` divided by the length of `ws`.
In the arithmetic of `double`, it maps the id to the value obtained from 0 by
adding the `double` quotient `1.0 / length` once for every occurrence of `w`,
each sum rounded. In both, the index holds nothing for the id and a word that
does not occur in `ws`, and what the index holds for the other document ids is
unchanged. -/
theorem AddDocument_term_frequencies (s : Server) (document_id : Int) (document : String)
    (status : DocumentStatus) (ratings : List Int)
    (hfresh : ∀ word, freqAt s.word_to_document_freqs_ word document_id = none) :
    ((∀ word, word ∈ SplitIntoWordsNoStop s document →
      ∃ docs,
        mapFind (AddDocument s document_id document status ratings).word_to_document_freqs_
          word = some docs ∧
        mapFind docs document_id =
          some (((SplitIntoWordsNoStop s document).count word : ℚ) /
            ((SplitIntoWordsNoStop s document).length : ℚ))) ∧
    (∀ word, word ∉ SplitIntoWordsNoStop s document →
      freqAt (AddDocument s document_id document status ratings).word_to_document_freqs_
        word document_id = none) ∧
    (∀ word id, id ≠ document_id →
      freqAt (AddDocument s document_id document status ratings).word_to_document_freqs_
        word id = freqAt s.word_to_document_freqs_ word id)) ∧
    ((∀ word, word ∈ SplitIntoWordsNoStop s document →
      ∃ docs,
        mapFind (AddDocumentDouble s document_id document status
          ratings).word_to_document_freqs_ word = some docs ∧
        mapFind docs document_id =
          some ((fun tf => roundDouble (tf + roundDouble
              (1 / roundDouble ((SplitIntoWordsNoStop s document).length : ℚ))))^[
            (SplitIntoWordsNoStop s document).count word] 0)) ∧
    (∀ word, word ∉ SplitIntoWordsNoStop s document →
      freqAt (AddDocumentDouble s document_id document status ratings).word_to_document_freqs_
        word document_id = none) ∧
    (∀ word id, id ≠ document_id →
      freqAt (AddDocumentDouble s document_id document status ratings).word_to_document_freqs_
        word id = freqAt s.word_to_document_freqs_ word id)) := by
  refine ⟨⟨?_, ?_, ?_⟩, ⟨?_, ?_, ?_⟩⟩
  · intro word hword
    have h := freqAt_addDocument s document_id document status ratings word document_id
    rw [if_pos ⟨hword, rfl⟩, hfresh word] at h
    unfold freqAt at h
    cases hd : mapFind (AddDocument s document_id document status
        ratings).word_to_document_freqs_ word with
    | none =>
      rw [hd] at h
      exact Option.noConfusion h
    | some docs =>
      rw [hd] at h
      refine ⟨docs, rfl, ?_⟩
      rw [show mapFind docs document_id = _ from h]
      simp [div_eq_mul_inv]
  · intro word hword
    rw [freqAt_addDocument, if_neg (fun h => hword h.1), hfresh word]
  · intro word id hid
    rw [freqAt_addDocument, if_neg (fun h => hid h.2)]
  · intro word hword
    have h := freqAt_addDocumentDouble s document_id document status ratings word document_id
    rw [if_pos ⟨hword, rfl⟩, hfresh word] at h
    unfold freqAt at h
    cases hd : mapFind (AddDocumentDouble s document_id document status
        ratings).word_to_document_freqs_ word with
    | none =>
      rw [hd] at h
      exact Option.noConfusion h
    | some docs =>
      rw [hd] at h
      exact ⟨docs, rfl, h⟩
  · intro word hword
    rw [freqAt_addDocumentDouble, if_neg (fun h => hword h.1), hfresh word]
  · intro word id hid
    rw [freqAt_addDocumentDouble, if_neg (fun h => hid h.2)]

/-- C15 fails as it is stated: for the text in which ten of ten words are `a`,
`AddDocument` on the fresh server adds the `double` nearest to `1/10` ten times
and stores `0.9999999999999999`, which is `1 - 2^-53`, for the word `a`, and
not the number of occurrences divided by the number of words, which is 1. -/
theorem AddDocument_term_frequencies_counterexample :
    SplitIntoWordsNoStop Server.empty "a a a a a a a a a a" =
      ["a", "a", "a", "a", "a", "a", "a", "a", "a", "a"] ∧
    roundDouble (1 / roundDouble (10 : ℚ)) = 3602879701896397 / 36028797018963968 ∧
    mapFind (AddDocumentDouble Server.empty 0 "a a a a a a a a a a" DocumentStatus.ACTUAL
      [1]).word_to_document_freqs_ "a" =
        some [(0, 9007199254740991 / 9007199254740992)] ∧
    (9007199254740991 / 9007199254740992 : ℚ) = 1 - 1 / 2 ^ 53 ∧
    (9007199254740991 / 9007199254740992 : ℚ) ≠
      ((SplitIntoWordsNoStop Server.empty "a a a a a a a a a a").count "a" : ℚ) /
        ((SplitIntoWordsNoStop Server.empty "a a a a a a a a a a").length : ℚ) := by
  have hwords : SplitIntoWordsNoStop Server.empty "a a a a a a a a a a" =
      ["a", "a", "a", "a", "a", "a", "a", "a", "a", "a"] := by decide!
  refine ⟨hwords, by decide!, by decide!, by norm_num, ?_⟩
  rw [hwords]
  decide!

/-- C15 as amended, on the fresh server and the first document of
`TestRelevanceCalculationAndRelevanceSort`: the index entry of `text`, which
occurs twice among the seven words, maps the document 0 to `2/7` with exact
rational numbers and to the `double` nearest to `2/7` in the arithmetic of
`double`, and the index holds nothing for the document 0 and the word `jar`. -/
theorem AddDocument_term_frequencies_witness :
    SplitIntoWordsNoStop Server.empty "test text with no dark jokes text" =
      ["test", "text", "with", "no", "dark", "jokes", "text"] ∧
    (∃ docs,
      mapFind (AddDocument Server.empty 0 "test text with no dark jokes text"
        DocumentStatus.ACTUAL [1, 2, 3]).word_to_document_freqs_ "text" = some docs ∧
      mapFind docs 0 = some (2 / 7)) ∧
    freqAt (AddDocument Server.empty 0 "test text with no dark jokes text"
      DocumentStatus.ACTUAL [1, 2, 3]).word_to_document_freqs_ "jar" 0 = none ∧
    (∃ docs,
      mapFind (AddDocumentDouble Server.empty 0 "test text with no dark jokes text"
        DocumentStatus.ACTUAL [1, 2, 3]).word_to_document_freqs_ "text" = some docs ∧
      mapFind docs 0 = some (5146971002709138 / 18014398509481984) ∧
      (5146971002709138 / 18014398509481984 : ℚ) = roundDouble (2 / 7)) := by
  have hwords : SplitIntoWordsNoStop Server.empty "test text with no dark jokes text" =
      ["test", "text", "with", "no", "dark", "jokes", "text"] := by decide!
  obtain ⟨⟨h1, h2, _⟩, ⟨h4, _, _⟩⟩ :=
    AddDocument_term_frequencies Server.empty 0 "test text with no dark jokes text"
      DocumentStatus.ACTUAL [1, 2, 3] (fun _ => rfl)
  refine ⟨hwords, ?_, ?_, ?_⟩
  · obtain ⟨docs, hd1, hd2⟩ := h1 "text" (by rw [hwords]; decide)
    refine ⟨docs, hd1, ?_⟩
    rw [hd2, hwords]
    decide!
  · exact h2 "jar" (by rw [hwords]; decide)
  · obtain ⟨docs, hd1, hd2⟩ := h4 "text" (by rw [hwords]; decide)
    refine ⟨docs, hd1, ?_, by decide!⟩
    rw [hd2, hwords]
    decide!

/-! ## The second check of the predicate -/

/-- C18: in every reachable state, for every raw query and every predicate,
`FindTopDocuments` returns the same list as the variant that sorts and
truncates the output of `FindAllDocuments` without checking the predicate
again: the second check removes no document. -/
theorem FindTopDocuments_second_filter_redundant {R : Type} [LinearOrderedField R]
    (ln : ℚ → R) (s : Server) (hs : Reachable s) (raw_query : String)
    (filter : Int → DocumentStatus → Int → Bool) :
    FindTopDocuments ln s raw_query filter =
      FindTopDocumentsSingleFilter ln s raw_query filter ∧
    ∃ all_documents,
      FindAllDocuments ln s (ParseQuery s raw_query) filter = some all_documents ∧
      keepFiltered s filter all_documents = some all_documents := by
  have hall := FindAllDocuments_eq ln s hs.wellFormed (ParseQuery s raw_query) filter
  refine ⟨?_, _, hall, keepFiltered_candidates ln s hs.wellFormed _ filter⟩
  rw [FindTopDocuments_eq ln s hs.wellFormed]
  unfold FindTopDocumentsSingleFilter
  show _ = (FindAllDocuments ln s (ParseQuery s raw_query) filter).bind _
  rw [hall]
  show _ = (if _ then _ else _)
  unfold topOf
  split <;> rfl

/-- C18, on the server of `TestUsersLambda` with the predicate of the test,
which accepts the even ids: both variants return the same list, which holds
the documents 0, 2 and 4. -/
theorem FindTopDocuments_second_filter_redundant_witness :
    Reachable usersLambdaServer ∧
    ∃ result,
      FindTopDocuments (fun x : ℚ => Real.log (x : ℝ)) usersLambdaServer "dark jokes"
        evenIdFilter = some result ∧
      FindTopDocumentsSingleFilter (fun x : ℚ => Real.log (x : ℝ)) usersLambdaServer
        "dark jokes" evenIdFilter = some result ∧
      (result.map (fun d => d.id)).Perm [0, 2, 4] := by
  have hreach : Reachable usersLambdaServer := Reachable.empty.addDocuments _
  obtain ⟨heq, _⟩ :=
    FindTopDocuments_second_filter_redundant (fun x : ℚ => Real.log (x : ℝ))
      usersLambdaServer hreach "dark jokes" evenIdFilter
  have htop := FindTopDocuments_eq (fun x : ℚ => Real.log (x : ℝ)) usersLambdaServer
    hreach.wellFormed "dark jokes" evenIdFilter
  refine ⟨hreach, _, htop, heq ▸ htop, ?_⟩
  have hkeys : mapKeys (usersLambdaServer.documents_.filter
      (qualifies usersLambdaServer (ParseQuery usersLambdaServer "dark jokes")
        evenIdFilter)) = [0, 2, 4] := by
    decide!
  have hlen : (candidates (fun x : ℚ => Real.log (x : ℝ)) usersLambdaServer
      (ParseQuery usersLambdaServer "dark jokes") evenIdFilter).length ≤
        MAX_RESULT_DOCUMENT_COUNT := by
    rw [← List.length_map _ (fun d => d.id), candidates_map_id, hkeys]
    decide
  have hperm := (topOf_perm hlen).map (fun d => d.id)
  rw [candidates_map_id, hkeys] at hperm
  exact hperm

/-! ## `SplitIntoWords` -/

theorem foldl_splitStep (cs : List Char) (words : List String) (word : List Char) :
    (if (cs.foldl splitStep (words, word)).2 ≠ [] then
      (cs.foldl splitStep (words, word)).1 ++ [String.mk (cs.foldl splitStep (words, word)).2]
     else (cs.foldl splitStep (words, word)).1) = words ++ splitFrom word cs := by
  induction cs generalizing words word with
  | nil =>
    by_cases h : word = []
    · simp [splitFrom, h]
    · simp [splitFrom, h]
  | cons c cs ih =>
    rw [List.foldl_cons]
    by_cases hc : c = ' '
    · by_cases hw : word = []
      · have hstep : splitStep (words, word) c = (words, []) := by
          simp [splitStep, hc, hw]
        rw [hstep, ih]
        simp [splitFrom, hc, hw]
      · have hstep : splitStep (words, word) c = (words ++ [String.mk word], []) := by
          simp [splitStep, hc, hw]
        rw [hstep, ih]
        simp [splitFrom, hc, hw]
    · have hstep : splitStep (words, word) c = (words, word ++ [c]) := by
        simp [splitStep, hc]
      rw [hstep, ih]
      simp [splitFrom, hc]

/-- The function `SplitIntoWords` by recursion on the characters. -/
theorem SplitIntoWords_eq_splitFrom (text : String) :
    SplitIntoWords text = splitFrom [] text.data := by
  unfold SplitIntoWords
  have := foldl_splitStep text.data [] []
  simpa using this

theorem splitFrom_tokens (cs : List Char) (word : List Char) (hword : ' ' ∉ word) :
    ∀ w ∈ splitFrom word cs, w.data ≠ [] ∧ ' ' ∉ w.data := by
  induction cs generalizing word with
  | nil =>
    intro w hw
    by_cases h : word = []
    · simp [splitFrom, h] at hw
    · simp only [splitFrom, ne_eq, h, not_false_eq_true, if_true, List.mem_singleton] at hw
      subst hw
      exact ⟨h, hword⟩
  | cons c cs ih =>
    intro w hw
    by_cases hc : c = ' '
    · by_cases h : word = []
      · simp only [splitFrom, hc, if_true, ne_eq, h, not_true_eq_false, if_false] at hw
        exact ih [] (by simp) w hw
      · simp only [splitFrom, hc, if_true, ne_eq, h, not_false_eq_true,
          List.mem_cons] at hw
        rcases hw with rfl | hw
        · exact ⟨h, hword⟩
        · exact ih [] (by simp) w hw
    · simp only [splitFrom, hc, if_false] at hw
      refine ih (word ++ [c]) ?_ w hw
      simp only [List.mem_append, List.mem_singleton, not_or]
      exact ⟨hword, fun h => hc h.symm⟩

theorem splitFrom_flatten (cs : List Char) (word : List Char) :
    ((splitFrom word cs).map String.data).flatten =
      word ++ cs.filter (fun c => decide (c ≠ ' ')) := by
  induction cs generalizing word with
  | nil =>
    by_cases h : word = []
    · simp [splitFrom, h]
    · simp [splitFrom, h]
  | cons c cs ih =>
    by_cases hc : c = ' '
    · by_cases h : word = []
      · simp [splitFrom, hc, h, ih]
      · simp [splitFrom, hc, h, ih]
    · simp [splitFrom, hc, ih]

theorem splitFrom_eq_splitOn (cs : List Char) (word : List Char) (hword : ' ' ∉ word) :
    splitFrom word cs =
      (((word ++ cs).splitOn ' ').filter (fun run => decide (run ≠ []))).map String.mk := by
  have hnot : ∀ (l : List Char), ' ' ∉ l → ∀ x ∈ l, ¬ (x == ' ') = true := by
    intro l hl x hx h
    rw [beq_iff_eq] at h
    exact hl (h ▸ hx)
  induction cs generalizing word with
  | nil =>
    rw [List.append_nil]
    unfold List.splitOn
    rw [List.splitOnP_eq_single _ _ (hnot word hword)]
    by_cases h : word = []
    · simp [splitFrom, h]
    · simp [splitFrom, h]
  | cons c cs ih =>
    by_cases hc : c = ' '
    · subst hc
      have hsplit : (word ++ ' ' :: cs).splitOn ' ' = word :: cs.splitOn ' ' := by
        unfold List.splitOn
        exact List.splitOnP_first _ _ (hnot word hword) ' ' (by simp) cs
      rw [hsplit]
      have ih' := ih [] (by simp)
      rw [List.nil_append] at ih'
      by_cases h : word = []
      · simp [splitFrom, h, ih']
      · simp [splitFrom, h, ih']
    · have hword' : ' ' ∉ word ++ [c] := by
        simp only [List.mem_append, List.mem_singleton, not_or]
        exact ⟨hword, fun h => hc h.symm⟩
      have ih' := ih (word ++ [c]) hword'
      rw [List.append_assoc, List.singleton_append] at ih'
      simp only [splitFrom, hc, if_false]
      exact ih'

theorem splitFrom_append (w : List Char) (hw : ' ' ∉ w) (word cs : List Char) :
    splitFrom word (w ++ cs) = splitFrom (word ++ w) cs := by
  induction w generalizing word with
  | nil => simp
  | cons c w ih =>
    simp only [List.mem_cons, not_or] at hw
    have hc : ¬ c = ' ' := fun h => hw.1 h.symm
    rw [List.cons_append]
    simp only [splitFrom, hc, if_false]
    rw [ih hw.2, List.append_assoc, List.singleton_append]

theorem splitFrom_spaced_words (ws : List String)
    (hws : ∀ w ∈ ws, w.data ≠ [] ∧ ' ' ∉ w.data) (word : List Char) (hword : word ≠ []) :
    splitFrom word (ws.map (fun w => ' ' :: w.data)).flatten = String.mk word :: ws := by
  induction ws generalizing word with
  | nil => simp [splitFrom, hword]
  | cons w ws ih =>
    have hw := hws w (List.mem_cons_self _ _)
    rw [List.map_cons, List.flatten_cons, List.cons_append]
    simp only [splitFrom, if_true, ne_eq, hword, not_false_eq_true]
    rw [splitFrom_append w.data hw.2, List.nil_append,
      ih (fun w' hw' => hws w' (List.mem_cons_of_mem _ hw')) w.data hw.1]

theorem intercalate_space_eq (w : List Char) (ws : List (List Char)) :
    List.intercalate [' '] (w :: ws) = w ++ (ws.map (fun w => ' ' :: w)).flatten := by
  induction ws generalizing w with
  | nil => simp [List.intercalate]
  | cons w' ws ih =>
    have := ih w'
    simp only [List.intercalate, List.intersperse_cons_cons, List.flatten_cons,
      List.map_cons] at this ⊢
    rw [this]
    simp

/-- C17: for every text, `SplitIntoWords` returns the maximal runs of
characters other than the space, from left to right; every word returned is
non-empty and has no space, and the characters of the words returned, put
together, are the characters of the text without its spaces; and for every
list of non-empty words without spaces, `SplitIntoWords` of the words joined
by single spaces is this list. -/
theorem SplitIntoWords_spec (text : String) :
    SplitIntoWords text = maximalRuns text ∧
    (∀ w ∈ SplitIntoWords text, w ≠ "" ∧ ' ' ∉ w.data) ∧
    ((SplitIntoWords text).map String.data).flatten =
      text.data.filter (fun c => decide (c ≠ ' ')) ∧
    (∀ ws : List String, (∀ w ∈ ws, w ≠ "" ∧ ' ' ∉ w.data) →
      SplitIntoWords (joinWithSpaces ws) = ws) := by
  refine ⟨?_, ?_, ?_, ?_⟩
  · rw [SplitIntoWords_eq_splitFrom, splitFrom_eq_splitOn _ _ (by simp), List.nil_append]
    rfl
  · intro w hw
    rw [SplitIntoWords_eq_splitFrom] at hw
    have := splitFrom_tokens text.data [] (by simp) w hw
    refine ⟨?_, this.2⟩
    intro h
    rw [h] at this
    exact this.1 rfl
  · rw [SplitIntoWords_eq_splitFrom, splitFrom_flatten, List.nil_append]
  · intro ws hws
    have hws' : ∀ w ∈ ws, w.data ≠ [] ∧ ' ' ∉ w.data := by
      intro w hw
      refine ⟨?_, (hws w hw).2⟩
      intro h
      exact (hws w hw).1 (String.ext h)
    rw [SplitIntoWords_eq_splitFrom]
    unfold joinWithSpaces
    cases ws with
    | nil => rfl
    | cons w ws =>
      rw [List.map_cons, intercalate_space_eq]
      have hw := hws' w (List.mem_cons_self _ _)
      have hmap : (ws.map String.data).map (fun w => ' ' :: w) =
          ws.map (fun w => ' ' :: w.data) := by
        rw [List.map_map]
        rfl
      rw [hmap, splitFrom_append w.data hw.2, List.nil_append,
        splitFrom_spaced_words ws (fun w' hw' => hws' w' (List.mem_cons_of_mem _ hw'))
          w.data hw.1]

/-- C17, on a text with spaces in front, behind and in pairs, and on two
words joined by a space. -/
theorem SplitIntoWords_spec_witness :
    SplitIntoWords "  cat  in the city " = ["cat", "in", "the", "city"] ∧
    maximalRuns "  cat  in the city " = ["cat", "in", "the", "city"] ∧
    joinWithSpaces ["big", "city"] = "big city" ∧
    SplitIntoWords (joinWithSpaces ["big", "city"]) = ["big", "city"] := by
  obtain ⟨h1, _, _, h4⟩ := SplitIntoWords_spec "  cat  in the city "
  refine ⟨by decide!, ?_, by decide!, ?_⟩
  · rw [← h1]
    decide!
  · exact (SplitIntoWords_spec "").2.2.2 ["big", "city"] (by decide)

/-! ## The words of a parsed query -/

theorem ParseQuery_eq_foldl (s : Server) (text : String) :
    ParseQuery s text = (SplitIntoWords text).foldl (parseStep s) ⟨[], []⟩ := rfl

/-- One step of the loop of `ParseQuery`. -/
theorem mem_parseStep (s : Server) (query : Query) (word w : String) :
    (w ∈ (parseStep s query word).plus_words ↔
      w ∈ query.plus_words ∨ ((ParseQueryWord s word).is_stop = false ∧
        (ParseQueryWord s word).is_minus = false ∧ (ParseQueryWord s word).data = w)) ∧
    (w ∈ (parseStep s query word).minus_words ↔
      w ∈ query.minus_words ∨ ((ParseQueryWord s word).is_stop = false ∧
        (ParseQueryWord s word).is_minus = true ∧ (ParseQueryWord s word).data = w)) := by
  unfold parseStep
  cases hstop : (ParseQueryWord s word).is_stop <;>
  cases hminus : (ParseQueryWord s word).is_minus <;>
  simp [hstop, hminus, mem_setInsert, or_comm, eq_comm]

/-- The loop of `ParseQuery`. -/
theorem mem_parseStep_foldl (s : Server) (words : List String) (query : Query) (w : String) :
    (w ∈ (words.foldl (parseStep s) query).plus_words ↔
      w ∈ query.plus_words ∨ ∃ word ∈ words, (ParseQueryWord s word).is_stop = false ∧
        (ParseQueryWord s word).is_minus = false ∧ (ParseQueryWord s word).data = w) ∧
    (w ∈ (words.foldl (parseStep s) query).minus_words ↔
      w ∈ query.minus_words ∨ ∃ word ∈ words, (ParseQueryWord s word).is_stop = false ∧
        (ParseQueryWord s word).is_minus = true ∧ (ParseQueryWord s word).data = w) := by
  induction words generalizing query with
  | nil => simp
  | cons word rest ih =>
    rw [List.foldl_cons]
    have h := ih (parseStep s query word)
    have hstep := mem_parseStep s query word w
    rw [h.1, h.2, hstep.1, hstep.2]
    simp only [List.mem_cons, exists_eq_or_imp, or_assoc]
    exact ⟨trivial, trivial⟩

/-- The plus-words and the minus-words of a parsed query. -/
theorem mem_ParseQuery (s : Server) (text : String) (w : String) :
    (w ∈ (ParseQuery s text).plus_words ↔
      ∃ word ∈ SplitIntoWords text, (ParseQueryWord s word).is_stop = false ∧
        (ParseQueryWord s word).is_minus = false ∧ (ParseQueryWord s word).data = w) ∧
    (w ∈ (ParseQuery s text).minus_words ↔
      ∃ word ∈ SplitIntoWords text, (ParseQueryWord s word).is_stop = false ∧
        (ParseQueryWord s word).is_minus = true ∧ (ParseQueryWord s word).data = w) := by
  have h := mem_parseStep_foldl s (SplitIntoWords text) ⟨[], []⟩ w
  rw [ParseQuery_eq_foldl]
  constructor
  · rw [h.1]
    simp
  · rw [h.2]
    simp

theorem SplitIntoWords_ne_empty {text word : String} (h : word ∈ SplitIntoWords text) :
    word ≠ "" := by
  rw [SplitIntoWords_eq_splitFrom] at h
  intro hword
  exact (splitFrom_tokens text.data [] (by simp) word h).1 (by rw [hword])

/-- The query word of a word with a leading `-`. -/
theorem ParseQueryWord_minus (s : Server) (word : String) (rest : List Char)
    (h : word.data = '-' :: rest) :
    ParseQueryWord s word = ⟨String.mk rest, true, IsStopWord s (String.mk rest)⟩ := by
  unfold ParseQueryWord
  split
  · rename_i rest' heq
    rw [h] at heq
    have hrest : rest = rest' := by
      simpa using heq
    rw [hrest]
  · rename_i hne
    exact absurd h (hne rest)

/-- The query word of a word without a leading `-`. -/
theorem ParseQueryWord_plus (s : Server) (word : String)
    (h : ∀ rest, word.data ≠ '-' :: rest) :
    ParseQueryWord s word = ⟨word, false, IsStopWord s word⟩ := by
  unfold ParseQueryWord
  split
  · rename_i rest heq
    exact absurd heq (h rest)
  · rfl

theorem ParseQueryWord_cases (s : Server) (word : String) :
    (∃ rest, word.data = '-' :: rest ∧
      ParseQueryWord s word = ⟨String.mk rest, true, IsStopWord s (String.mk rest)⟩) ∨
    ((∀ rest, word.data ≠ '-' :: rest) ∧
      ParseQueryWord s word = ⟨word, false, IsStopWord s word⟩) := by
  by_cases h : ∃ rest, word.data = '-' :: rest
  · obtain ⟨rest, hrest⟩ := h
    exact Or.inl ⟨rest, hrest, ParseQueryWord_minus s word rest hrest⟩
  · have h' : ∀ rest, word.data ≠ '-' :: rest := fun rest hrest => h ⟨rest, hrest⟩
    exact Or.inr ⟨h', ParseQueryWord_plus s word h'⟩

theorem stop_words_ne_empty_foldl (words : List String) (stop : List String)
    (hwords : ∀ w ∈ words, w ≠ "") (hstop : "" ∉ stop) :
    "" ∉ words.foldl setInsert stop := by
  induction words generalizing stop with
  | nil => exact hstop
  | cons w words ih =>
    rw [List.foldl_cons]
    apply ih _ (fun w' hw' => hwords w' (List.mem_cons_of_mem _ hw'))
    rw [mem_setInsert]
    rintro (h | h)
    · exact hwords w (List.mem_cons_self _ _) h.symm
    · exact hstop h

/-- The empty string is no stop word of a reachable state. -/
theorem Reachable.empty_not_stop {s : Server} (h : Reachable s) : "" ∉ s.stop_words_ := by
  induction h with
  | empty => simp [Server.empty]
  | setStopWords s text _ ih =>
    exact stop_words_ne_empty_foldl _ _ (fun w hw => SplitIntoWords_ne_empty hw) ih
  | addDocument s id document status ratings _ ih => exact ih

/-- C13, as amended: `ParseQuery` rejects no query. For every server state
and every raw query the empty string is never a plus-word of the parsed query,
and it is a minus-word exactly when the query has the word `-` and the empty
string is no stop word; in a reachable state the empty string is no stop word,
so it is a minus-word exactly when the query has the word `-`. -/
theorem ParseQuery_empty_word (s : Server) (raw_query : String) :
    "" ∉ (ParseQuery s raw_query).plus_words ∧
    ("" ∈ (ParseQuery s raw_query).minus_words ↔
      "-" ∈ SplitIntoWords raw_query ∧ "" ∉ s.stop_words_) ∧
    (Reachable s →
      ("" ∈ (ParseQuery s raw_query).minus_words ↔ "-" ∈ SplitIntoWords raw_query)) := by
  have hminus : "" ∈ (ParseQuery s raw_query).minus_words ↔
      "-" ∈ SplitIntoWords raw_query ∧ "" ∉ s.stop_words_ := by
    rw [(mem_ParseQuery s raw_query "").2]
    constructor
    · rintro ⟨word, hword, hstop, _, hdata⟩
      rcases ParseQueryWord_cases s word with ⟨rest, hrest, hparse⟩ | ⟨_, hparse⟩
      · rw [hparse] at hstop hdata
        simp only at hstop hdata
        have hrest' : rest = [] := by
          have := congrArg String.data hdata
          simpa using this
        subst hrest'
        have hw : word = "-" := String.ext hrest
        subst hw
        refine ⟨hword, ?_⟩
        unfold IsStopWord at hstop
        simpa using hstop
      · rw [hparse] at hdata
        simp only at hdata
        exact absurd hdata (SplitIntoWords_ne_empty hword)
    · rintro ⟨hword, hstop⟩
      refine ⟨"-", hword, ?_, ?_, ?_⟩
      · rw [ParseQueryWord_minus s "-" [] rfl]
        unfold IsStopWord
        simpa using hstop
      · rw [ParseQueryWord_minus s "-" [] rfl]
      · rw [ParseQueryWord_minus s "-" [] rfl]
  refine ⟨?_, hminus, ?_⟩
  · rw [(mem_ParseQuery s raw_query "").1]
    rintro ⟨word, hword, _, hminus', hdata⟩
    rcases ParseQueryWord_cases s word with ⟨rest, _, hparse⟩ | ⟨_, hparse⟩
    · rw [hparse] at hminus'
      exact Bool.noConfusion hminus'
    · rw [hparse] at hdata
      simp only at hdata
      exact absurd hdata (SplitIntoWords_ne_empty hword)
  · intro hs
    rw [hminus]
    exact ⟨fun h => h.1, fun h => ⟨h, hs.empty_not_stop⟩⟩

/-- C13 fails as it is stated: the query `cat -` is not rejected, and the
empty string is a minus-word of the parsed query. -/
theorem ParseQuery_lone_minus_counterexample :
    SplitIntoWords "cat -" = ["cat", "-"] ∧
    ParseQuery Server.empty "cat -" = ⟨["cat"], [""]⟩ ∧
    "" ∈ (ParseQuery Server.empty "cat -").minus_words := by
  refine ⟨?_, ?_, ?_⟩ <;> decide!

/-- C13 as amended, on the fresh server and the queries `cat -` and
`cat -dog`: the empty string is a minus-word of the first and not of the
second, and a plus-word of neither. -/
theorem ParseQuery_empty_word_witness :
    Reachable Server.empty ∧
    "-" ∈ SplitIntoWords "cat -" ∧
    "" ∈ (ParseQuery Server.empty "cat -").minus_words ∧
    "" ∉ (ParseQuery Server.empty "cat -").plus_words ∧
    "-" ∉ SplitIntoWords "cat -dog" ∧
    "" ∉ (ParseQuery Server.empty "cat -dog").minus_words := by
  obtain ⟨h1, _, h3⟩ := ParseQuery_empty_word Server.empty "cat -"
  obtain ⟨_, _, h3'⟩ := ParseQuery_empty_word Server.empty "cat -dog"
  have hmem : "-" ∈ SplitIntoWords "cat -" := by decide!
  have hnot : "-" ∉ SplitIntoWords "cat -dog" := by decide!
  exact ⟨Reachable.empty, hmem, (h3 Reachable.empty).2 hmem, h1, hnot,
    fun h => hnot ((h3' Reachable.empty).1 h)⟩

/-! ## The sum of the term frequencies of a document -/

theorem sum_mapInsertNew {K V : Type} [LinearOrder K] (h : V → ℚ) (m : List (K × V)) (k : K)
    (v : V) :
    ((mapInsertNew m k v).map (fun e => h e.2)).sum = h v + (m.map (fun e => h e.2)).sum := by
  induction m with
  | nil => simp [mapInsertNew]
  | cons e m ih =>
    obtain ⟨k', v'⟩ := e
    unfold mapInsertNew
    split
    · simp
    · simp only [List.map_cons, List.sum_cons, ih]
      ring

theorem sum_mapReplace {K V : Type} [DecidableEq K] (h : V → ℚ) (m : List (K × V)) (k : K)
    (v old : V) (hold : mapFind m k = some old) :
    ((mapReplace m k v).map (fun e => h e.2)).sum =
      (m.map (fun e => h e.2)).sum - h old + h v := by
  induction m with
  | nil => simp [mapFind] at hold
  | cons e m ih =>
    obtain ⟨k', v'⟩ := e
    by_cases hk : k = k'
    · simp only [mapFind, hk, if_true, Option.some.injEq] at hold
      subst hold
      simp only [mapReplace, hk, if_true, List.map_cons, List.sum_cons]
      ring
    · simp only [mapFind, hk, if_false] at hold
      simp only [mapReplace, hk, if_false, List.map_cons, List.sum_cons, ih hold]
      ring

theorem sum_mapUpdate {K V : Type} [DecidableEq K] [LinearOrder K] (h : V → ℚ)
    (m : List (K × V)) (k : K) (dflt : V) (f : V → V) :
    ((mapUpdate m k dflt f).map (fun e => h e.2)).sum =
      match mapFind m k with
      | some v => (m.map (fun e => h e.2)).sum - h v + h (f v)
      | none => h (f dflt) + (m.map (fun e => h e.2)).sum := by
  unfold mapUpdate
  cases hk : mapFind m k with
  | none => exact sum_mapInsertNew h m k _
  | some v => exact sum_mapReplace h m k _ v hk

/-- One step of the loop of `AddDocument` adds `inv_word_count` to the sum of
the frequencies of the document, and nothing to the sum of another one. -/
theorem sum_index_mapUpdate (index : List (String × List (Int × ℚ))) (w : String) (id : Int)
    (inv : ℚ) (id' : Int) :
    ((mapUpdate index w [] (fun docs => mapUpdate docs id 0 (fun tf => tf + inv))).map
        (fun e => (mapFind e.2 id').getD 0)).sum =
      (index.map (fun e => (mapFind e.2 id').getD 0)).sum + if id' = id then inv else 0 := by
  have hg : ∀ docs : List (Int × ℚ),
      (mapFind (mapUpdate docs id 0 (fun tf => tf + inv)) id').getD 0 =
        (mapFind docs id').getD 0 + if id' = id then inv else 0 := by
    intro docs
    rw [mapFind_mapUpdate]
    by_cases hid : id' = id
    · subst hid
      simp
    · simp [hid]
  rw [sum_mapUpdate (fun docs => (mapFind docs id').getD 0)]
  cases hw : mapFind index w with
  | none =>
    simp only
    rw [hg]
    simp [mapFind]
    ring
  | some docs =>
    simp only
    rw [hg]
    ring

theorem sum_index_foldl (id : Int) (inv : ℚ) (words : List String)
    (index : List (String × List (Int × ℚ))) (id' : Int) :
    ((words.foldl (fun freqs w => mapUpdate freqs w []
        (fun docs => mapUpdate docs id 0 (fun tf => tf + inv))) index).map
        (fun e => (mapFind e.2 id').getD 0)).sum =
      (index.map (fun e => (mapFind e.2 id').getD 0)).sum +
        if id' = id then (words.length : ℚ) * inv else 0 := by
  induction words generalizing index with
  | nil => simp
  | cons w words ih =>
    rw [List.foldl_cons, ih, sum_index_mapUpdate]
    by_cases hid : id' = id
    · simp only [hid, if_true, List.length_cons]
      push_cast
      ring
    · simp [hid]

/-- The sum of the frequencies of a document after `AddDocument`. -/
theorem freqSum_addDocument (s : Server) (id : Int) (document : String)
    (status : DocumentStatus) (ratings : List Int) (id' : Int) :
    freqSum (AddDocument s id document status ratings) id' =
      freqSum s id' + if id' = id ∧ SplitIntoWordsNoStop s document ≠ [] then 1 else 0 := by
  have h := sum_index_foldl id (1 / ((SplitIntoWordsNoStop s document).length : ℚ))
    (SplitIntoWordsNoStop s document) s.word_to_document_freqs_ id'
  have hsum : freqSum (AddDocument s id document status ratings) id' =
      freqSum s id' + if id' = id then
        ((SplitIntoWordsNoStop s document).length : ℚ) *
          (1 / ((SplitIntoWordsNoStop s document).length : ℚ)) else 0 := h
  rw [hsum]
  by_cases hid : id' = id
  · by_cases hw : SplitIntoWordsNoStop s document = []
    · simp [hid, hw]
    · have hlen : ((SplitIntoWordsNoStop s document).length : ℚ) ≠ 0 := by
        have : (SplitIntoWordsNoStop s document).length ≠ 0 := by
          rwa [Ne, List.length_eq_zero]
        exact_mod_cast this
      simp only [hid, hw, if_true, ne_eq, not_false_eq_true, and_self]
      rw [mul_one_div, div_self hlen]
  · simp [hid]

/-- The sum of the frequencies of a document after a sequence of calls of
`AddDocument` is the sum before them plus the number of the calls for this
document whose text has a word left by the stop words. -/
theorem freqSum_addDocuments (s : Server) (calls : List AddDocumentCall) (id : Int) :
    freqSum (addDocuments s calls) id =
      freqSum s id +
        ((calls.filter (fun c => decide (c.document_id = id) &&
          decide (SplitIntoWordsNoStop s c.document ≠ []))).length : ℚ) := by
  induction calls generalizing s with
  | nil => simp [addDocuments]
  | cons c calls ih =>
    rw [show addDocuments s (c :: calls) =
      addDocuments (AddDocument s c.document_id c.document c.status c.ratings) calls from rfl,
      ih, freqSum_addDocument]
    have hcongr : ∀ c' : AddDocumentCall,
        SplitIntoWordsNoStop (AddDocument s c.document_id c.document c.status c.ratings)
          c'.document = SplitIntoWordsNoStop s c'.document :=
      fun c' => SplitIntoWordsNoStop_congr (stop_words_addDocument _ _ _ _ _) _
    simp only [hcongr]
    by_cases hid : c.document_id = id
    · by_cases hw : SplitIntoWordsNoStop s c.document = []
      · simp [List.filter_cons, hid, hw]
      · simp [List.filter_cons, hid, hw]
        ring
    · have hid' : ¬ id = c.document_id := fun h => hid h.symm
      simp [List.filter_cons, hid, hid']

theorem length_filter_eq_one_of_nodup (calls : List AddDocumentCall)
    (hnd : (calls.map (fun c => c.document_id)).Nodup) (c : AddDocumentCall) (hc : c ∈ calls) :
    (calls.filter (fun c' => decide (c'.document_id = c.document_id))).length = 1 := by
  induction calls with
  | nil => simp at hc
  | cons c₀ calls ih =>
    simp only [List.map_cons, List.nodup_cons] at hnd
    rcases List.mem_cons.1 hc with rfl | hc'
    · have hnone : calls.filter (fun c' => decide (c'.document_id = c.document_id)) = [] := by
        rw [List.filter_eq_nil_iff]
        intro c' hc' h
        have := of_decide_eq_true h
        exact hnd.1 (this ▸ List.mem_map_of_mem (fun c => c.document_id) hc')
      simp [List.filter_cons, hnone]
    · have hne : ¬ c₀.document_id = c.document_id := by
        intro h
        exact hnd.1 (h ▸ List.mem_map_of_mem (fun c => c.document_id) hc')
      simp [List.filter_cons, hne, ih hnd.2 hc']

theorem freqSum_of_empty_index (s : Server) (h : s.word_to_document_freqs_ = []) (id : Int) :
    freqSum s id = 0 := by
  unfold freqSum
  rw [h]
  rfl

/-- C14, as amended: `SetStopWords` leaves the sum of the term frequencies
stored for a document id as it is, and `AddDocument` adds exactly 1 to the sum
of its id when its text has a word left by the stop words, and nothing
otherwise. So on a server built from one without documents by calls of
`AddDocument`, the sum for an id is the number of the calls with this id whose
text has a word left by the stop words; when the ids of the calls are pairwise
distinct and every text has such a word, the sum is exactly 1 for every id of
the document store. -/
theorem term_frequencies_sum (s : Server) :
    (∀ text id, freqSum (SetStopWords s text) id = freqSum s id) ∧
    (∀ document_id document status ratings id,
      freqSum (AddDocument s document_id document status ratings) id =
        freqSum s id +
          if id = document_id ∧ SplitIntoWordsNoStop s document ≠ [] then 1 else 0) ∧
    (s.word_to_document_freqs_ = [] → s.documents_ = [] →
      ∀ calls : List AddDocumentCall,
        (∀ id, freqSum (addDocuments s calls) id =
          ((calls.filter (fun c => decide (c.document_id = id) &&
            decide (SplitIntoWordsNoStop s c.document ≠ []))).length : ℚ)) ∧
        ((calls.map (fun c => c.document_id)).Nodup →
          (∀ c ∈ calls, SplitIntoWordsNoStop s c.document ≠ []) →
          ∀ id ∈ mapKeys (addDocuments s calls).documents_,
            freqSum (addDocuments s calls) id = 1)) := by
  refine ⟨fun _ _ => rfl, fun document_id document status ratings id =>
    freqSum_addDocument s document_id document status ratings id, ?_⟩
  intro hindex hdocs calls
  have hcount : ∀ id, freqSum (addDocuments s calls) id =
      ((calls.filter (fun c => decide (c.document_id = id) &&
        decide (SplitIntoWordsNoStop s c.document ≠ []))).length : ℚ) := by
    intro id
    rw [freqSum_addDocuments, freqSum_of_empty_index s hindex, zero_add]
  refine ⟨hcount, ?_⟩
  intro hnd hwords id hid
  obtain ⟨data, hdata⟩ := Option.isSome_iff_exists.1 ((mapFind_isSome_iff _ _).2 hid)
  have hc : ∃ c ∈ calls, c.document_id = id := by
    rcases mem_of_mapFind_documents_addDocuments s calls id data hdata with h | h
    · rw [hdocs] at h
      simp [mapFind] at h
    · exact h
  obtain ⟨c, hc, rfl⟩ := hc
  rw [hcount]
  have hfilter : calls.filter (fun c' => decide (c'.document_id = c.document_id) &&
      decide (SplitIntoWordsNoStop s c'.document ≠ [])) =
      calls.filter (fun c' => decide (c'.document_id = c.document_id)) := by
    apply List.filter_congr
    intro c' hc'
    have := hwords c' hc'
    simp [this]
  rw [hfilter, length_filter_eq_one_of_nodup calls hnd c hc]
  norm_num

/-- C14 fails as it is stated: after two calls of `AddDocument` for the id 1,
with the texts `a` and `b`, the frequencies stored for the document 1 sum to 2;
and after a call of `AddDocument` for the id 1 with the empty text on the
fresh server, the document 1 is in the store and its frequencies sum to 0. -/
theorem term_frequencies_sum_counterexample :
    Reachable (AddDocument oneDocumentServer 1 "b" DocumentStatus.ACTUAL [1]) ∧
    (1 : Int) ∈ mapKeys (AddDocument oneDocumentServer 1 "b" DocumentStatus.ACTUAL
      [1]).documents_ ∧
    freqSum (AddDocument oneDocumentServer 1 "b" DocumentStatus.ACTUAL [1]) 1 = 2 ∧
    Reachable (AddDocument Server.empty 1 "" DocumentStatus.ACTUAL [1]) ∧
    (1 : Int) ∈ mapKeys (AddDocument Server.empty 1 "" DocumentStatus.ACTUAL [1]).documents_ ∧
    freqSum (AddDocument Server.empty 1 "" DocumentStatus.ACTUAL [1]) 1 = 0 := by
  refine ⟨Reachable.addDocument _ _ _ _ _ oneDocumentServer_reachable, ?_, ?_,
    Reachable.addDocument _ _ _ _ _ Reachable.empty, ?_, ?_⟩ <;> decide!

/-- C14 as amended, on the second server of
`TestRelevanceCalculationAndRelevanceSort`: the ids 0, 1 and 3 are distinct and
every text has words, and the frequencies of each document sum to 1. -/
theorem term_frequencies_sum_witness :
    mapKeys relevanceServer.documents_ = [0, 1, 3] ∧
    freqSum relevanceServer 0 = 1 ∧ freqSum relevanceServer 1 = 1 ∧
    freqSum relevanceServer 3 = 1 := by
  obtain ⟨_, _, h⟩ := term_frequencies_sum Server.empty
  obtain ⟨_, hone⟩ := h rfl rfl
    [⟨0, "test text with no dark jokes text", DocumentStatus.ACTUAL, [1, 2, 3]⟩,
     ⟨1, "empty jar", DocumentStatus.ACTUAL, [1, 2, 3]⟩,
     ⟨3, "jar with nutella", DocumentStatus.ACTUAL, [1, 2, 3]⟩]
  have hkeys : mapKeys relevanceServer.documents_ = [0, 1, 3] := by decide!
  have hone' := hone (by decide) (by decide!)
  refine ⟨hkeys, ?_, ?_, ?_⟩
  · exact hone' 0 (by rw [show (addDocuments Server.empty _) = relevanceServer from rfl, hkeys]
                      decide)
  · exact hone' 1 (by rw [show (addDocuments Server.empty _) = relevanceServer from rfl, hkeys]
                      decide)
  · exact hone' 3 (by rw [show (addDocuments Server.empty _) = relevanceServer from rfl, hkeys]
                      decide)

/-! ## The invariant of the index -/

theorem mem_mapInsertNew {K V : Type} [LinearOrder K] (m : List (K × V)) (k : K) (v : V)
    (e : K × V) : e ∈ mapInsertNew m k v ↔ e = (k, v) ∨ e ∈ m := by
  induction m with
  | nil => simp [mapInsertNew]
  | cons e' m ih =>
    obtain ⟨k', v'⟩ := e'
    unfold mapInsertNew
    split
    · simp
    · simp only [List.mem_cons, ih]
      tauto

theorem mem_mapReplace {K V : Type} [DecidableEq K] (m : List (K × V)) (k : K) (v : V)
    (e : K × V) (h : e ∈ mapReplace m k v) : e = (k, v) ∨ e ∈ m := by
  induction m with
  | nil => simp [mapReplace] at h
  | cons e' m ih =>
    obtain ⟨k', v'⟩ := e'
    by_cases hk : k = k'
    · simp only [mapReplace, hk, if_true, List.mem_cons] at h
      rcases h with h | h
      · exact Or.inl (by rw [h, hk])
      · exact Or.inr (List.mem_cons_of_mem _ h)
    · simp only [mapReplace, hk, if_false, List.mem_cons] at h
      rcases h with h | h
      · exact Or.inr (by rw [h]; exact List.mem_cons_self _ _)
      · exact (ih h).imp_right (List.mem_cons_of_mem _)

/-- An entry of a map after `m[k] = f(m[k])` is an entry of the map before or
the entry of `k`, whose value is `f` of the old value or of the default. -/
theorem mem_mapUpdate {K V : Type} [DecidableEq K] [LinearOrder K] (m : List (K × V)) (k : K)
    (dflt : V) (f : V → V) (e : K × V) (h : e ∈ mapUpdate m k dflt f) :
    e ∈ m ∨ (e = (k, f dflt) ∧ mapFind m k = none) ∨
      ∃ v, (k, v) ∈ m ∧ e = (k, f v) := by
  unfold mapUpdate at h
  cases hk : mapFind m k with
  | none =>
    rw [hk] at h
    rcases (mem_mapInsertNew m k _ e).1 h with h | h
    · exact Or.inr (Or.inl ⟨h, rfl⟩)
    · exact Or.inl h
  | some v =>
    rw [hk] at h
    rcases mem_mapReplace m k _ e h with h | h
    · exact Or.inr (Or.inr ⟨v, mem_of_mapFind_eq_some hk, h⟩)
    · exact Or.inl h

theorem mapUpdate_ne_nil {K V : Type} [DecidableEq K] [LinearOrder K] (m : List (K × V))
    (k : K) (dflt : V) (f : V → V) : mapUpdate m k dflt f ≠ [] := by
  intro h
  have := mapFind_mapUpdate m k k dflt f
  rw [h] at this
  simp [mapFind] at this

/-- The loop of `AddDocument` keeps the invariant of the index, for a set of
ids that holds the id of the document and a positive `inv_word_count`. -/
theorem invariant_foldl (keys : List Int) (id : Int) (hid : id ∈ keys) (inv : ℚ)
    (hinv : 0 < inv) (words : List String) (index : List (String × List (Int × ℚ)))
    (h : ∀ e ∈ index, e.2 ≠ [] ∧ ∀ p ∈ e.2, p.1 ∈ keys ∧ 0 < p.2) :
    ∀ e ∈ words.foldl (fun freqs w => mapUpdate freqs w []
        (fun docs => mapUpdate docs id 0 (fun tf => tf + inv))) index,
      e.2 ≠ [] ∧ ∀ p ∈ e.2, p.1 ∈ keys ∧ 0 < p.2 := by
  induction words generalizing index with
  | nil => exact h
  | cons w words ih =>
    rw [List.foldl_cons]
    apply ih
    have hentry : ∀ docs : List (Int × ℚ), (∀ p ∈ docs, p.1 ∈ keys ∧ 0 < p.2) →
        ∀ p ∈ mapUpdate docs id 0 (fun tf => tf + inv), p.1 ∈ keys ∧ 0 < p.2 := by
      intro docs hdocs p hp
      rcases mem_mapUpdate docs id 0 _ p hp with hp | ⟨hp, _⟩ | ⟨v, hv, hp⟩
      · exact hdocs p hp
      · rw [hp]
        exact ⟨hid, by simpa using hinv⟩
      · rw [hp]
        exact ⟨hid, add_pos (hdocs _ hv).2 hinv⟩
    intro e he
    rcases mem_mapUpdate index w [] _ e he with he | ⟨he, _⟩ | ⟨docs, hdocs, he⟩
    · exact h e he
    · rw [he]
      refine ⟨?_, hentry [] (fun p hp => absurd hp (List.not_mem_nil p))⟩
      show mapUpdate [] id 0 (fun tf => tf + inv) ≠ []
      exact mapUpdate_ne_nil _ _ _ _
    · rw [he]
      refine ⟨?_, hentry docs (h _ hdocs).2⟩
      show mapUpdate docs id 0 (fun tf => tf + inv) ≠ []
      exact mapUpdate_ne_nil _ _ _ _

theorem mem_mapKeys_mapEmplace {K V : Type} [DecidableEq K] [LinearOrder K] (m : List (K × V))
    (k k' : K) (v : V) : k' ∈ mapKeys (mapEmplace m k v) ↔ k' = k ∨ k' ∈ mapKeys m := by
  rw [← mapFind_isSome_iff, mapFind_mapEmplace, ← mapFind_isSome_iff]
  by_cases h : k' = k
  · simp [h]
  · simp [h]

theorem indexInvariant_empty : IndexInvariant Server.empty :=
  ⟨fun e he => absurd he (List.not_mem_nil e), fun e he => absurd he (List.not_mem_nil e),
    fun e he => absurd he (List.not_mem_nil e)⟩

theorem indexInvariant_setStopWords (s : Server) (text : String) (h : IndexInvariant s) :
    IndexInvariant (SetStopWords s text) :=
  ⟨h.ids, h.nonempty, h.positive⟩

theorem indexInvariant_addDocument (s : Server) (id : Int) (document : String)
    (status : DocumentStatus) (ratings : List Int) (h : IndexInvariant s) :
    IndexInvariant (AddDocument s id document status ratings) := by
  have hkeys : ∀ id', id' ∈ mapKeys s.documents_ →
      id' ∈ mapKeys (AddDocument s id document status ratings).documents_ := by
    intro id' hid'
    rw [documents_addDocument, mem_mapKeys_mapEmplace]
    exact Or.inr hid'
  have hid : id ∈ mapKeys (AddDocument s id document status ratings).documents_ := by
    rw [documents_addDocument, mem_mapKeys_mapEmplace]
    exact Or.inl rfl
  have hall : ∀ e ∈ (AddDocument s id document status ratings).word_to_document_freqs_,
      e.2 ≠ [] ∧ ∀ p ∈ e.2,
        p.1 ∈ mapKeys (AddDocument s id document status ratings).documents_ ∧ 0 < p.2 := by
    have hold : ∀ e ∈ s.word_to_document_freqs_, e.2 ≠ [] ∧ ∀ p ∈ e.2,
        p.1 ∈ mapKeys (AddDocument s id document status ratings).documents_ ∧ 0 < p.2 :=
      fun e he => ⟨h.nonempty e he, fun p hp => ⟨hkeys _ (h.ids e he p hp), h.positive e he p hp⟩⟩
    by_cases hw : SplitIntoWordsNoStop s document = []
    · rw [index_addDocument_of_no_words s id document status ratings hw]
      exact hold
    · have hlen : (0 : ℚ) < ((SplitIntoWordsNoStop s document).length : ℚ) := by
        have : 0 < (SplitIntoWordsNoStop s document).length := List.length_pos.2 hw
        exact_mod_cast this
      exact invariant_foldl _ id hid (1 / ((SplitIntoWordsNoStop s document).length : ℚ))
        (one_div_pos.2 hlen) (SplitIntoWordsNoStop s document) s.word_to_document_freqs_ hold
  exact ⟨fun e he p hp => ((hall e he).2 p hp).1, fun e he => (hall e he).1,
    fun e he p hp => ((hall e he).2 p hp).2⟩

theorem Reachable.indexInvariant {s : Server} (h : Reachable s) : IndexInvariant s := by
  induction h with
  | empty => exact indexInvariant_empty
  | setStopWords s text _ ih => exact indexInvariant_setStopWords s text ih
  | addDocument s id document status ratings _ ih =>
    exact indexInvariant_addDocument s id document status ratings ih

theorem mem_mapKeys_mapUpdate {K V : Type} [DecidableEq K] [LinearOrder K] (m : List (K × V))
    (k k' : K) (dflt : V) (f : V → V) :
    k' ∈ mapKeys (mapUpdate m k dflt f) ↔ k' = k ∨ k' ∈ mapKeys m := by
  rw [← mapFind_isSome_iff, mapFind_mapUpdate, ← mapFind_isSome_iff]
  by_cases h : k' = k
  · simp [h]
  · simp [h]

theorem collectDocuments_total {R : Type} (s : Server) (m : List (Int × R))
    (hm : ∀ id ∈ mapKeys m, id ∈ mapKeys s.documents_) :
    ∃ l, collectDocuments s m = some l ∧ ∀ d ∈ l, d.id ∈ mapKeys s.documents_ := by
  induction m with
  | nil => exact ⟨[], rfl, fun d hd => absurd hd (List.not_mem_nil d)⟩
  | cons e m ih =>
    obtain ⟨id, relevance⟩ := e
    have hid : id ∈ mapKeys s.documents_ := hm id (List.mem_cons_self _ _)
    obtain ⟨data, hdata⟩ := Option.isSome_iff_exists.1 ((mapFind_isSome_iff _ _).2 hid)
    obtain ⟨l, hl, hl'⟩ := ih (fun id' hid' => hm id' (List.mem_cons_of_mem _ hid'))
    refine ⟨⟨id, relevance, data.rating⟩ :: l, ?_, ?_⟩
    · simp only [collectDocuments, mapAt, hdata, hl]
      rfl
    · intro d hd
      rcases List.mem_cons.1 hd with rfl | hd
      · exact hid
      · exact hl' d hd

theorem keepFiltered_total {R : Type} (s : Server) (filter : Int → DocumentStatus → Int → Bool)
    (l : List (Document R)) (hl : ∀ d ∈ l, d.id ∈ mapKeys s.documents_) :
    ∃ l', keepFiltered s filter l = some l' := by
  induction l with
  | nil => exact ⟨[], rfl⟩
  | cons d l ih =>
    have hid : d.id ∈ mapKeys s.documents_ := hl d (List.mem_cons_self _ _)
    obtain ⟨data, hdata⟩ := Option.isSome_iff_exists.1 ((mapFind_isSome_iff _ _).2 hid)
    obtain ⟨l', hl'⟩ := ih (fun d' hd' => hl d' (List.mem_cons_of_mem _ hd'))
    by_cases hf : filter d.id data.status d.rating = true
    · exact ⟨d :: l', by simp [keepFiltered, mapAt, hdata, hl', hf]⟩
    · exact ⟨l', by simp [keepFiltered, mapAt, hdata, hl', hf]⟩

section Total

variable {R : Type} [LinearOrderedField R]

/-- In every state the inner loop of `FindAllDocuments` does not throw, and
puts only documents of the store into the map. -/
theorem addWordRelevance_total (s : Server) (filter : Int → DocumentStatus → Int → Bool)
    (idf : R) (docs : List (Int × ℚ)) (acc : List (Int × R))
    (hacc : ∀ id ∈ mapKeys acc, id ∈ mapKeys s.documents_) :
    ∃ acc', addWordRelevance s filter idf docs acc = some acc' ∧
      ∀ id ∈ mapKeys acc', id ∈ mapKeys s.documents_ := by
  induction docs generalizing acc with
  | nil => exact ⟨acc, rfl, hacc⟩
  | cons e rest ih =>
    obtain ⟨id₀, tf₀⟩ := e
    cases hd : mapFind s.documents_ id₀ with
    | none =>
      obtain ⟨acc', h', hk'⟩ := ih acc hacc
      refine ⟨acc', ?_, hk'⟩
      simp [addWordRelevance, (mapCount_eq_zero_iff _ _).2 hd, h']
    | some data =>
      have hc : mapCount s.documents_ id₀ ≠ 0 := by
        rw [Ne, mapCount_eq_zero_iff, hd]
        simp
      have hmem : id₀ ∈ mapKeys s.documents_ := by
        rw [← mapFind_isSome_iff, hd]
        rfl
      by_cases hf : filter id₀ data.status data.rating = true
      · obtain ⟨acc', h', hk'⟩ := ih
          (mapUpdate acc id₀ 0 (fun relevance => relevance + (tf₀ : R) * idf)) (by
            intro id hid
            rcases (mem_mapKeys_mapUpdate _ _ _ _ _).1 hid with h | h
            · rw [h]
              exact hmem
            · exact hacc id h)
        refine ⟨acc', ?_, hk'⟩
        simp [addWordRelevance, hc, mapAt, hd, hf, h']
      · obtain ⟨acc', h', hk'⟩ := ih acc hacc
        refine ⟨acc', ?_, hk'⟩
        simp [addWordRelevance, hc, mapAt, hd, hf, h']

/-- In every state the loop over the plus-words does not throw, and puts only
documents of the store into the map. -/
theorem addPlusWords_total (ln : ℚ → R) (s : Server)
    (filter : Int → DocumentStatus → Int → Bool) (words : List String) (acc : List (Int × R))
    (hacc : ∀ id ∈ mapKeys acc, id ∈ mapKeys s.documents_) :
    ∃ acc', addPlusWords ln s filter words acc = some acc' ∧
      ∀ id ∈ mapKeys acc', id ∈ mapKeys s.documents_ := by
  induction words generalizing acc with
  | nil => exact ⟨acc, rfl, hacc⟩
  | cons word rest ih =>
    cases hw : mapFind s.word_to_document_freqs_ word with
    | none =>
      obtain ⟨acc', h', hk'⟩ := ih acc hacc
      refine ⟨acc', ?_, hk'⟩
      rw [addPlusWords, if_pos ((mapCount_eq_zero_iff _ _).2 hw), h']
    | some docs =>
      have hc : ¬ mapCount s.word_to_document_freqs_ word = 0 := by
        rw [mapCount_eq_zero_iff, hw]
        simp
      obtain ⟨acc₁, h₁, hk₁⟩ := addWordRelevance_total s filter
        (ln ((GetDocumentCount s : ℚ) * 1 / (docs.length : ℚ))) docs acc hacc
      obtain ⟨acc', h', hk'⟩ := ih acc₁ hk₁
      refine ⟨acc', ?_, hk'⟩
      have hidf : ComputeWordInverseDocumentFreq ln s word =
          some (ln ((GetDocumentCount s : ℚ) * 1 / (docs.length : ℚ))) := by
        unfold ComputeWordInverseDocumentFreq mapAt
        rw [hw]
        rfl
      rw [addPlusWords, if_neg hc, hidf]
      unfold mapAt
      rw [hw]
      show (addWordRelevance s filter _ docs acc).bind _ = _
      rw [h₁]
      exact h'

/-- In every state `FindTopDocuments` does not throw: a document gets into the
map of relevances only after the check that it is in the store. -/
theorem FindTopDocuments_total (ln : ℚ → R) (s : Server) (raw_query : String)
    (filter : Int → DocumentStatus → Int → Bool) :
    ∃ result, FindTopDocuments ln s raw_query filter = some result := by
  obtain ⟨acc₁, h₁, hk₁⟩ := addPlusWords_total ln s filter (ParseQuery s raw_query).plus_words
    [] (fun id hid => absurd hid (List.not_mem_nil id))
  obtain ⟨acc₂, h₂, _, hv₂⟩ := eraseMinusWords_spec s (ParseQuery s raw_query).minus_words acc₁
  have hk₂ : ∀ id ∈ mapKeys acc₂, id ∈ mapKeys s.documents_ := by
    intro id hid
    apply hk₁
    rw [← mapFind_isSome_iff] at hid ⊢
    rw [hv₂ id] at hid
    by_cases hm : inSomeEntry s (ParseQuery s raw_query).minus_words id = true
    · rw [if_pos hm] at hid
      exact Bool.noConfusion hid
    · rw [if_neg hm] at hid
      exact hid
  obtain ⟨l, hl, hl'⟩ := collectDocuments_total s acc₂ hk₂
  obtain ⟨l', hkeep⟩ := keepFiltered_total s filter l hl'
  have hall : FindAllDocuments ln s (ParseQuery s raw_query) filter = some l := by
    unfold FindAllDocuments
    rw [h₁]
    show (eraseMinusWords s (ParseQuery s raw_query).minus_words acc₁).bind _ = _
    rw [h₂]
    exact hl
  refine ⟨topOf l', ?_⟩
  unfold FindTopDocuments
  show (FindAllDocuments ln s (ParseQuery s raw_query) filter).bind _ = _
  rw [hall]
  show (keepFiltered s filter l).bind _ = _
  rw [hkeep]
  show (if _ then _ else _) = _
  unfold topOf
  split <;> rfl

end Total

/-- C19: the invariant of the index holds of the fresh server and is kept by
every call of `SetStopWords` and of `AddDocument`: every document id of an
entry of the inverted index is a key of the document store, every entry of the
index holds a document id, and every stored term frequency is positive. In a
state with the invariant every lookup of the store for a document of the index
finds its entry, the divisor of the inverse document frequency of an indexed
word is at least 1, and `FindTopDocuments` fails for no query and no
predicate. -/
theorem index_invariant {R : Type} [LinearOrderedField R] (ln : ℚ → R) :
    IndexInvariant Server.empty ∧
    (∀ s text, IndexInvariant s → IndexInvariant (SetStopWords s text)) ∧
    (∀ s document_id document status ratings, IndexInvariant s →
      IndexInvariant (AddDocument s document_id document status ratings)) ∧
    (∀ s, IndexInvariant s →
      (∀ word docs, mapFind s.word_to_document_freqs_ word = some docs →
        1 ≤ docs.length ∧
        ComputeWordInverseDocumentFreq ln s word =
          some (ln ((GetDocumentCount s : ℚ) * 1 / (docs.length : ℚ))) ∧
        ∀ id tf, (id, tf) ∈ docs → 0 < tf ∧ ∃ data, mapAt s.documents_ id = some data) ∧
      ∀ (raw_query : String) (filter : Int → DocumentStatus → Int → Bool),
        ∃ result, FindTopDocuments ln s raw_query filter = some result) := by
  refine ⟨indexInvariant_empty, indexInvariant_setStopWords, indexInvariant_addDocument, ?_⟩
  intro s hs
  refine ⟨?_, FindTopDocuments_total ln s⟩
  intro word docs hdocs
  have hentry : (word, docs) ∈ s.word_to_document_freqs_ := mem_of_mapFind_eq_some hdocs
  refine ⟨?_, ?_, ?_⟩
  · have := hs.nonempty _ hentry
    exact List.length_pos.2 this
  · unfold ComputeWordInverseDocumentFreq mapAt
    rw [hdocs]
    rfl
  · intro id tf hmem
    refine ⟨hs.positive _ hentry _ hmem, ?_⟩
    have := hs.ids _ hentry _ hmem
    exact Option.isSome_iff_exists.1 ((mapFind_isSome_iff _ _).2 this)

/-- C19, on the server of `TestSimpleSearch`: the invariant holds after the
five calls of `AddDocument`, the entry of `city` holds three documents, and the
query `city` returns a list. -/
theorem index_invariant_witness :
    IndexInvariant simpleSearchServer ∧
    mapFind simpleSearchServer.word_to_document_freqs_ "city" =
      some [(0, 1 / 5), (1, 1 / 6), (2, 1 / 2)] ∧
    ∃ result,
      FindTopDocuments (fun x : ℚ => Real.log (x : ℝ)) simpleSearchServer "city"
        actualFilter = some result := by
  obtain ⟨h0, _, hadd, huse⟩ := index_invariant (fun x : ℚ => Real.log (x : ℝ))
  have hinv : IndexInvariant simpleSearchServer :=
    hadd _ _ _ _ _ (hadd _ _ _ _ _ (hadd _ _ _ _ _ (hadd _ _ _ _ _ (hadd _ _ _ _ _ h0))))
  exact ⟨hinv, by decide!, (huse _ hinv).2 "city" actualFilter⟩

/-! ## The sign of the relevance -/

/-- In a reachable state an entry of the index holds at least one document
and at most as many documents as the store. -/
theorem Reachable.entry_length {s : Server} (hs : Reachable s) (word : String)
    (docs : List (Int × ℚ)) (h : mapFind s.word_to_document_freqs_ word = some docs) :
    1 ≤ docs.length ∧ docs.length ≤ s.documents_.length := by
  have hentry : (word, docs) ∈ s.word_to_document_freqs_ := mem_of_mapFind_eq_some h
  refine ⟨List.length_pos.2 (hs.indexInvariant.nonempty _ hentry), ?_⟩
  have hnd : (mapKeys docs).Nodup := hs.wellFormed.entriesNodup word docs h
  have hsub : mapKeys docs ⊆ mapKeys s.documents_ := by
    intro id hid
    obtain ⟨p, hp, rfl⟩ := List.mem_map.1 hid
    exact hs.indexInvariant.ids _ hentry p hp
  have := (List.subperm_of_subset hnd hsub).length_le
  simpa [mapKeys] using this

/-- In a reachable state an entry of the index that holds every document of
the store has as many documents as the store. -/
theorem Reachable.entry_length_eq {s : Server} (hs : Reachable s) (word : String)
    (docs : List (Int × ℚ)) (h : mapFind s.word_to_document_freqs_ word = some docs)
    (hall : ∀ id ∈ mapKeys s.documents_, inIndexEntry s word id = true) :
    docs.length = s.documents_.length := by
  have hlen := hs.entry_length word docs h
  have hsub : mapKeys s.documents_ ⊆ mapKeys docs := by
    intro id hid
    have hin := hall id hid
    unfold inIndexEntry at hin
    rw [h] at hin
    exact (mapFind_isSome_iff docs id).1 hin
  have hge := (List.subperm_of_subset (List.Sorted.nodup hs.wellFormed.documents)
    hsub).length_le
  simp only [mapKeys, List.length_map] at hge
  omega

theorem storedFreq_nonneg {s : Server} (hs : Reachable s) (word : String) (id : Int) :
    0 ≤ storedFreq s word id := by
  unfold storedFreq
  cases h : mapFind s.word_to_document_freqs_ word with
  | none => exact le_refl _
  | some docs =>
    simp only
    cases hd : mapFind docs id with
    | none => exact le_refl _
    | some tf =>
      exact le_of_lt (hs.indexInvariant.positive _ (mem_of_mapFind_eq_some h) _
        (mem_of_mapFind_eq_some hd))

theorem documentFreq_of_entry (s : Server) (word : String) (docs : List (Int × ℚ))
    (h : mapFind s.word_to_document_freqs_ word = some docs) :
    documentFreq s word = docs.length := by
  unfold documentFreq
  rw [h]

theorem indexed_of_inIndexEntry {s : Server} {word : String} {id : Int}
    (h : inIndexEntry s word id = true) :
    ∃ docs, mapFind s.word_to_document_freqs_ word = some docs := by
  unfold inIndexEntry at h
  cases hd : mapFind s.word_to_document_freqs_ word with
  | none =>
    rw [hd] at h
    exact Bool.noConfusion h
  | some docs => exact ⟨docs, rfl⟩

/-- C16, as amended: with `ln 1 = 0`, in every reachable state, for every raw
query and every predicate: when every plus-word of the parsed query that is in
the index has as many documents in its index entry as `GetDocumentCount()`
says (`df = N`), every document returned by `FindTopDocuments` has the
relevance 0; this is so on every server with a single document; and it is so
when the store holds at most `2^31 - 1` documents and every plus-word that is
in the index has every document of the store in its index entry. -/
theorem FindTopDocuments_relevance_zero {R : Type} [LinearOrderedField R] (ln : ℚ → R)
    (hln : ln 1 = 0) (s : Server) (hs : Reachable s) (raw_query : String)
    (filter : Int → DocumentStatus → Int → Bool) :
    ((∀ w ∈ (ParseQuery s raw_query).plus_words,
        (mapFind s.word_to_document_freqs_ w).isSome = true →
        (documentFreq s w : Int) = GetDocumentCount s) →
      ∃ result, FindTopDocuments ln s raw_query filter = some result ∧
        ∀ d ∈ result, d.relevance = 0) ∧
    (s.documents_.length = 1 →
      ∃ result, FindTopDocuments ln s raw_query filter = some result ∧
        ∀ d ∈ result, d.relevance = 0) ∧
    (s.documents_.length ≤ 2147483647 →
      (∀ w ∈ (ParseQuery s raw_query).plus_words,
        (mapFind s.word_to_document_freqs_ w).isSome = true →
        ∀ id ∈ mapKeys s.documents_, inIndexEntry s w id = true) →
      ∃ result, FindTopDocuments ln s raw_query filter = some result ∧
        ∀ d ∈ result, d.relevance = 0) := by
  have hmain : (∀ w ∈ (ParseQuery s raw_query).plus_words,
        (mapFind s.word_to_document_freqs_ w).isSome = true →
        (documentFreq s w : Int) = GetDocumentCount s) →
      ∃ result, FindTopDocuments ln s raw_query filter = some result ∧
        ∀ d ∈ result, d.relevance = 0 := by
    intro hdf
    refine ⟨_, FindTopDocuments_eq ln s hs.wellFormed raw_query filter, ?_⟩
    intro d hd
    obtain ⟨data, _, _, h3, _⟩ := candidate_facts hs.wellFormed (mem_of_mem_topOf hd)
    rw [h3]
    unfold relevanceOf
    apply List.sum_eq_zero
    intro x hx
    obtain ⟨w, hw, rfl⟩ := List.mem_map.1 hx
    obtain ⟨hwplus, hin⟩ := List.mem_filter.1 hw
    obtain ⟨docs, hdocs⟩ := indexed_of_inIndexEntry hin
    have hN := hdf w hwplus (by rw [hdocs]; rfl)
    have hpos : 1 ≤ docs.length := (hs.entry_length w docs hdocs).1
    rw [documentFreq_of_entry s w docs hdocs] at hN ⊢
    have hcast : (GetDocumentCount s : ℚ) = (docs.length : ℚ) := by
      rw [← hN]
      simp
    have hne : (docs.length : ℚ) ≠ 0 := by
      have : docs.length ≠ 0 := by omega
      exact_mod_cast this
    rw [hcast, mul_one, div_self hne, hln, mul_zero]
  refine ⟨hmain, ?_, ?_⟩
  · intro hone
    apply hmain
    intro w _ hindexed
    obtain ⟨docs, hdocs⟩ := Option.isSome_iff_exists.1 hindexed
    have hlen := hs.entry_length w docs hdocs
    rw [documentFreq_of_entry s w docs hdocs]
    unfold GetDocumentCount
    rw [hone] at hlen ⊢
    have : docs.length = 1 := by omega
    rw [this]
    decide
  · intro hcount hall
    apply hmain
    intro w hw hindexed
    obtain ⟨docs, hdocs⟩ := Option.isSome_iff_exists.1 hindexed
    rw [documentFreq_of_entry s w docs hdocs,
      hs.entry_length_eq w docs hdocs (hall w hw hindexed)]
    unfold GetDocumentCount
    rw [wrapInt32_of_range _ (by omega) (by omega)]

/-- C16, on the first server of `TestRelevanceCalculationAndRelevanceSort`:
the sole document `test text with no dark jokes` and the query `text` give one
result, the document 0, with the relevance 0. -/
theorem FindTopDocuments_relevance_zero_witness :
    Real.log ((1 : ℚ) : ℝ) = 0 ∧
    Reachable singleDocumentServer ∧
    singleDocumentServer.documents_.length = 1 ∧
    ∃ result,
      FindTopDocuments (fun x : ℚ => Real.log (x : ℝ)) singleDocumentServer "text"
        actualFilter = some result ∧
      result.map (fun d => d.id) = [0] ∧ ∀ d ∈ result, d.relevance = 0 := by
  have hln : Real.log ((1 : ℚ) : ℝ) = 0 := by
    rw [Rat.cast_one, Real.log_one]
  have hreach : Reachable singleDocumentServer :=
    Reachable.addDocument _ _ _ _ _ Reachable.empty
  have hone : singleDocumentServer.documents_.length = 1 := by decide!
  obtain ⟨result, hres, hzero⟩ :=
    (FindTopDocuments_relevance_zero (fun x : ℚ => Real.log (x : ℝ)) hln singleDocumentServer
      hreach "text" actualFilter).2.1 hone
  refine ⟨hln, hreach, hone, result, hres, ?_, hzero⟩
  have heq := FindTopDocuments_eq (fun x : ℚ => Real.log (x : ℝ)) singleDocumentServer
    hreach.wellFormed "text" actualFilter
  rw [hres] at heq
  have hkeys : mapKeys (singleDocumentServer.documents_.filter
      (qualifies singleDocumentServer (ParseQuery singleDocumentServer "text")
        actualFilter)) = [0] := by decide!
  have hlen : (candidates (fun x : ℚ => Real.log (x : ℝ)) singleDocumentServer
      (ParseQuery singleDocumentServer "text") actualFilter).length ≤
        MAX_RESULT_DOCUMENT_COUNT := by
    rw [← List.length_map _ (fun d => d.id), candidates_map_id, hkeys]
    decide
  have hperm := (topOf_perm hlen).map (fun d => d.id)
  rw [candidates_map_id, hkeys, ← Option.some.inj heq] at hperm
  exact List.perm_singleton.1 hperm

/-- C20, as amended: in every reachable state whose number of documents is at
most `2^31 - 1`, for every raw query and every predicate, every document
returned by `FindTopDocuments` has a relevance that is at least 0, with the
real logarithm: every entry of the index holds at least one document and at
most `GetDocumentCount()` documents, so its inverse document frequency
`ln (N / df)` is at least 0, and every stored term frequency is positive. -/
theorem FindTopDocuments_relevance_nonneg (s : Server) (hs : Reachable s)
    (hcount : s.documents_.length ≤ 2147483647) (raw_query : String)
    (filter : Int → DocumentStatus → Int → Bool) :
    (∀ word docs, mapFind s.word_to_document_freqs_ word = some docs →
      1 ≤ docs.length ∧ (docs.length : Int) ≤ GetDocumentCount s ∧
      0 ≤ Real.log (((GetDocumentCount s : ℚ) * 1 / (docs.length : ℚ) : ℚ) : ℝ) ∧
      ∀ p ∈ docs, 0 < p.2) ∧
    ∃ result,
      FindTopDocuments (fun x : ℚ => Real.log (x : ℝ)) s raw_query filter = some result ∧
      ∀ d ∈ result, 0 ≤ d.relevance := by
  have hN : GetDocumentCount s = (s.documents_.length : Int) := by
    unfold GetDocumentCount
    exact wrapInt32_of_range _ (by omega) (by omega)
  have hidf : ∀ word docs, mapFind s.word_to_document_freqs_ word = some docs →
      0 ≤ Real.log (((GetDocumentCount s : ℚ) * 1 / (docs.length : ℚ) : ℚ) : ℝ) := by
    intro word docs hdocs
    have hlen := hs.entry_length word docs hdocs
    apply Real.log_nonneg
    rw [hN]
    push_cast
    rw [mul_one, le_div_iff₀ (by exact_mod_cast hlen.1), one_mul]
    exact_mod_cast hlen.2
  refine ⟨?_, ?_⟩
  · intro word docs hdocs
    have hlen := hs.entry_length word docs hdocs
    refine ⟨hlen.1, ?_, hidf word docs hdocs, ?_⟩
    · rw [hN]
      exact_mod_cast hlen.2
    · exact fun p hp => hs.indexInvariant.positive _ (mem_of_mapFind_eq_some hdocs) p hp
  · refine ⟨_, FindTopDocuments_eq _ s hs.wellFormed raw_query filter, ?_⟩
    intro d hd
    obtain ⟨data, _, _, h3, _⟩ := candidate_facts hs.wellFormed (mem_of_mem_topOf hd)
    rw [h3]
    unfold relevanceOf
    apply List.sum_nonneg
    intro x hx
    obtain ⟨w, hw, rfl⟩ := List.mem_map.1 hx
    obtain ⟨_, hin⟩ := List.mem_filter.1 hw
    obtain ⟨docs, hdocs⟩ := indexed_of_inIndexEntry hin
    rw [documentFreq_of_entry s w docs hdocs]
    apply mul_nonneg
    · exact_mod_cast storedFreq_nonneg hs w d.id
    · exact hidf w docs hdocs

/-! ## A store with more documents than an `int` can count -/

/-- Calls of `AddDocument` with pairwise distinct ids that are not in the
store add one document each. -/
theorem length_documents_addDocuments (s : Server) (calls : List AddDocumentCall)
    (hnd : (calls.map (fun c => c.document_id)).Nodup)
    (hfresh : ∀ c ∈ calls, mapFind s.documents_ c.document_id = none) :
    (addDocuments s calls).documents_.length = s.documents_.length + calls.length := by
  induction calls generalizing s with
  | nil => rfl
  | cons c calls ih =>
    simp only [List.map_cons, List.nodup_cons] at hnd
    rw [show addDocuments s (c :: calls) =
      addDocuments (AddDocument s c.document_id c.document c.status c.ratings) calls from rfl,
      ih _ hnd.2, documents_addDocument,
      mapEmplace_of_not_mem _ _ _ (hfresh c (List.mem_cons_self _ _)), length_mapInsertNew,
      List.length_cons]
    · omega
    · intro c' hc'
      rw [mapFind_documents_addDocument]
      have hne : c'.document_id ≠ c.document_id := by
        intro h
        exact hnd.1 (h ▸ List.mem_map_of_mem (fun c => c.document_id) hc')
      rw [if_neg hne]
      exact hfresh c' (List.mem_cons_of_mem _ hc')

theorem manyDocuments_ids (n : Nat) :
    (manyDocuments n).map (fun c => c.document_id) =
      -1 :: List.map (fun i : Nat => (i : Int)) (List.range n) := by
  simp [manyDocuments, List.map_map, Function.comp_def]

theorem manyDocuments_nodup (n : Nat) :
    ((manyDocuments n).map (fun c => c.document_id)).Nodup := by
  rw [manyDocuments_ids, List.nodup_cons]
  constructor
  · intro h
    obtain ⟨i, _, hi⟩ := List.mem_map.1 h
    omega
  · refine List.Nodup.map ?_ (List.nodup_range n)
    intro i j hij
    simp only at hij
    omega

theorem manyDocuments_length (n : Nat) : (manyDocuments n).length = n + 1 := by
  simp [manyDocuments]

/-- The ids of the calls are `-1`, `0`, ..., `n - 1`, and every text is `a`. -/
theorem manyDocuments_calls (n : Nat) :
    ∀ c ∈ manyDocuments n,
      -1 ≤ c.document_id ∧ c.document_id < (n : Int) ∧ c.document = "a" ∧
      c.status = DocumentStatus.ACTUAL := by
  intro c hc
  rcases List.mem_cons.1 hc with rfl | hc
  · refine ⟨le_refl _, ?_, rfl, rfl⟩
    show (-1 : Int) < (n : Int)
    omega
  · obtain ⟨i, hi, rfl⟩ := List.mem_map.1 hc
    have := List.mem_range.1 hi
    exact ⟨by simp only; omega, by simp only; omega, rfl, rfl⟩

/-- The parsed query depends on the server through its stop words only. -/
theorem ParseQuery_congr {s s' : Server} (h : s'.stop_words_ = s.stop_words_)
    (text : String) : ParseQuery s' text = ParseQuery s text := by
  unfold ParseQuery ParseQueryWord IsStopWord
  rw [h]

theorem two_le_length_of_mem {α : Type} {l : List α} {a b : α} (hab : a ≠ b)
    (ha : a ∈ l) (hb : b ∈ l) : 2 ≤ l.length := by
  match l, ha, hb with
  | [], ha, _ => simp at ha
  | [x], ha, hb =>
    simp only [List.mem_singleton] at ha hb
    exact absurd (ha.trans hb.symm) hab
  | _ :: _ :: _, _, _ => simp

/-- On the server with the `n + 1` documents `-1`, `0`, ..., `n - 1`, each of
text `a`: the store holds `n + 1` documents, `GetDocumentCount()` returns this
number converted to `int`, the index entry of `a` holds the `n + 1` documents,
and the query `a` returns documents, each with the relevance
`ln (GetDocumentCount() * 1 / (n + 1))`. -/
theorem manyDocuments_result {R : Type} [LinearOrderedField R] (ln : ℚ → R) (n : Nat) :
    Reachable (addDocuments Server.empty (manyDocuments n)) ∧
    (addDocuments Server.empty (manyDocuments n)).documents_.length = n + 1 ∧
    GetDocumentCount (addDocuments Server.empty (manyDocuments n)) =
      wrapInt32 ((n + 1 : Nat) : Int) ∧
    documentFreq (addDocuments Server.empty (manyDocuments n)) "a" = n + 1 ∧
    ParseQuery (addDocuments Server.empty (manyDocuments n)) "a" = ⟨["a"], []⟩ ∧
    (∀ id ∈ mapKeys (addDocuments Server.empty (manyDocuments n)).documents_,
      inIndexEntry (addDocuments Server.empty (manyDocuments n)) "a" id = true) ∧
    ∃ result,
      FindTopDocuments ln (addDocuments Server.empty (manyDocuments n)) "a" actualFilter =
        some result ∧
      result ≠ [] ∧
      ∀ d ∈ result, d.relevance =
        ln ((wrapInt32 ((n + 1 : Nat) : Int) : ℚ) * 1 / ((n + 1 : Nat) : ℚ)) := by
  generalize hs : addDocuments Server.empty (manyDocuments n) = s
  have hreach : Reachable s := hs ▸ Reachable.empty.addDocuments _
  have hlen : s.documents_.length = n + 1 := by
    rw [← hs, length_documents_addDocuments Server.empty _ (manyDocuments_nodup n)
      (fun _ _ => rfl),
      manyDocuments_length]
    exact Nat.zero_add _
  have hN : GetDocumentCount s = wrapInt32 ((n + 1 : Nat) : Int) := by
    unfold GetDocumentCount
    rw [hlen]
  have hquery : ParseQuery s "a" = ⟨["a"], []⟩ := by
    rw [← hs, ParseQuery_congr (stop_words_addDocuments _ _)]
    decide!
  have hwords : SplitIntoWordsNoStop Server.empty "a" = ["a"] := by decide!
  have hfreq : ∀ c ∈ manyDocuments n,
      freqAt s.word_to_document_freqs_ "a" c.document_id = some 1 := by
    intro c hc
    rw [← hs, freqAt_addDocuments Server.empty _ (manyDocuments_nodup n)
      (fun _ _ _ => rfl) c hc,
      (manyDocuments_calls n c hc).2.2.1, hwords]
    simp
  have hstored : ∀ id ∈ mapKeys s.documents_,
      freqAt s.word_to_document_freqs_ "a" id = some 1 := by
    intro id hid
    have hsome := (mapFind_isSome_iff s.documents_ id).2 hid
    obtain ⟨data, hdata⟩ := Option.isSome_iff_exists.1 hsome
    rw [← hs] at hdata
    rcases mem_of_mapFind_documents_addDocuments _ _ _ _ hdata with h | ⟨c, hc, hcid⟩
    · exact Bool.noConfusion h
    · rw [← hcid]
      exact hfreq c hc
  have hall : ∀ id ∈ mapKeys s.documents_, inIndexEntry s "a" id = true := by
    intro id hid
    rw [inIndexEntry_eq_freqAt, hstored id hid]
    rfl
  have h0 := hfreq _ (List.mem_cons_self _ _)
  simp only at h0
  unfold freqAt at h0
  cases hentry : mapFind s.word_to_document_freqs_ "a" with
  | none =>
    rw [hentry] at h0
    exact Option.noConfusion h0
  | some docs =>
    rw [hentry] at h0
    simp only [Option.some_bind] at h0
    have hdf : docs.length = n + 1 := by
      rw [hreach.entry_length_eq "a" docs hentry hall, hlen]
    have hstore : mapFind s.documents_ (-1) =
        some ⟨ComputeAverageRating [], DocumentStatus.ACTUAL⟩ := by
      rw [← hs, mapFind_documents_addDocuments]
      rfl
    refine ⟨hreach, hlen, hN, ?_, hquery, hall, _,
      FindTopDocuments_eq _ s hreach.wellFormed "a" actualFilter, ?_, ?_⟩
    · rw [documentFreq_of_entry s "a" docs hentry]
      exact hdf
    · have hplus : inSomeEntry s (ParseQuery s "a").plus_words (-1) = true := by
        rw [hquery]
        exact inSomeEntry_eq_true.2 ⟨"a", List.mem_singleton_self _,
          by rw [inIndexEntry_of_entry s "a" docs hentry (-1), h0]; rfl⟩
      have hminus : inSomeEntry s (ParseQuery s "a").minus_words (-1) = false := by
        rw [hquery]
        rfl
      have hcand : ∃ d ∈ candidates ln s (ParseQuery s "a") actualFilter, d.id = -1 :=
        candidate_of_facts _ hstore rfl hplus hminus
      obtain ⟨d, hd, _⟩ := hcand
      intro hnil
      have hlen5 := topOf_length (candidates ln s (ParseQuery s "a") actualFilter)
      rw [hnil] at hlen5
      have hpos : 0 < (candidates ln s (ParseQuery s "a") actualFilter).length :=
        List.length_pos_of_mem hd
      have h5 : MAX_RESULT_DOCUMENT_COUNT = 5 := rfl
      rw [h5] at hlen5
      simp only [List.length_nil] at hlen5
      omega
    · intro d hd
      obtain ⟨data, hdata, _, hrel, _, _, _⟩ :=
        candidate_facts hreach.wellFormed (mem_of_mem_topOf hd)
      rw [hquery] at hrel
      have htf := hstored d.id
        ((mapFind_isSome_iff s.documents_ d.id).1 (by rw [hdata]; rfl))
      unfold freqAt at htf
      rw [hentry] at htf
      simp only [Option.some_bind] at htf
      rw [hrel, relevanceOf_cons_of_entry _ s "a" [] d.id docs hentry, relevanceOf_nil, add_zero,
        htf, hN, hdf]
      simp only [Option.isSome_some, if_true, Option.getD_some, Rat.cast_one, one_mul]

/-- C20 fails as it is stated: after `2^31 + 1` calls of `AddDocument` with the
distinct `int` ids `-1`, `0`, ..., `2^31 - 1` and the text `a`, a reachable
state, the store holds `2^31 + 1` documents and `GetDocumentCount()`, which
converts this number to `int`, returns `-2147483647`, while the index entry of
`a` holds the `2^31 + 1` documents: the number of documents with the word is
not at most `GetDocumentCount()`. For every function `ln`, the query `a`
returns documents and each has the relevance
`ln (-2147483647 * 1 / 2147483649)`, the logarithm of a negative number, which
is less than 0 for the logarithm of the absolute value. -/
theorem FindTopDocuments_relevance_nonneg_counterexample :
    Reachable hugeServer ∧
    (∀ c ∈ manyDocuments 2147483648,
      -2147483648 ≤ c.document_id ∧ c.document_id ≤ 2147483647) ∧
    hugeServer.documents_.length = 2147483649 ∧
    GetDocumentCount hugeServer = -2147483647 ∧
    documentFreq hugeServer "a" = 2147483649 ∧
    ¬ ((documentFreq hugeServer "a" : Int) ≤ GetDocumentCount hugeServer) ∧
    ((-2147483647 : ℚ) * 1 / 2147483649 < 0) ∧
    (∀ ln : ℚ → ℝ, ∃ result,
      FindTopDocuments ln hugeServer "a" actualFilter = some result ∧
      result ≠ [] ∧ ∀ d ∈ result, d.relevance = ln ((-2147483647 : ℚ) * 1 / 2147483649)) ∧
    ∃ result,
      FindTopDocuments (fun x : ℚ => Real.log (x : ℝ)) hugeServer "a" actualFilter =
        some result ∧
      result ≠ [] ∧ ∀ d ∈ result, d.relevance < 0 := by
  have hwrap : wrapInt32 ((2147483648 + 1 : Nat) : Int) = -2147483647 := by decide
  have hgen : ∀ ln : ℚ → ℝ, ∃ result,
      FindTopDocuments ln hugeServer "a" actualFilter = some result ∧
      result ≠ [] ∧
      ∀ d ∈ result, d.relevance = ln ((-2147483647 : ℚ) * 1 / 2147483649) := by
    intro ln
    obtain ⟨_, _, _, _, _, _, result, hres, hne, hrel⟩ := manyDocuments_result ln 2147483648
    refine ⟨result, hres, hne, fun d hd => ?_⟩
    rw [hrel d hd, hwrap]
    norm_num
  obtain ⟨h1, h2, h3, h4, _, _, _⟩ :=
    manyDocuments_result (fun x : ℚ => Real.log (x : ℝ)) 2147483648
  have hN : GetDocumentCount hugeServer = -2147483647 := h3.trans hwrap
  have hdf : documentFreq hugeServer "a" = 2147483649 := h4
  refine ⟨h1, ?_, h2, hN, hdf, ?_, by norm_num, hgen, ?_⟩
  · intro c hc
    have := manyDocuments_calls 2147483648 c hc
    omega
  · rw [hN, hdf]
    decide
  · obtain ⟨result, hres, hne, hrel⟩ := hgen (fun x : ℚ => Real.log (x : ℝ))
    refine ⟨result, hres, hne, fun d hd => ?_⟩
    rw [hrel d hd]
    have hx : (((-2147483647 : ℚ) * 1 / 2147483649 : ℚ) : ℝ) = -(2147483647 / 2147483649) := by
      push_cast
      ring
    rw [hx, Real.log_neg_eq_log]
    exact Real.log_neg (by norm_num) (by norm_num)

/-- C16 fails as it is stated: on the reachable server with the `2^31 + 1`
documents `-1`, `0`, ..., `2^31 - 1` of text `a`, the only plus-word of the
query `a` is `a`, which is in the index entry of every document of the store,
and `GetDocumentCount()` returns `-2147483647`, not the number of documents.
For every function `ln`, the query `a` returns documents and each has the
relevance `ln (-2147483647 * 1 / 2147483649)` and not `ln 1`; it is not 0 for
the logarithm of the absolute value. -/
theorem FindTopDocuments_relevance_zero_counterexample :
    Real.log ((1 : ℚ) : ℝ) = 0 ∧
    Reachable hugeServer ∧
    (∀ c ∈ manyDocuments 2147483648,
      -2147483648 ≤ c.document_id ∧ c.document_id ≤ 2147483647) ∧
    (ParseQuery hugeServer "a").plus_words = ["a"] ∧
    (∀ id ∈ mapKeys hugeServer.documents_, inIndexEntry hugeServer "a" id = true) ∧
    GetDocumentCount hugeServer = -2147483647 ∧
    documentFreq hugeServer "a" = 2147483649 ∧
    ((-2147483647 : ℚ) * 1 / 2147483649 ≠ 1) ∧
    (∀ ln : ℚ → ℝ, ∃ result,
      FindTopDocuments ln hugeServer "a" actualFilter = some result ∧
      result ≠ [] ∧ ∀ d ∈ result, d.relevance = ln ((-2147483647 : ℚ) * 1 / 2147483649)) ∧
    ∃ result,
      FindTopDocuments (fun x : ℚ => Real.log (x : ℝ)) hugeServer "a" actualFilter =
        some result ∧
      result ≠ [] ∧ ∀ d ∈ result, d.relevance ≠ 0 := by
  have hwrap : wrapInt32 ((2147483648 + 1 : Nat) : Int) = -2147483647 := by decide
  have hgen : ∀ ln : ℚ → ℝ, ∃ result,
      FindTopDocuments ln hugeServer "a" actualFilter = some result ∧
      result ≠ [] ∧
      ∀ d ∈ result, d.relevance = ln ((-2147483647 : ℚ) * 1 / 2147483649) := by
    intro ln
    obtain ⟨_, _, _, _, _, _, result, hres, hne, hrel⟩ := manyDocuments_result ln 2147483648
    refine ⟨result, hres, hne, fun d hd => ?_⟩
    rw [hrel d hd, hwrap]
    norm_num
  obtain ⟨h1, _, h3, h4, hquery, hall, _⟩ :=
    manyDocuments_result (fun x : ℚ => Real.log (x : ℝ)) 2147483648
  refine ⟨by rw [Rat.cast_one, Real.log_one], h1, ?_, ?_, hall, h3.trans hwrap, h4,
    by norm_num, hgen, ?_⟩
  · intro c hc
    have := manyDocuments_calls 2147483648 c hc
    omega
  · show (ParseQuery (addDocuments Server.empty (manyDocuments 2147483648)) "a").plus_words = _
    rw [hquery]
  · obtain ⟨result, hres, hne, hrel⟩ := hgen (fun x : ℚ => Real.log (x : ℝ))
    refine ⟨result, hres, hne, fun d hd => ?_⟩
    rw [hrel d hd]
    have hx : (((-2147483647 : ℚ) * 1 / 2147483649 : ℚ) : ℝ) = -(2147483647 / 2147483649) := by
      push_cast
      ring
    rw [hx, Real.log_neg_eq_log]
    exact ne_of_lt (Real.log_neg (by norm_num) (by norm_num))

/-- C20 as amended, on the second server of
`TestRelevanceCalculationAndRelevanceSort`: it has three documents, and the
query `text with` returns the documents 0 and 3, each with a relevance that is
at least 0. -/
theorem FindTopDocuments_relevance_nonneg_witness :
    Reachable relevanceServer ∧
    relevanceServer.documents_.length ≤ 2147483647 ∧
    ∃ result,
      FindTopDocuments (fun x : ℚ => Real.log (x : ℝ)) relevanceServer "text with"
        actualFilter = some result ∧
      result.map (fun d => d.id) = [0, 3] ∧ ∀ d ∈ result, 0 ≤ d.relevance := by
  have hlen : relevanceServer.documents_.length ≤ 2147483647 := by decide!
  obtain ⟨_, result, hres, hnonneg⟩ :=
    FindTopDocuments_relevance_nonneg relevanceServer relevanceServer_reachable hlen
      "text with" actualFilter
  refine ⟨relevanceServer_reachable, hlen, result, hres, ?_, hnonneg⟩
  have hlist := relevanceServer_result
  rw [FindTopDocumentsActual_eq, hres] at hlist
  rw [Option.some.inj hlist]
  rfl

end SearchServer
